import Mathlib

/-!
Shallow embedding of the radix-tree URL router of the `web` repository
(`node.go`, together with the registry-level pieces of `web.go`).

Go strings are modelled as `List Char`; Go byte indexing, slicing and the
`uint8`/`uint32` arithmetic of the source are made explicit.  Panics of the
source are modelled as an error value returned *together with* the mutated
state reached at the moment of the panic, so that the partially updated tree
remains observable, exactly as it would after `recover`.  The tree-walking
loops of `addRoute` and `getValue` descend into a child node on every
iteration, so they are embedded with an explicit fuel argument; any fuel at
least `sizeOf n` is sufficient (proved below), and the fuel-free wrappers use
exactly that bound.
-/

namespace Web

/-- Go `string`, viewed as its list of bytes/characters. -/
abbrev Str := List Char

/-- `HandlersChain` (`[]HandlerFunc`): handler functions are opaque, so the
chain is modelled as a list of opaque handler identifiers. -/
abbrev HandlersChain := List Nat

/-- Single URL parameter (`Param{Key, Value}`). -/
abbrev Param := Str × Str

/-- `nodeType` from `node.go`. -/
inductive NType where
  | static
  | root
  | param
  | catchAll
deriving DecidableEq

/-- The panic/runtime-error outcomes of the embedded code. -/
inductive RouteErr where
  | fuelExhausted
  | wildcardConflict
  | duplicateHandlers
  | onlyOneWildcardPerSeg
  | unnamedWildcard
  | wildcardChildConflict
  | catchAllNotAtEnd
  | catchAllRootSlashConflict
  | noSlashBeforeCatchAll
  | indexOutOfRange
  | invalidNodeType
  | sliceBound
  | assertFailed
deriving DecidableEq

/-- The `node` struct of `node.go`. -/
inductive Node where
  | mk (path : Str) (indices : Str) (children : List Node)
       (handlers : Option HandlersChain) (priority : Nat) (nType : NType)
       (maxParams : Nat) (wildChild : Bool) (fullPath : Str)

/-- Field `node.path`. -/
def Node.path : Node → Str
  | .mk p _ _ _ _ _ _ _ _ => p

/-- Field `node.indices`. -/
def Node.indices : Node → Str
  | .mk _ i _ _ _ _ _ _ _ => i

/-- Field `node.children`. -/
def Node.children : Node → List Node
  | .mk _ _ c _ _ _ _ _ _ => c

/-- Field `node.handlers`; `none` models a nil `HandlersChain`. -/
def Node.handlers : Node → Option HandlersChain
  | .mk _ _ _ h _ _ _ _ _ => h

/-- Field `node.priority` (uint32). -/
def Node.priority : Node → Nat
  | .mk _ _ _ _ p _ _ _ _ => p

/-- Field `node.nType`. -/
def Node.nType : Node → NType
  | .mk _ _ _ _ _ t _ _ _ => t

/-- Field `node.maxParams` (uint8). -/
def Node.maxParams : Node → Nat
  | .mk _ _ _ _ _ _ m _ _ => m

/-- Field `node.wildChild`. -/
def Node.wildChild : Node → Bool
  | .mk _ _ _ _ _ _ _ w _ => w

/-- Field `node.fullPath`. -/
def Node.fullPath : Node → Str
  | .mk _ _ _ _ _ _ _ _ f => f

/-- Functional update of `node.path`. -/
def Node.withPath : Node → Str → Node
  | .mk _ i c h p t m w f, x => .mk x i c h p t m w f

/-- Functional update of `node.indices`. -/
def Node.withIndices : Node → Str → Node
  | .mk a _ c h p t m w f, x => .mk a x c h p t m w f

/-- Functional update of `node.children`. -/
def Node.withChildren : Node → List Node → Node
  | .mk a i _ h p t m w f, x => .mk a i x h p t m w f

/-- Functional update of `node.handlers`. -/
def Node.withHandlers : Node → Option HandlersChain → Node
  | .mk a i c _ p t m w f, x => .mk a i c x p t m w f

/-- Functional update of `node.priority`. -/
def Node.withPriority : Node → Nat → Node
  | .mk a i c h _ t m w f, x => .mk a i c h x t m w f

/-- Functional update of `node.nType`. -/
def Node.withNType : Node → NType → Node
  | .mk a i c h p _ m w f, x => .mk a i c h p x m w f

/-- Functional update of `node.maxParams`. -/
def Node.withMaxParams : Node → Nat → Node
  | .mk a i c h p t _ w f, x => .mk a i c h p t x w f

/-- Functional update of `node.wildChild`. -/
def Node.withWildChild : Node → Bool → Node
  | .mk a i c h p t m _ f, x => .mk a i c h p t m x f

/-- Functional update of `node.fullPath`. -/
def Node.withFullPath : Node → Str → Node
  | .mk a i c h p t m w _, x => .mk a i c h p t m w x

/-- The zero value of the `node` struct (`new(node)`); also used as the
default result of list indexing whose out-of-range case is unreachable. -/
def emptyNode : Node := .mk [] [] [] none 0 .static 0 false []

/-- Go `uint32` increment (`n.priority++`). -/
def inc32 (x : Nat) : Nat := (x + 1) % 4294967296

/-- Go `uint32` decrement by one (`n.priority - 1`). -/
def dec32 (x : Nat) : Nat := (x + 4294967295) % 4294967296

/-- Go `uint8` decrement (`numParams--`). -/
def dec8 (x : Nat) : Nat := (x + 255) % 256

/-- `longestCommonPrefix` from `node.go`: length of the longest common
byte prefix of two strings. -/
def commonPrefixLen : Str → Str → Nat
  | a :: as, b :: bs => if a = b then commonPrefixLen as bs + 1 else 0
  | _, _ => 0

/-- The raw wildcard-sigil count of `countParams` before the 255 cap:
the number of ':' and '*' bytes in the path. -/
def rawParamCount (path : Str) : Nat :=
  path.countP (fun c => c == ':' || c == '*')

/-- `countParams` from `node.go`: the sigil count, capped at 255 so the
result fits in a `uint8`. -/
def countParams (path : Str) : Nat :=
  let n := rawParamCount path
  if n ≥ 255 then 255 else n

/-- Scanning helper of `findWildcard`: scans the bytes after a wildcard
sigil, returning the wildcard body (up to, excluding, the next '/') and
whether no further sigil occurred before that '/'. -/
def scanWildEnd : Str → Str × Bool
  | [] => ([], true)
  | c :: cs =>
    if c = '/' then ([], true)
    else
      let r := scanWildEnd cs
      (c :: r.1, if c = ':' ∨ c = '*' then false else r.2)

/-- `findWildcard` from `node.go`: the first wildcard segment of the path,
its byte position and its validity; `none` models the `i = -1` result. -/
def findWildcard : Str → Option (Str × Nat × Bool)
  | [] => none
  | c :: cs =>
    if c = ':' ∨ c = '*' then
      let r := scanWildEnd cs
      some (c :: r.1, 0, r.2)
    else
      match findWildcard cs with
      | some (w, i, v) => some (w, i + 1, v)
      | none => none

/-- Swap of the adjacent list entries at positions `i` and `i + 1`
(the swap step of `incrementChildPrio`). -/
def swapAdj (cs : List Node) (i : Nat) : List Node :=
  (cs.set i (cs.getD (i + 1) emptyNode)).set (i + 1) (cs.getD i emptyNode)

/-- The move-forward loop of `incrementChildPrio`: the child whose priority
became `prio` sits at the given position and is swapped towards the front
while the preceding sibling has a smaller priority; returns the reordered
children and the new position. -/
def bubbleUp (prio : Nat) : List Node → Nat → List Node × Nat
  | cs, 0 => (cs, 0)
  | cs, p + 1 =>
    if (cs.getD p emptyNode).priority < prio then
      bubbleUp prio (swapAdj cs p) p
    else (cs, p + 1)

/-- `incrementChildPrio` from `node.go`, acting on the `children`/`indices`
pair of a node: increments the priority of the child at `pos`, restores the
non-increasing priority order by adjacent swaps, and permutes the `indices`
string accordingly; returns the new children, indices and child position. -/
def incrementChildPrio (cs : List Node) (indices : Str) (pos : Nat) :
    List Node × Str × Nat :=
  let cs1 := cs.set pos
    ((cs.getD pos emptyNode).withPriority (inc32 (cs.getD pos emptyNode).priority))
  let prio := (cs1.getD pos emptyNode).priority
  let r := bubbleUp prio cs1 pos
  let newPos := r.2
  let indices1 :=
    if newPos ≠ pos then
      indices.take newPos ++ (indices.drop pos).take 1 ++
        (indices.drop newPos).take (pos - newPos) ++ indices.drop (pos + 1)
    else indices
  (r.1, indices1, newPos)

/-- `node.insertChild` from `node.go`: inserts the remaining (wildcard
bearing) path below the node, building `param`/`catchAll` structure; an
error value models the panic, returned with the state built so far. -/
def Node.insertChild : Nat → Str → Str → HandlersChain → Node → Node × Option RouteErr
  | 0, path, fullPath, handlers, n =>
    (((n.withPath path).withHandlers (some handlers)).withFullPath fullPath, none)
  | numParams + 1, path, fullPath, handlers, n =>
    match findWildcard path with
    | none =>
      (((n.withPath path).withHandlers (some handlers)).withFullPath fullPath, none)
    | some (wildcard, i, valid) =>
      if ¬ valid then (n, some .onlyOneWildcardPerSeg)
      else if wildcard.length < 2 then (n, some .unnamedWildcard)
      else if ¬ n.children.isEmpty then (n, some .wildcardChildConflict)
      else if wildcard.headD ' ' = ':' then
        let n := if i > 0 then n.withPath (path.take i) else n
        let path := if i > 0 then path.drop i else path
        let n := n.withWildChild true
        let child : Node := .mk wildcard [] [] none 1 .param (numParams + 1) false fullPath
        if wildcard.length < path.length then
          let path := path.drop wildcard.length
          let grand : Node := .mk [] [] [] none 1 .static numParams false fullPath
          let r := Node.insertChild numParams path fullPath handlers grand
          (n.withChildren [child.withChildren [r.1]], r.2)
        else
          (n.withChildren [child.withHandlers (some handlers)], none)
      else
        if i + wildcard.length ≠ path.length ∨ numParams + 1 > 1 then
          (n, some .catchAllNotAtEnd)
        else if n.path ≠ [] ∧ n.path.getLastD ' ' = '/' then
          (n, some .catchAllRootSlashConflict)
        else if i = 0 then (n, some .indexOutOfRange)
        else
          let i := i - 1
          if path.getD i ' ' ≠ '/' then (n, some .noSlashBeforeCatchAll)
          else
            let leaf : Node :=
              .mk (path.drop i) [] [] (some handlers) 1 .catchAll 1 false fullPath
            let anchor : Node := .mk [] [] [leaf] none 1 .catchAll 1 true fullPath
            let n := ((((n.withPath (path.take i)).withMaxParams
              (max n.maxParams 1)).withChildren [anchor]).withIndices ['/'])
            (n, none)

/-- The edge-splitting step of `addRoute` (lines splitting the current node
when the common prefix is shorter than its segment): the node's suffix,
children and handlers are demoted into a fresh child and the node shrinks to
the common prefix. -/
def splitEdge (n : Node) (i : Nat) (path fullPath : Str) (pIdx : Nat) : Node :=
  let child : Node := .mk (n.path.drop i) n.indices n.children n.handlers
    (dec32 n.priority) .static
    (n.children.foldl (fun acc c => max acc c.maxParams) 0) n.wildChild n.fullPath
  .mk (path.take i) [n.path.getD i ' '] [child] none n.priority n.nType
    n.maxParams false (fullPath.take (pIdx + i))

/-- The `walk` loop of `node.addRoute`, with explicit fuel; each iteration
handles the current node and descends into a child.  The result pairs the
updated node with the panic, if any, raised during this registration. -/
def Node.addRouteW : Nat → Node → Nat → Str → Str → Nat → HandlersChain →
    Option (Node × Option RouteErr)
  | 0, _, _, _, _, _, _ => none
  | fuel + 1, n, numParams, path, fullPath, pIdx, handlers =>
    let n := if numParams > n.maxParams then n.withMaxParams numParams else n
    let i := commonPrefixLen path n.path
    let n := if i < n.path.length then splitEdge n i path fullPath pIdx else n
    if i < path.length then
      let path := path.drop i
      if n.wildChild then
        let pIdx := pIdx + n.path.length
        let c0 := n.children.getD 0 emptyNode
        let c0 := c0.withPriority (inc32 c0.priority)
        let c0 := if numParams > c0.maxParams then c0.withMaxParams numParams else c0
        let numParams := dec8 numParams
        if path.length ≥ c0.path.length ∧ path.take c0.path.length = c0.path ∧
            (c0.path.length ≥ path.length ∨ path.getD c0.path.length ' ' = '/') then
          match Node.addRouteW fuel c0 numParams path fullPath pIdx handlers with
          | none => none
          | some (c0', e) => some (n.withChildren (n.children.set 0 c0'), e)
        else
          some (n.withChildren (n.children.set 0 c0), some .wildcardConflict)
      else
        let c := path.headD ' '
        if n.nType = .param ∧ c = '/' ∧ n.children.length = 1 then
          let pIdx := pIdx + n.path.length
          let c0 := n.children.getD 0 emptyNode
          let c0 := c0.withPriority (inc32 c0.priority)
          match Node.addRouteW fuel c0 numParams path fullPath pIdx handlers with
          | none => none
          | some (c0', e) => some (n.withChildren (n.children.set 0 c0'), e)
        else
          match n.indices.findIdx? (· == c) with
          | some idx =>
            let pIdx := pIdx + n.path.length
            let r := incrementChildPrio n.children n.indices idx
            let child := r.1.getD r.2.2 emptyNode
            match Node.addRouteW fuel child numParams path fullPath pIdx handlers with
            | none => none
            | some (child', e) =>
              some ((n.withChildren (r.1.set r.2.2 child')).withIndices r.2.1, e)
          | none =>
            if c ≠ ':' ∧ c ≠ '*' then
              let ind1 := n.indices ++ [c]
              let child : Node := .mk [] [] [] none 0 .static numParams false fullPath
              let cs1 := n.children ++ [child]
              let r := incrementChildPrio cs1 ind1 (ind1.length - 1)
              let target := r.1.getD r.2.2 emptyNode
              let t := Node.insertChild numParams path fullPath handlers target
              some ((n.withChildren (r.1.set r.2.2 t.1)).withIndices r.2.1, t.2)
            else
              let t := Node.insertChild numParams path fullPath handlers n
              some (t.1, t.2)
    else
      if n.handlers.isSome then some (n, some .duplicateHandlers)
      else some (n.withHandlers (some handlers), none)

/-- `node.addRoute` from `node.go` (fuelled): increments the priority,
handles the empty-tree case through `insertChild`, and otherwise runs the
`walk` loop. -/
def Node.addRouteF (fuel : Nat) (n : Node) (path : Str) (handlers : HandlersChain) :
    Option (Node × Option RouteErr) :=
  let fullPath := path
  let numParams := countParams path
  let n := n.withPriority (inc32 n.priority)
  if n.path = [] ∧ n.children.isEmpty then
    let r := Node.insertChild numParams path fullPath handlers n
    some (if r.2.isSome then (r.1, r.2) else (r.1.withNType .root, none))
  else
    Node.addRouteW fuel n numParams path fullPath 0 handlers

mutual

/-- The number of nodes of a tree; a strict bound on its depth, used as the
fuel of the tree-walking loops. -/
def nodeSize : Node → Nat
  | .mk _ _ cs _ _ _ _ _ _ => 1 + nodeListSize cs

/-- The total node count of a forest. -/
def nodeListSize : List Node → Nat
  | [] => 0
  | c :: cs => nodeSize c + nodeListSize cs

end

/-- `node.addRoute`, with the sufficient fuel bound `nodeSize n`. -/
def Node.addRoute (n : Node) (path : Str) (handlers : HandlersChain) :
    Node × Option RouteErr :=
  (Node.addRouteF (nodeSize n) n path handlers).getD (n, some .fuelExhausted)

/-- The parameter slice of a lookup, with its explicit Go capacity. -/
structure PBuf where
  data : List Param
  cap : Nat
deriving DecidableEq

/-- `nodeValue` from `node.go`, the result record of `getValue`. -/
structure NodeValue where
  handlers : Option HandlersChain
  params : PBuf
  tsr : Bool
  fullPath : Str
deriving DecidableEq

/-- A hexadecimal digit's value, as used by percent-decoding. -/
def hexDigit (c : Char) : Option Nat :=
  if '0' ≤ c ∧ c ≤ '9' then some (c.toNat - 48)
  else if 'a' ≤ c ∧ c ≤ 'f' then some (c.toNat - 87)
  else if 'A' ≤ c ∧ c ≤ 'F' then some (c.toNat - 55)
  else none

/-- Model of the external `url.QueryUnescape`: percent sequences decode to
their byte, '+' decodes to a space, and a malformed percent sequence is an
error (`none`). -/
def queryUnescape : Str → Option Str
  | [] => some []
  | '%' :: a :: b :: rest =>
    match hexDigit a, hexDigit b with
    | some x, some y => (queryUnescape rest).map (fun r => Char.ofNat (16 * x + y) :: r)
    | _, _ => none
  | '%' :: _ => none
  | '+' :: rest => (queryUnescape rest).map (fun r => ' ' :: r)
  | c :: rest => (queryUnescape rest).map (fun r => c :: r)

/-- `node.getValue` from `node.go`, with explicit fuel.  The `Except` layer
models the runtime panics (slice-bound overflow on the parameter buffer,
the unreachable node-type default case, and out-of-range child indexing). -/
def Node.getValueW : Nat → Node → Str → PBuf → Bool → Option (Except RouteErr NodeValue)
  | 0, _, _, _, _ => none
  | fuel + 1, n, path, po, unescape =>
    let pre := n.path
    if path = pre then
      if n.handlers.isSome then
        some (.ok ⟨n.handlers, po, false, n.fullPath⟩)
      else if path = ['/'] ∧ n.wildChild ∧ n.nType ≠ .root then
        some (.ok ⟨none, po, true, []⟩)
      else
        match n.indices.findIdx? (· == '/') with
        | some i =>
          let c := n.children.getD i emptyNode
          if c.path.length = 1 ∧ c.handlers.isSome then
            some (.ok ⟨none, po, true, []⟩)
          else if c.nType = .catchAll then
            match c.children with
            | [] => some (.error .indexOutOfRange)
            | c0 :: _ => some (.ok ⟨none, po, c0.handlers.isSome, []⟩)
          else some (.ok ⟨none, po, false, []⟩)
        | none => some (.ok ⟨none, po, false, []⟩)
    else if path.length > pre.length ∧ path.take pre.length = pre then
      let path := path.drop pre.length
      if n.wildChild = false then
        let c := path.headD ' '
        match n.indices.findIdx? (· == c) with
        | some i => Node.getValueW fuel (n.children.getD i emptyNode) path po unescape
        | none => some (.ok ⟨none, po, path = ['/'] ∧ n.handlers.isSome, []⟩)
      else
        let w := n.children.getD 0 emptyNode
        match w.nType with
        | .param =>
          let endIdx := (path.findIdx? (· == '/')).getD path.length
          let po := if po.cap < w.maxParams then ⟨[], w.maxParams⟩ else po
          if po.data.length + 1 > po.cap then some (.error .sliceBound)
          else
            let val := path.take endIdx
            let value := if unescape then (queryUnescape val).getD val else val
            let po : PBuf := ⟨po.data ++ [(w.path.drop 1, value)], po.cap⟩
            if endIdx < path.length then
              if ¬ w.children.isEmpty then
                Node.getValueW fuel (w.children.getD 0 emptyNode) (path.drop endIdx) po unescape
              else
                some (.ok ⟨none, po, path.length = endIdx + 1, []⟩)
            else if w.handlers.isSome then
              some (.ok ⟨w.handlers, po, false, w.fullPath⟩)
            else if w.children.length = 1 then
              let c0 := w.children.getD 0 emptyNode
              some (.ok ⟨none, po, c0.path = ['/'] ∧ c0.handlers.isSome, []⟩)
            else
              some (.ok ⟨none, po, false, []⟩)
        | .catchAll =>
          let po := if po.cap < w.maxParams then ⟨[], w.maxParams⟩ else po
          if po.data.length + 1 > po.cap then some (.error .sliceBound)
          else
            let value := if unescape then (queryUnescape path).getD path else path
            let po : PBuf := ⟨po.data ++ [(w.path.drop 2, value)], po.cap⟩
            some (.ok ⟨w.handlers, po, false, w.fullPath⟩)
        | _ => some (.error .invalidNodeType)
    else
      some (.ok ⟨none, po,
        path = ['/'] ∨ (pre.length = path.length + 1 ∧ pre.getD path.length ' ' = '/' ∧
          path = pre.take (pre.length - 1) ∧ n.handlers.isSome), []⟩)

/-- `node.getValue`, with the sufficient fuel bound `nodeSize n`. -/
def Node.getValue (n : Node) (path : Str) (po : PBuf) (unescape : Bool) :
    Except RouteErr NodeValue :=
  (Node.getValueW (nodeSize n) n path po unescape).getD (.error .fuelExhausted)

/-- The route-collecting walk `iterate` of `web.go` (fuelled): every node
whose handler chain is non-empty is reported with its accumulated path. -/
def iterateW : Nat → Str → Node → Option (List (Str × HandlersChain))
  | 0, _, _ => none
  | fuel + 1, acc, n =>
    let acc := acc ++ n.path
    let base : List (Str × HandlersChain) :=
      match n.handlers with
      | some h => if h.isEmpty then [] else [(acc, h)]
      | none => []
    n.children.foldl (fun r c => r.bind (fun l => (iterateW fuel acc c).map (fun x => l ++ x)))
      (some base)

/-- All registered termini of a tree, as `Routes()` of `web.go` reports them
for one method tree. -/
def Node.routesList (n : Node) : Option (List (Str × HandlersChain)) :=
  iterateW (nodeSize n) [] n

/-- The per-method forest (`methodTrees`). -/
abbrev MethodTrees := List (Str × Node)

/-- Modelled from the spec: `methodTrees.get` is declared in repository code
outside `src/` (only its caller `Centre.addRoute` is available); §4.1 of the
spec describes it as a simple linear scan for the method's root. -/
def treesGet (trees : MethodTrees) (method : Str) : Option Node :=
  (trees.find? (fun t => t.1 == method)).map (fun t => t.2)

/-- In-place update of the method's tree (the Go root is a pointer, so the
registry entry observes the mutated root). -/
def treesSet (trees : MethodTrees) (method : Str) (n : Node) : MethodTrees :=
  trees.map (fun t => if t.1 == method then (t.1, n) else t)

/-- `Centre.addRoute` from `web.go`: the three `assert1` guards (a panic of
`path[0]` on an empty pattern is the index-range error), lazy creation of
the method tree, and delegation to `node.addRoute`.  The new method tree is
appended before the insertion runs, as in the source. -/
def centreAddRoute (trees : MethodTrees) (method path : Str) (handlers : HandlersChain) :
    MethodTrees × Option RouteErr :=
  if path = [] then (trees, some .indexOutOfRange)
  else if path.headD ' ' ≠ '/' then (trees, some .assertFailed)
  else if method = [] then (trees, some .assertFailed)
  else if handlers = [] then (trees, some .assertFailed)
  else
    match treesGet trees method with
    | some root =>
      let r := root.addRoute path handlers
      (treesSet trees method r.1, r.2)
    | none =>
      let root := emptyNode.withFullPath ['/']
      let r := root.addRoute path handlers
      (trees ++ [(method, r.1)], r.2)

/-- The handler chain of a lookup outcome (none on a panic). -/
def lookupHandlers (r : Except RouteErr NodeValue) : Option HandlersChain :=
  match r with
  | .ok v => v.handlers
  | .error _ => none

/-- The trailing-slash-redirect flag of a lookup outcome. -/
def lookupTsr (r : Except RouteErr NodeValue) : Bool :=
  match r with
  | .ok v => v.tsr
  | .error _ => false

/-- The captured parameter list of a lookup outcome. -/
def lookupParams (r : Except RouteErr NodeValue) : List Param :=
  match r with
  | .ok v => v.params.data
  | .error _ => []

/-- The tree holding only the route `/foo`. -/
def fooTree : Node := (Node.addRoute emptyNode ("/foo".toList) [1]).1

/-- The tree holding only the route `/foo/`. -/
def fooSlashTree : Node := (Node.addRoute emptyNode ("/foo/".toList) [1]).1

/-- The tree holding only the catch-all route `/files/*filepath`. -/
def filesTree : Node := (Node.addRoute emptyNode ("/files/*filepath".toList) [7]).1

/-- The tree holding only `/user/:name`. -/
def userParamTree : Node := (Node.addRoute emptyNode ("/user/:name".toList) [1]).1

/-- The tree holding only `/user/profile`. -/
def userProfileTree : Node := (Node.addRoute emptyNode ("/user/profile".toList) [2]).1

/-- The tree holding only `/a/:x`. -/
def aParamTree : Node := (Node.addRoute emptyNode ("/a/:x".toList) [1]).1

/-- The tree obtained by registering `/a/:x` and then `/a/:x/b`. -/
def axbTree : Node := (Node.addRoute aParamTree ("/a/:x/b".toList) [2]).1

/-- The tree holding only `/a/:x/*y`, a param followed by a final catch-all
registered in a single call. -/
def paramCatchTree : Node := (Node.addRoute emptyNode ("/a/:x/*y".toList) [9]).1

/-- The tree holding only `/a/:x/b`, registered in a single call. -/
def axbOneShotTree : Node := (Node.addRoute emptyNode ("/a/:x/b".toList) [1]).1

/-- The empty parameter buffer with zero capacity (a nil `Params`). -/
def noBuf : PBuf := ⟨[], 0⟩

mutual

/-- All nodes of a tree satisfy the given node predicate. -/
def nodeAll (P : Node → Bool) : Node → Bool
  | .mk a i cs h p t m w f =>
    P (.mk a i cs h p t m w f) && nodeListAll P cs

/-- All nodes of a forest satisfy the given node predicate. -/
def nodeListAll (P : Node → Bool) : List Node → Bool
  | [] => true
  | c :: cs => nodeAll P c && nodeListAll P cs

end

/-- The index byte a child contributes to its parent's `indices` string:
the first byte of its segment, or '/' for the empty-segment nodes produced
by the catch-all construction. -/
def childIndexChar (c : Node) : Char := c.path.headD '/'

/-- A string free of the wildcard sigils ':' and '*'. -/
def noSigil (s : Str) : Bool := s.all (fun c => !(c == ':' || c == '*'))

/-- A well-formed wildcard name: non-empty and free of ':', '*' and '/'. -/
def wildNameOK (s : Str) : Bool :=
  !s.isEmpty && s.all (fun c => !(c == ':' || c == '*' || c == '/'))

/-- The structural per-node invariant maintained by `addRoute`:
`indices` mirrors the children's index bytes (except at a `wildChild`
holder, whose single child is the wildcard, and at a param node whose
continuation child was installed by `insertChild` without an index), no
index byte repeats, a param or catch-all leaf sits only under a
`wildChild` holder, and a non-root node with an empty segment carries no
handlers. -/
def shapeB (n : Node) : Bool :=
  n.indices.Nodup &&
  (if n.wildChild then
    n.indices.isEmpty &&
    (match n.children with
     | [w] => w.nType == NType.param || (w.nType == NType.catchAll && !w.path.isEmpty)
     | _ => false)
  else
    (if n.nType == NType.param then
      decide (n.children.length ≤ 1) &&
      (n.indices.isEmpty || n.indices == n.children.map childIndexChar)
    else n.indices == n.children.map childIndexChar) &&
    n.children.all (fun c =>
      !(c.nType == NType.param) && (!(c.nType == NType.catchAll) || c.path.isEmpty))) &&
  n.children.all (fun c =>
    !(c.nType == NType.root) && (!c.path.isEmpty || c.handlers.isNone))

/-- The per-node content invariant: static segments carry no sigils, a
param node's segment is ':' followed by a well-formed name, and a
catch-all node is either the anchor (empty segment, `wildChild`) or the
leaf (`/*name` segment with handlers attached). -/
def contentB (n : Node) : Bool :=
  match n.nType with
  | .static => noSigil n.path
  | .root => noSigil n.path
  | .param =>
    !n.wildChild &&
    (match n.path with
     | ':' :: name => wildNameOK name
     | _ => false)
  | .catchAll =>
    (n.wildChild && n.path.isEmpty) ||
    (!n.wildChild && n.handlers.isSome &&
      (match n.path with
       | '/' :: '*' :: name => wildNameOK name
       | _ => false))

mutual

/-- The exact capture depth of a tree: the greatest number of parameters a
single downward path can produce at lookup time (a param node or catch-all
leaf produces one; the catch-all anchor produces none). -/
def capCount : Node → Nat
  | .mk a _ cs _ _ t _ _ _ =>
    (if (t = .param ∨ t = .catchAll) ∧ a ≠ [] then 1 else 0) + capCountList cs

/-- The greatest capture depth over a forest. -/
def capCountList : List Node → Nat
  | [] => 0
  | c :: cs => max (capCount c) (capCountList cs)

end

/-- The maxParams bookkeeping invariant of a built tree: every non-root
node's `maxParams` equals its exact capture depth, and the root's
`maxParams` does not exceed its capture depth. -/
def mpOK (n : Node) : Bool := n.maxParams == capCount n

/-- Whether a node's own segment produces a capture at lookup time: one
for a param node or a catch-all leaf, none for static nodes and for the
empty-segment catch-all anchor. -/
def selfW (n : Node) : Nat :=
  if (n.nType = .param ∨ n.nType = .catchAll) ∧ n.path ≠ [] then 1 else 0

/-- The combined structural and content invariant of a single node. -/
def wfB (n : Node) : Bool := shapeB n && contentB n

/-- Children of a `param` node sit at a '/' boundary: each child of a
param node has an empty segment or a segment starting with '/'.  This is
the auxiliary invariant that makes the `walk` preservation inductive. -/
def pcOK (n : Node) : Bool :=
  !(n.nType == NType.param) ||
    n.children.all (fun c => c.path.isEmpty || (c.path.headD ' ' == '/'))

/-- A catch-all leaf has no children (no route was registered past an
existing catch-all). -/
def leafChildlessB (n : Node) : Bool :=
  !(n.nType == NType.catchAll && !n.path.isEmpty) || n.children.isEmpty

/-- The guard under which the `walk` loop of `addRoute` descends into an
existing wildcard child: the child's segment is a prefix of the remaining
path and ends at a segment boundary of it. -/
def entryGuard (path : Str) (n : Node) : Prop :=
  n.path <+: path ∧
  (path.length ≤ n.path.length ∨ path.getD n.path.length ' ' = '/')

/-- Folds a list of (pattern, chain) registrations over `node.addRoute`
starting from the given tree, requiring every registration to succeed. -/
def buildFrom : Node → List (Str × HandlersChain) → Option Node
  | t, [] => some t
  | t, r :: rs =>
    match Node.addRoute t r.1 r.2 with
    | (t', none) => buildFrom t' rs
    | (_, some _) => none

/-- A tree built from the empty tree by a sequence of successful
`addRoute` calls. -/
def buildTree (rs : List (Str × HandlersChain)) : Option Node :=
  buildFrom emptyNode rs

mutual

/-- Every registered terminus of a tree, with its accumulated pattern and
its handler chain (the handler-bearing nodes of the `iterate` walk). -/
def collectRoutes (acc : Str) : Node → List (Str × HandlersChain)
  | .mk a _ cs h _ _ _ _ _ =>
    (match h with
     | some hs => [(acc ++ a, hs)]
     | none => []) ++ collectRoutesList (acc ++ a) cs

/-- The registered termini of a forest. -/
def collectRoutesList (acc : Str) : List Node → List (Str × HandlersChain)
  | [] => []
  | c :: cs => collectRoutes acc c ++ collectRoutesList acc cs

end

mutual

/-- The capture names of a pattern, in left-to-right declaration order
(without their sigils). -/
def patParams : Str → List Str
  | [] => []
  | ':' :: rest =>
    (rest.takeWhile (fun c => ¬ c = '/')) :: patParamsSkip rest
  | '*' :: rest => [rest]
  | _ :: rest => patParams rest

/-- Skips the remainder of a ':name' capture (up to the next '/') and
resumes collecting capture names. -/
def patParamsSkip : Str → List Str
  | [] => []
  | c :: rest => if c = '/' then patParams rest else patParamsSkip rest

end

mutual

/-- Substitution of capture values into a pattern: a ':name' capture is
replaced by its value (running to the next '/'), and a final '/*name'
element is replaced in full — separating slash included — by the value of
the catch-all. -/
def substPat : Str → List Str → Option Str
  | [], vs => if vs.isEmpty then some [] else none
  | ':' :: rest, vs =>
    match vs with
    | [] => none
    | v :: vs' => (substPatSkip rest vs').map (fun s => v ++ s)
  | '/' :: '*' :: _, vs =>
    match vs with
    | [v] => some v
    | _ => none
  | c :: rest, vs => (substPat rest vs).map (fun s => c :: s)

/-- Skips the remainder of a ':name' capture and resumes substitution at
the terminating '/' (which may itself begin a final '/*name' element). -/
def substPatSkip : Str → List Str → Option Str
  | [], vs => if vs.isEmpty then some [] else none
  | c :: rest, vs =>
    if c = '/' then
      match rest with
      | '*' :: _ =>
        (match vs with
         | [v] => some v
         | _ => none)
      | _ => (substPat rest vs).map (fun s => '/' :: s)
    else substPatSkip rest vs

end

mutual

/-- The value-side conditions of the round-trip claim: one value per
capture; a ':name' value is non-empty and contains no '/'; a '*name'
value — which stands for the whole remainder — begins with '/'. -/
def substValsOK : Str → List Str → Bool
  | [], vs => vs.isEmpty
  | ':' :: rest, vs =>
    match vs with
    | [] => false
    | v :: vs' =>
      !v.isEmpty && v.all (fun c => ¬ c = '/') && substValsOKSkip rest vs'
  | '/' :: '*' :: _, vs =>
    match vs with
    | [v] => v.headD ' ' == '/'
    | _ => false
  | _ :: rest, vs => substValsOK rest vs

/-- Skips the remainder of a ':name' capture and resumes the value-side
conditions at the terminating '/'. -/
def substValsOKSkip : Str → List Str → Bool
  | [], vs => vs.isEmpty
  | c :: rest, vs =>
    if c = '/' then
      match rest with
      | '*' :: _ =>
        (match vs with
         | [v] => v.headD ' ' == '/'
         | _ => false)
      | _ => substValsOK rest vs
    else substValsOKSkip rest vs

end

/-- The pattern-side conditions of the round-trip: fewer than 255 sigils
(so the `uint8` capture counter is exact) and any '*' only as a final
`/*name` element. -/
def insOK (p : Str) : Bool :=
  decide (rawParamCount p < 255) &&
  (match p.findIdx? (fun c => c == '*') with
   | none => true
   | some j =>
     decide (1 ≤ j) && (p.getD (j - 1) ' ' == '/') && wildNameOK (p.drop (j + 1)))

/-- Moving the element at position `pos` of a list forward to position
`newPos ≤ pos`, shifting the block in between back by one — the
rearrangement `incrementChildPrio` performs on both `children` and
`indices`. -/
def movL (l : List α) (pos newPos : Nat) : List α :=
  l.take newPos ++ (l.drop pos).take 1 ++ (l.drop newPos).take (pos - newPos) ++
    l.drop (pos + 1)

/-- The walk invariant maintained by `addRoute` from the empty tree: every
node is well-shaped (`wfB`) with '/'-anchored param continuations (`pcOK`),
every child of the root carries `maxParams` equal to its subtree's capture
count, an empty-path node stores no handlers, the root's `maxParams` never
exceeds the tree's capture count, and the top node is a root or static
node. -/
def rootInv (n : Node) : Prop :=
  nodeAll wfB n = true ∧ nodeAll pcOK n = true ∧
  nodeListAll mpOK n.children = true ∧
  (n.path = [] → n.handlers = none) ∧
  (n.maxParams = capCount n ∨ (n.nType = .root ∧ n.maxParams ≤ capCount n)) ∧
  (n.nType = .root ∨ n.nType = .static)

@[simp] theorem Node.path_mk (a i c h p t m w f) :
    (Node.mk a i c h p t m w f).path = a := rfl

@[simp] theorem Node.indices_mk (a i c h p t m w f) :
    (Node.mk a i c h p t m w f).indices = i := rfl

@[simp] theorem Node.children_mk (a i c h p t m w f) :
    (Node.mk a i c h p t m w f).children = c := rfl

@[simp] theorem Node.handlers_mk (a i c h p t m w f) :
    (Node.mk a i c h p t m w f).handlers = h := rfl

@[simp] theorem Node.priority_mk (a i c h p t m w f) :
    (Node.mk a i c h p t m w f).priority = p := rfl

@[simp] theorem Node.nType_mk (a i c h p t m w f) :
    (Node.mk a i c h p t m w f).nType = t := rfl

@[simp] theorem Node.maxParams_mk (a i c h p t m w f) :
    (Node.mk a i c h p t m w f).maxParams = m := rfl

@[simp] theorem Node.wildChild_mk (a i c h p t m w f) :
    (Node.mk a i c h p t m w f).wildChild = w := rfl

@[simp] theorem Node.fullPath_mk (a i c h p t m w f) :
    (Node.mk a i c h p t m w f).fullPath = f := rfl

@[simp] theorem Node.withPath_mk (a i c h p t m w f x) :
    (Node.mk a i c h p t m w f).withPath x = .mk x i c h p t m w f := rfl

@[simp] theorem Node.withIndices_mk (a i c h p t m w f x) :
    (Node.mk a i c h p t m w f).withIndices x = .mk a x c h p t m w f := rfl

@[simp] theorem Node.withChildren_mk (a i c h p t m w f x) :
    (Node.mk a i c h p t m w f).withChildren x = .mk a i x h p t m w f := rfl

@[simp] theorem Node.withHandlers_mk (a i c h p t m w f x) :
    (Node.mk a i c h p t m w f).withHandlers x = .mk a i c x p t m w f := rfl

@[simp] theorem Node.withPriority_mk (a i c h p t m w f x) :
    (Node.mk a i c h p t m w f).withPriority x = .mk a i c h x t m w f := rfl

@[simp] theorem Node.withNType_mk (a i c h p t m w f x) :
    (Node.mk a i c h p t m w f).withNType x = .mk a i c h p x m w f := rfl

@[simp] theorem Node.withMaxParams_mk (a i c h p t m w f x) :
    (Node.mk a i c h p t m w f).withMaxParams x = .mk a i c h p t x w f := rfl

@[simp] theorem Node.withWildChild_mk (a i c h p t m w f x) :
    (Node.mk a i c h p t m w f).withWildChild x = .mk a i c h p t m x f := rfl

@[simp] theorem Node.withFullPath_mk (a i c h p t m w f x) :
    (Node.mk a i c h p t m w f).withFullPath x = .mk a i c h p t m w x := rfl

theorem Node.eta (n : Node) :
    Node.mk n.path n.indices n.children n.handlers n.priority n.nType
      n.maxParams n.wildChild n.fullPath = n := by
  cases n
  rfl

theorem movL_decomp (l : List α) (pos k : Nat) (hk : k ≤ pos) (h : pos < l.length) :
    movL l pos k = l.take k ++ l[pos] :: ((l.drop k).take (pos - k) ++ l.drop (pos + 1)) := by
  unfold movL
  rw [List.drop_eq_getElem_cons h]
  simp only [List.take_succ_cons, List.take_zero, List.append_assoc, List.cons_append,
    List.nil_append, List.singleton_append]

theorem list_decomp_at (l : List α) (pos k : Nat) (hk : k ≤ pos) (h : pos < l.length) :
    l = l.take k ++ (l.drop k).take (pos - k) ++ l[pos] :: l.drop (pos + 1) := by
  conv_lhs => rw [← List.take_append_drop k l]
  rw [← List.drop_eq_getElem_cons h]
  have hd : l.drop k = (l.drop k).take (pos - k) ++ (l.drop k).drop (pos - k) := by
    rw [List.take_append_drop]
  rw [List.drop_drop] at hd
  have hpk : k + (pos - k) = pos := by omega
  rw [hpk] at hd
  conv_lhs => rw [hd]
  rw [List.append_assoc]

theorem movL_self (l : List α) (pos : Nat) (h : pos < l.length) :
    movL l pos pos = l := by
  rw [movL_decomp l pos pos (le_refl pos) h]
  simp only [Nat.sub_self, List.take_zero, List.nil_append]
  rw [← List.drop_eq_getElem_cons h, List.take_append_drop]

theorem movL_perm (l : List α) (pos k : Nat) (hk : k ≤ pos) (h : pos < l.length) :
    List.Perm (movL l pos k) l := by
  rw [movL_decomp l pos k hk h]
  conv_rhs => rw [list_decomp_at l pos k hk h]
  rw [List.append_assoc]
  exact List.Perm.append_left _ List.perm_middle.symm

theorem movL_length (l : List α) (pos k : Nat) (hk : k ≤ pos) (h : pos < l.length) :
    (movL l pos k).length = l.length :=
  (movL_perm l pos k hk h).length_eq

theorem movL_map (f : α → β) (l : List α) (pos k : Nat) :
    (movL l pos k).map f = movL (l.map f) pos k := by
  simp [movL, List.map_take, List.map_drop]

theorem movL_mem {l : List α} {x : α} (pos k : Nat) (hk : k ≤ pos) (h : pos < l.length)
    (hx : x ∈ movL l pos k) : x ∈ l :=
  (movL_perm l pos k hk h).subset hx

theorem movL_getD_new (l : List α) (pos k : Nat) (d : α) (hk : k ≤ pos)
    (h : pos < l.length) : (movL l pos k).getD k d = l[pos] := by
  rw [movL_decomp l pos k hk h]
  have hlen : (l.take k).length = k := by
    simp
    omega
  rw [List.getD_eq_getElem?_getD, List.getElem?_append_right (by omega)]
  simp [hlen]

theorem getD_eq_getElem (l : List α) (i : Nat) (d : α) (h : i < l.length) :
    l.getD i d = l[i] := by
  rw [List.getD_eq_getElem?_getD, List.getElem?_eq_getElem h]
  rfl

theorem take_set_of_le (l : List α) (i k : Nat) (a : α) (h : k ≤ i) :
    (l.set i a).take k = l.take k := by
  apply List.ext_getElem
  · simp
  · intro n h1 h2
    have hn : n < k := by
      simp at h1
      omega
    have hne : i ≠ n := by omega
    simp [List.getElem_take, List.getElem_set, hne]

theorem swapAdj_length (cs : List Node) (p : Nat) :
    (swapAdj cs p).length = cs.length := by
  simp [swapAdj]

theorem swapAdj_movL (cs : List Node) (p k : Nat) (hk : k ≤ p) (h : p + 1 < cs.length) :
    movL (swapAdj cs p) p k = movL cs (p + 1) k := by
  have hp : p < cs.length := by omega
  have hps : p < (swapAdj cs p).length := by rw [swapAdj_length]; omega
  have hs1 : p + 1 < cs.length := h
  rw [movL_decomp _ p k hk hps, movL_decomp _ (p + 1) k (by omega) hs1]
  have e1 : (swapAdj cs p).take k = cs.take k := by
    unfold swapAdj
    rw [take_set_of_le _ _ _ _ (by omega), take_set_of_le _ _ _ _ (by omega)]
  have e2 : (swapAdj cs p)[p] = cs[p + 1] := by
    unfold swapAdj
    rw [List.getElem_set, if_neg (by omega), List.getElem_set, if_pos rfl,
      getD_eq_getElem _ _ _ hs1]
  have e3 : (swapAdj cs p).drop (p + 1) = cs[p] :: cs.drop (p + 2) := by
    unfold swapAdj
    rw [List.drop_set, if_neg (by omega), List.drop_set, if_pos (by omega)]
    have h0 : p + 1 - (p + 1) = 0 := by omega
    rw [h0, List.drop_eq_getElem_cons hs1]
    simp only [List.set]
    rw [getD_eq_getElem _ _ _ hp]
  have e4 : ((swapAdj cs p).drop k).take (p - k) = (cs.drop k).take (p - k) := by
    unfold swapAdj
    rw [List.drop_set, if_neg (by omega), List.drop_set, if_neg (by omega)]
    rw [take_set_of_le _ _ _ _ (by omega), take_set_of_le _ _ _ _ (by omega)]
  have e5 : (cs.drop k).take (p + 1 - k) = (cs.drop k).take (p - k) ++ [cs[p]] := by
    have hrw : p + 1 - k = (p - k) + 1 := by omega
    have hb : p - k < (cs.drop k).length := by
      rw [List.length_drop]
      omega
    rw [hrw, List.take_succ, List.getElem?_eq_getElem hb]
    have hg : (cs.drop k)[p - k] = cs[p] := by
      rw [List.getElem_drop]
      simp only [show k + (p - k) = p from by omega]
    rw [hg]
    rfl
  rw [e1, e2, e3, e4, e5]
  simp

theorem bubbleUp_spec (prio : Nat) :
    ∀ (p : Nat) (cs : List Node), p < cs.length →
      ∃ k, k ≤ p ∧ bubbleUp prio cs p = (movL cs p k, k) := by
  intro p
  induction p with
  | zero =>
    intro cs h
    exact ⟨0, Nat.le_refl 0, by unfold bubbleUp; rw [movL_self _ _ h]⟩
  | succ p ih =>
    intro cs h
    unfold bubbleUp
    by_cases hc : (cs.getD p emptyNode).priority < prio
    · simp only [hc, if_pos]
      obtain ⟨k, hk, heq⟩ := ih (swapAdj cs p) (by rw [swapAdj_length]; omega)
      refine ⟨k, by omega, ?_⟩
      rw [heq, swapAdj_movL cs p k hk h]
    · simp only [hc, if_neg, if_false]
      exact ⟨p + 1, Nat.le_refl _, by rw [movL_self _ _ h]⟩

theorem incrementChildPrio_spec (cs : List Node) (ind : Str) (pos : Nat)
    (hpos : pos < cs.length) (hlen : ind.length = cs.length) :
    ∃ k, k ≤ pos ∧
      incrementChildPrio cs ind pos =
        (movL (cs.set pos ((cs.getD pos emptyNode).withPriority
          (inc32 (cs.getD pos emptyNode).priority))) pos k, movL ind pos k, k) := by
  unfold incrementChildPrio
  obtain ⟨k, hk, hb⟩ :=
    bubbleUp_spec ((cs.set pos ((cs.getD pos emptyNode).withPriority
      (inc32 (cs.getD pos emptyNode).priority))).getD pos emptyNode).priority pos
      (cs.set pos ((cs.getD pos emptyNode).withPriority
        (inc32 (cs.getD pos emptyNode).priority))) (by simp; omega)
  refine ⟨k, hk, ?_⟩
  simp only [hb]
  by_cases hkp : k = pos
  · subst hkp
    simp [movL_self ind k (by omega)]
  · simp [hkp, movL]

theorem nodeAll_unfold (P : Node → Bool) (n : Node) :
    nodeAll P n = (P n && nodeListAll P n.children) := by
  cases n
  rw [nodeAll]
  rfl

@[simp] theorem nodeListAll_nil (P : Node → Bool) : nodeListAll P [] = true := by
  rw [nodeListAll]

@[simp] theorem nodeListAll_cons (P : Node → Bool) (c : Node) (cs : List Node) :
    nodeListAll P (c :: cs) = (nodeAll P c && nodeListAll P cs) := by
  rw [nodeListAll]

theorem nodeListAll_append (P : Node → Bool) (l1 l2 : List Node) :
    nodeListAll P (l1 ++ l2) = (nodeListAll P l1 && nodeListAll P l2) := by
  induction l1 with
  | nil => simp
  | cons c cs ih => simp [ih, Bool.and_assoc]

theorem nodeSize_le_of_mem : ∀ {cs : List Node} {c : Node}, c ∈ cs →
    nodeSize c ≤ nodeListSize cs := by
  intro cs
  induction cs with
  | nil =>
    intro c hc
    cases hc
  | cons d ds ih =>
    intro c hc
    rw [nodeListSize]
    cases hc with
    | head => omega
    | tail _ hmem =>
      have := ih hmem
      omega

theorem nodeListAll_forall (P : Node → Bool) (cs : List Node) :
    nodeListAll P cs = true ↔ ∀ c ∈ cs, nodeAll P c = true := by
  induction cs with
  | nil => simp
  | cons c cs ih => simp [ih, Bool.and_eq_true]

theorem nodeListAll_perm {P : Node → Bool} {l1 l2 : List Node} (hp : List.Perm l1 l2)
    (h : nodeListAll P l1 = true) : nodeListAll P l2 = true := by
  rw [nodeListAll_forall] at h ⊢
  intro c hc
  exact h c (hp.symm.subset hc)

theorem nodeListAll_set {P : Node → Bool} {cs : List Node} {i : Nat} {x : Node}
    (h : nodeListAll P cs = true) (hx : nodeAll P x = true) :
    nodeListAll P (cs.set i x) = true := by
  rw [nodeListAll_forall] at h ⊢
  intro c hc
  rcases List.mem_or_eq_of_mem_set hc with hmem | rfl
  · exact h c hmem
  · exact hx

theorem nodeAll_imp {P Q : Node → Bool} (himp : ∀ n, P n = true → Q n = true) :
    ∀ n, nodeAll P n = true → nodeAll Q n = true := by
  have key : ∀ (m : Nat) (n : Node), nodeSize n ≤ m → nodeAll P n = true → nodeAll Q n = true := by
    intro m
    induction m with
    | zero =>
      intro n hs
      cases n
      rw [nodeSize] at hs
      omega
    | succ m ih =>
      intro n hs hP
      rw [nodeAll_unfold] at hP ⊢
      simp only [Bool.and_eq_true] at hP ⊢
      refine ⟨himp n hP.1, ?_⟩
      rw [nodeListAll_forall] at hP ⊢
      intro c hc
      refine ih c ?_ (hP.2 c hc)
      cases n with
      | mk a i cs hh p t mm w f =>
        rw [nodeSize] at hs
        simp only [Node.children_mk] at hc
        have := nodeSize_le_of_mem hc
        omega
  intro n h
  exact key (nodeSize n) n (Nat.le_refl _) h

theorem capCount_unfold (n : Node) : capCount n = selfW n + capCountList n.children := by
  cases n
  rw [capCount]
  rfl

@[simp] theorem capCountList_nil : capCountList [] = 0 := by rw [capCountList]

@[simp] theorem capCountList_cons (c : Node) (cs : List Node) :
    capCountList (c :: cs) = max (capCount c) (capCountList cs) := by rw [capCountList]

theorem capCountList_append (l1 l2 : List Node) :
    capCountList (l1 ++ l2) = max (capCountList l1) (capCountList l2) := by
  induction l1 with
  | nil => simp
  | cons c cs ih => simp [ih]; omega

theorem capCount_le_of_mem {c : Node} {cs : List Node} (h : c ∈ cs) :
    capCount c ≤ capCountList cs := by
  induction cs with
  | nil => cases h
  | cons d ds ih =>
    rw [capCountList_cons]
    cases h with
    | head => omega
    | tail _ hmem =>
      have := ih hmem
      omega

theorem capCountList_perm {l1 l2 : List Node} (h : List.Perm l1 l2) :
    capCountList l1 = capCountList l2 := by
  induction h with
  | nil => rfl
  | cons x _ ih => rw [capCountList_cons, capCountList_cons, ih]
  | swap x y l => simp only [capCountList_cons]; omega
  | trans _ _ ih1 ih2 => rw [ih1, ih2]

theorem rawParamCount_nil : rawParamCount [] = 0 := rfl

theorem rawParamCount_cons (c : Char) (s : Str) :
    rawParamCount (c :: s) = (if c = ':' ∨ c = '*' then 1 else 0) + rawParamCount s := by
  simp only [rawParamCount, List.countP_cons]
  by_cases h : c = ':' ∨ c = '*'
  · have hb : (c == ':' || c == '*') = true := by
      rcases h with rfl | rfl <;> simp
    simp [hb, h]
    omega
  · push_neg at h
    have hb : (c == ':' || c == '*') = false := by simp [h.1, h.2]
    simp [hb, h.1, h.2]

theorem rawParamCount_append (s1 s2 : Str) :
    rawParamCount (s1 ++ s2) = rawParamCount s1 + rawParamCount s2 := by
  simp [rawParamCount, List.countP_append]

theorem noSigil_iff (s : Str) : noSigil s = true ↔ rawParamCount s = 0 := by
  rw [noSigil, List.all_eq_true, rawParamCount, List.countP_eq_zero]
  constructor
  · intro h a ha
    have := h a ha
    simpa using this
  · intro h a ha
    have := h a ha
    simpa using this

theorem scanWildEnd_spec : ∀ (s : Str),
    ∃ rest, s = (scanWildEnd s).1 ++ rest ∧ (rest = [] ∨ rest.headD ' ' = '/') ∧
      (scanWildEnd s).1.all (fun c => ¬ c = '/') = true ∧
      ((scanWildEnd s).2 = true ↔ noSigil (scanWildEnd s).1 = true) := by
  intro s
  induction s with
  | nil =>
    refine ⟨[], ?_⟩
    rw [scanWildEnd]
    simp [noSigil]
  | cons c cs ih =>
    rw [scanWildEnd]
    by_cases hc : c = '/'
    · subst hc
      exact ⟨'/' :: cs, by simp [noSigil]⟩
    · obtain ⟨rest, hs, hrest, hall, hval⟩ := ih
      refine ⟨rest, ?_, hrest, ?_, ?_⟩
      · simp only [if_neg hc]
        rw [List.cons_append, ← hs]
      · simp only [if_neg hc, List.all_cons, Bool.and_eq_true]
        exact ⟨by simp [hc], hall⟩
      · simp only [if_neg hc, noSigil, List.all_cons, Bool.and_eq_true]
        by_cases hsig : c = ':' ∨ c = '*'
        · rw [if_pos hsig]
          constructor
          · intro h
            cases h
          · rintro ⟨h1, _⟩
            rcases hsig with rfl | rfl <;> simp at h1
        · rw [if_neg hsig]
          push_neg at hsig
          rw [hval]
          simp [hsig.1, hsig.2, noSigil]

theorem findWildcard_spec : ∀ (path w : Str) (i : Nat) (v : Bool),
    findWildcard path = some (w, i, v) →
    ∃ s body rest,
      w = s :: body ∧ (s = ':' ∨ s = '*') ∧
      path.take i ++ (s :: body) ++ rest = path ∧
      (path.take i).length = i ∧
      noSigil (path.take i) = true ∧
      body.all (fun c => ¬ c = '/') = true ∧
      (rest = [] ∨ rest.headD ' ' = '/') ∧
      (v = true ↔ noSigil body = true) := by
  intro path
  induction path with
  | nil =>
    intro w i v h
    rw [findWildcard] at h
    cases h
  | cons c cs ih =>
    intro w i v h
    rw [findWildcard] at h
    by_cases hs : c = ':' ∨ c = '*'
    · rw [if_pos hs] at h
      obtain ⟨rest, hdec, hrest, hall, hval⟩ := scanWildEnd_spec cs
      simp only [Option.some.injEq, Prod.mk.injEq] at h
      obtain ⟨hw, hi, hv⟩ := h
      subst hi
      refine ⟨c, (scanWildEnd cs).1, rest, hw.symm, hs, ?_, by simp, by simp [noSigil],
        hall, hrest, by rw [← hv]; exact hval⟩
      simp only [List.take_zero, List.nil_append, List.cons_append]
      rw [← hdec]
    · rw [if_neg hs] at h
      cases hfw : findWildcard cs with
      | none =>
        rw [hfw] at h
        cases h
      | some r =>
        obtain ⟨w', i', v'⟩ := r
        rw [hfw] at h
        simp only [Option.some.injEq, Prod.mk.injEq] at h
        obtain ⟨hw, hi, hv⟩ := h
        obtain ⟨s, body, rest, hweq, hsig, hdec, hlen, hpre, hball, hrest, hvv⟩ :=
          ih w' i' v' hfw
        subst hw hv
        refine ⟨s, body, rest, hweq, hsig, ?_, ?_, ?_, hball, hrest, hvv⟩
        · rw [← hi]
          simp only [List.take_succ_cons, List.cons_append]
          congr 1
        · rw [← hi]
          simp [List.take_succ_cons, hlen]
        · rw [← hi]
          simp only [List.take_succ_cons]
          simp only [noSigil, List.all_cons, Bool.and_eq_true]
          push_neg at hs
          refine ⟨by simp [hs.1, hs.2], hpre⟩

theorem shapeB_fields (a i : Str) (cs : List Node) (h : Option HandlersChain)
    (p : Nat) (t : NType) (m : Nat) (w : Bool) (f a' : Str)
    (h' : Option HandlersChain) (p' m' : Nat) (f' : Str) :
    shapeB (.mk a' i cs h' p' t m' w f') = shapeB (.mk a i cs h p t m w f) := rfl

theorem contentB_fields (a i : Str) (cs : List Node) (h : Option HandlersChain)
    (p : Nat) (t : NType) (m : Nat) (w : Bool) (f i' : Str) (cs' : List Node)
    (p' m' : Nat) (f' : Str) :
    contentB (.mk a i' cs' h p' t m' w f') = contentB (.mk a i cs h p t m w f) := rfl

theorem noSigil_take (s : Str) (k : Nat) (h : noSigil s = true) :
    noSigil (s.take k) = true := by
  rw [noSigil, List.all_eq_true] at h ⊢
  intro x hx
  exact h x (List.take_subset k s hx)

theorem findWildcard_none : ∀ (p : Str), findWildcard p = none → noSigil p = true := by
  intro p
  induction p with
  | nil =>
    intro _
    simp [noSigil]
  | cons c cs ihp =>
    intro hfw
    rw [findWildcard] at hfw
    by_cases hc : c = ':' ∨ c = '*'
    · rw [if_pos hc] at hfw
      cases hfw
    · rw [if_neg hc] at hfw
      simp only [noSigil, List.all_cons, Bool.and_eq_true]
      push_neg at hc
      refine ⟨by simp [hc.1, hc.2], ?_⟩
      cases hfw2 : findWildcard cs with
      | none => exact ihp hfw2
      | some r =>
        rw [hfw2] at hfw
        obtain ⟨w', i', v'⟩ := r
        cases hfw

theorem headD_take (s : Str) (k : Nat) (d : Char) (hk : 1 ≤ k) :
    (s.take k).headD d = s.headD d := by
  cases s with
  | nil => simp
  | cons c cs =>
    cases k with
    | zero => omega
    | succ k => simp

theorem wildNameOK_of (body : Str) (h1 : noSigil body = true)
    (h2 : body.all (fun c => ¬ c = '/') = true) (h3 : body ≠ []) :
    wildNameOK body = true := by
  rw [wildNameOK, Bool.and_eq_true, List.all_eq_true]
  rw [noSigil, List.all_eq_true] at h1
  rw [List.all_eq_true] at h2
  refine ⟨by simp [h3], ?_⟩
  intro x hx
  have ha := h1 x hx
  have hb := h2 x hx
  simp at ha hb ⊢
  exact ⟨ha, hb⟩

theorem err_arm {n n' : Node} {e : RouteErr}
    (h : (n, some e) = (n', (none : Option RouteErr))) : False := by
  simpa using congrArg Prod.snd h

theorem grand_wf (numP : Nat) (full : Str) :
    wfB (Node.mk [] [] [] none 1 .static numP false full) = true := rfl

theorem insertChild_wf :
    ∀ (np : Nat) (path full : Str) (h : HandlersChain) (n n' : Node),
      Node.insertChild np path full h n = (n', none) →
      n.wildChild = false →
      (n.nType = .static ∨ n.nType = .root) →
      rawParamCount path = np →
      np < 255 →
      wfB n = true →
      nodeListAll wfB n.children = true →
      nodeListAll mpOK n.children = true →
      (np = 0 → n.children = []) →
      (n.path = [] → n.handlers = none) →
      (n.handlers = none ∨ (∃ w v, findWildcard path = some (w, 0, v))) →
      nodeAll wfB n' = true ∧
      n'.nType = n.nType ∧
      (path ≠ [] → ¬(path.headD ' ' = ':' ∨ path.headD ' ' = '*') →
        childIndexChar n' = path.headD '/') ∧
      (∀ w v, findWildcard path = some (w, 0, v) →
        n'.path = n.path ∧ n'.handlers = n.handlers) ∧
      (path ≠ [] → n'.path = [] → n'.handlers = none) ∧
      capCount n' = np + capCountList n.children ∧
      nodeListAll mpOK n'.children = true ∧
      (n'.maxParams = n.maxParams ∨ (np = 1 ∧ n'.maxParams = max n.maxParams 1)) ∧
      (∀ acc : Str,
        ((n.handlers = none ∧ n.path = [] ∧ n.children = []) ∨
          (∃ w v, findWildcard path = some (w, 0, v))) →
        collectRoutes acc n' = collectRoutes acc n ++ [(acc ++ (n.path ++ path), h)]) := by
  intro np
  induction np with
  | zero =>
    intro path full h n n' heq hwild htype hraw hlt hwf hwfc hmpc hch hEmpty hNoH
    have hcs : n.children = [] := hch rfl
    rw [Node.insertChild] at heq
    obtain ⟨a, i0, cs, hh, p0, t, m, w, f⟩ := n
    simp only [Node.children_mk] at hcs
    subst hcs
    simp only [Node.withPath_mk, Node.withHandlers_mk, Node.withFullPath_mk,
      Prod.mk.injEq] at heq
    obtain ⟨hn', -⟩ := heq
    subst hn'
    simp only [Node.children_mk, Node.path_mk, Node.handlers_mk, Node.nType_mk,
      Node.maxParams_mk] at htype hwf hwfc hmpc ⊢
    have hsig : noSigil path = true := (noSigil_iff path).mpr hraw
    refine ⟨?_, trivial, ?_, ?_, ?_, ?_, ?_, ?_, ?_⟩
    · rw [nodeAll_unfold]
      simp only [Node.children_mk, Bool.and_eq_true]
      refine ⟨?_, by simp⟩
      rw [wfB, Bool.and_eq_true] at hwf ⊢
      refine ⟨?_, ?_⟩
      · rw [shapeB_fields a i0 [] hh p0 t m w f path (some h) p0 m full]
        exact hwf.1
      · rcases htype with ht | ht <;> rw [ht] at hwf ⊢ <;>
          simp only [contentB, Node.nType_mk, Node.path_mk] <;> exact hsig
    · intro _ _
      simp [childIndexChar]
    · intro w' v hfw
      exfalso
      obtain ⟨s, body, rest, -, hsg, hdec, -, -, -, -, -⟩ :=
        findWildcard_spec path w' 0 v hfw
      have : rawParamCount path ≠ 0 := by
        rw [← hdec, rawParamCount_append, rawParamCount_append, rawParamCount_cons]
        rw [if_pos hsg]
        omega
      omega
    · intro hne hp
      exact absurd hp hne
    · rw [capCount_unfold]
      simp [selfW]
      rcases htype with ht | ht <;> rw [ht] <;> simp
    · simp
    · simp
    · intro acc hdisj
      rcases hdisj with ⟨hh1, hp1, -⟩ | ⟨w', v, hfw⟩
      · subst hh1 hp1
        rw [collectRoutes, collectRoutes]
        simp [collectRoutesList]
      · exfalso
        obtain ⟨s, body, rest, -, hsg, hdec, -, -, -, -, -⟩ :=
          findWildcard_spec path w' 0 v hfw
        have : rawParamCount path ≠ 0 := by
          rw [← hdec, rawParamCount_append, rawParamCount_append, rawParamCount_cons]
          rw [if_pos hsg]
          omega
        omega
  | succ numP ih =>
    intro path full h n n' heq hwild htype hraw hlt hwf hwfc hmpc hch hEmpty hNoH
    rw [Node.insertChild] at heq
    cases hfw : findWildcard path with
    | none =>
      exfalso
      have hns := findWildcard_none path hfw
      rw [noSigil_iff] at hns
      omega
    | some r =>
      obtain ⟨wseg, iw, valid⟩ := r
      rw [hfw] at heq
      obtain ⟨s, body, rest, hweq, hsg, hdec, hplen, hpre, hball, hrest, hvv⟩ :=
        findWildcard_spec path wseg iw valid hfw
      have hrawdec : rawParamCount path = 1 + rawParamCount body + rawParamCount rest := by
        rw [← hdec, rawParamCount_append, rawParamCount_append, rawParamCount_cons,
          if_pos hsg]
        have := (noSigil_iff _).mp hpre
        omega
      simp only [hfw] at heq
      subst hweq
      by_cases hval : valid = true
      swap
      · rw [if_pos hval] at heq
        exact (err_arm heq).elim
      rw [if_neg (not_not_intro hval)] at heq
      by_cases hw2 : (s :: body).length < 2
      · rw [if_pos hw2] at heq
        exact (err_arm heq).elim
      rw [if_neg hw2] at heq
      by_cases hce : n.children.isEmpty = true
      swap
      · rw [if_pos hce] at heq
        exact (err_arm heq).elim
      rw [if_neg (not_not_intro hce)] at heq
      obtain ⟨a, ix, cs, hh, p0, t, m, w0, f⟩ := n
      simp only [Node.children_mk, Node.path_mk, Node.handlers_mk, Node.nType_mk,
        Node.maxParams_mk, Node.wildChild_mk,
        Node.indices_mk] at hwild htype hwf hwfc hmpc hch hEmpty hNoH hce heq
      subst hwild
      have hcs : cs = [] := by simpa using hce
      subst hcs
      have hbl : 1 ≤ body.length := by
        simp only [List.length_cons] at hw2
        omega
      have hbne : body ≠ [] := List.length_pos.mp (by omega)
      have hnosig : noSigil body = true := hvv.mp hval
      have hbraw : rawParamCount body = 0 := (noSigil_iff body).mp hnosig
      have hwfp : wfB (Node.mk a ix [] hh p0 t m false f) = true := hwf
      rw [wfB, Bool.and_eq_true] at hwfp
      obtain ⟨hshape, hcontent⟩ := hwfp
      have hix : ix = [] := by
        rw [shapeB] at hshape
        rcases htype with ht | ht <;> rw [ht] at hshape <;> simp at hshape <;>
          exact hshape.2
      subst hix
      have hnsa : noSigil a = true := by
        rw [contentB] at hcontent
        rcases htype with ht | ht <;> rw [ht] at hcontent <;>
          simpa using hcontent
      have hdropiw : List.drop iw path = (s :: body) ++ rest := by
        have hdl := List.drop_left (path.take iw) ((s :: body) ++ rest)
        rw [hplen, ← List.append_assoc, hdec] at hdl
        exact hdl
      have hdropif : (if iw > 0 then List.drop iw path else path) = (s :: body) ++ rest := by
        by_cases hiw : iw > 0
        · rw [if_pos hiw]
          exact hdropiw
        · rw [if_neg hiw]
          have h0 : iw = 0 := by omega
          subst h0
          rw [← List.drop_zero path] at hdropiw
          exact hdropiw
      rcases hsg with hcol | hstar
      · subst hcol
        rw [if_pos (show List.headD (':' :: body) ' ' = ':' from rfl)] at heq
        rw [hdropif] at heq
        by_cases hrne : rest = []
        · subst hrne
          rw [List.append_nil] at heq
          rw [if_neg (lt_irrefl _)] at heq
          have hnp0 : numP = 0 := by
            rw [hrawdec, hbraw, rawParamCount_nil] at hraw
            omega
          have hwn : wildNameOK body = true := wildNameOK_of body hnosig hball hbne
          by_cases hiw : iw > 0
          · rw [if_pos hiw] at heq
            simp only [Node.withPath_mk, Node.withWildChild_mk, Node.withChildren_mk,
              Node.withHandlers_mk, Prod.mk.injEq] at heq
            obtain ⟨hn', -⟩ := heq
            subst hn'
            have hpeq : List.take iw path ++ ':' :: body = path := by
              simpa using hdec
            have htne : List.take iw path ≠ [] := by
              intro hc
              rw [hc] at hplen
              simp at hplen
              omega
            refine ⟨?_, by simp, ?_, ?_, ?_, ?_, ?_, by left; simp, ?_⟩
            · rw [nodeAll_unfold]
              simp only [Node.children_mk, nodeListAll_cons, nodeListAll_nil,
                Bool.and_true, Bool.and_eq_true]
              refine ⟨?_, ?_⟩
              · rw [wfB, Bool.and_eq_true]
                refine ⟨by simp [shapeB], ?_⟩
                rcases htype with ht | ht <;> rw [ht] <;>
                  simp only [contentB, Node.nType_mk, Node.path_mk] <;> exact hpre
              · rw [nodeAll_unfold]
                simp only [Node.children_mk, nodeListAll_nil, Bool.and_true]
                rw [wfB, Bool.and_eq_true]
                refine ⟨by simp [shapeB], ?_⟩
                simp only [contentB, Node.nType_mk, Node.wildChild_mk, Node.path_mk]
                simpa using hwn
            · intro hpne hns
              simp only [childIndexChar, Node.path_mk]
              rw [headD_take path iw '/' (by omega)]
            · intro w' v hfww
              simp only [Option.some.injEq, Prod.mk.injEq] at hfww
              obtain ⟨-, h2, -⟩ := hfww
              omega
            · intro hpne hp'
              simp only [Node.path_mk] at hp'
              exact absurd hp' htne
            · rcases htype with ht | ht <;> rw [ht] <;>
                simp [selfW, capCount_unfold] <;> omega
            · simp only [Node.children_mk, nodeListAll_cons, nodeListAll_nil,
                Bool.and_true]
              rw [nodeAll_unfold]
              simp [mpOK, capCount_unfold, selfW, hnp0]
            · intro acc hcond
              rcases hcond with ⟨h1, h2, -⟩ | ⟨w', v, hfww⟩
              · simp only [Node.handlers_mk] at h1
                simp only [Node.path_mk] at h2
                subst h1
                subst h2
                simp only [collectRoutes, collectRoutesList]
                simp [List.append_assoc, hpeq]
              · simp only [Option.some.injEq, Prod.mk.injEq] at hfww
                obtain ⟨-, h2, -⟩ := hfww
                omega
          · rw [if_neg hiw] at heq
            simp only [Node.withWildChild_mk, Node.withChildren_mk,
              Node.withHandlers_mk, Prod.mk.injEq] at heq
            obtain ⟨hn', -⟩ := heq
            subst hn'
            have hiw0 : iw = 0 := by omega
            subst hiw0
            have hpeq0 : path = ':' :: body := by
              have := hdec.symm
              simpa using this
            refine ⟨?_, by simp, ?_, ?_, ?_, ?_, ?_, by left; simp, ?_⟩
            · rw [nodeAll_unfold]
              simp only [Node.children_mk, nodeListAll_cons, nodeListAll_nil,
                Bool.and_true, Bool.and_eq_true]
              refine ⟨?_, ?_⟩
              · rw [wfB, Bool.and_eq_true]
                refine ⟨by simp [shapeB], ?_⟩
                rcases htype with ht | ht <;> rw [ht] <;>
                  simp only [contentB, Node.nType_mk, Node.path_mk] <;> exact hnsa
              · rw [nodeAll_unfold]
                simp only [Node.children_mk, nodeListAll_nil, Bool.and_true]
                rw [wfB, Bool.and_eq_true]
                refine ⟨by simp [shapeB], ?_⟩
                simp only [contentB, Node.nType_mk, Node.wildChild_mk, Node.path_mk]
                simpa using hwn
            · intro hpne hns
              exfalso
              rw [hpeq0] at hns
              simp at hns
            · intro w' v hfww
              simp
            · intro hpne hp'
              simp only [Node.path_mk] at hp'
              simp only [Node.handlers_mk]
              exact hEmpty hp'
            · rcases htype with ht | ht <;> rw [ht] <;>
                simp [selfW, capCount_unfold] <;> omega
            · simp only [Node.children_mk, nodeListAll_cons, nodeListAll_nil,
                Bool.and_true]
              rw [nodeAll_unfold]
              simp [mpOK, capCount_unfold, selfW, hnp0]
            · intro acc hcond
              simp only [collectRoutes, collectRoutesList]
              cases hh <;> simp [hpeq0, List.append_assoc]
        · rw [if_pos (by
            rw [List.length_append]
            have := List.length_pos.mpr hrne
            omega)] at heq
          rw [List.drop_left] at heq
          cases hgr : Node.insertChild numP rest full h
              (Node.mk [] [] [] none 1 .static numP false full) with
          | mk g' err =>
          rw [hgr] at heq
          have herr : err = none := by
            have := congrArg Prod.snd heq
            simpa using this
          subst herr
          have hrawrest : rawParamCount rest = numP := by omega
          have hwn : wildNameOK body = true := wildNameOK_of body hnosig hball hbne
          have IH := ih rest full h (Node.mk [] [] [] none 1 .static numP false full)
            g' hgr rfl (Or.inl rfl) hrawrest (by omega) (grand_wf numP full)
            (by simp) (by simp) (fun _ => rfl) (fun _ => rfl) (Or.inl rfl)
          obtain ⟨IH1, IH2, IH3, IH4, IH5, IH6, IH7, IH8, IH9⟩ := IH
          have hcap : capCount g' = numP := by
            simpa using IH6
          have hgm : Node.maxParams g' = numP := by
            rcases IH8 with h8 | ⟨h81, h82⟩
            · simpa using h8
            · simp only [Node.maxParams_mk, h81, Nat.max_self] at h82
              rw [h82, h81]
          have hmpg : mpOK g' = true := by
            rw [mpOK, hgm, hcap]
            simp
          have hmall : nodeAll mpOK g' = true := by
            rw [nodeAll_unfold, Bool.and_eq_true]
            exact ⟨hmpg, IH7⟩
          have hgstatic : Node.nType g' = NType.static := by simpa using IH2
          have hg5 : Node.path g' = [] → Node.handlers g' = none := by
            intro hp
            exact IH5 hrne hp
          have hgbool : (!(List.isEmpty (Node.path g')) ||
              Option.isNone (Node.handlers g')) = true := by
            cases hgp : Node.path g' with
            | nil => simp [hg5 hgp]
            | cons c cs => simp
          have hcoll : ∀ acc2 : Str, collectRoutes acc2 g' = [(acc2 ++ rest, h)] := by
            intro acc2
            have h9 := IH9 acc2 (Or.inl ⟨rfl, rfl, rfl⟩)
            simpa [collectRoutes, collectRoutesList] using h9
          have hswcw : selfW (Node.mk (':' :: body) [] [g'] none 1 .param
              (numP + 1) false full) = 1 := by
            rw [selfW]
            simp
          have hcapcw : capCount (Node.mk (':' :: body) [] [g'] none 1 .param
              (numP + 1) false full) = numP + 1 := by
            rw [capCount_unfold]
            simp only [Node.children_mk, capCountList_cons, capCountList_nil]
            rw [hcap, hswcw]
            omega
          by_cases hiw : iw > 0
          · rw [if_pos hiw] at heq
            simp only [Node.withPath_mk, Node.withWildChild_mk, Node.withChildren_mk,
              Prod.mk.injEq] at heq
            obtain ⟨hn', -⟩ := heq
            subst hn'
            have htne : List.take iw path ≠ [] := by
              intro hc
              rw [hc] at hplen
              simp at hplen
              omega
            refine ⟨?_, by simp, ?_, ?_, ?_, ?_, ?_, by left; simp, ?_⟩
            · rw [nodeAll_unfold]
              simp only [Node.children_mk, nodeListAll_cons, nodeListAll_nil,
                Bool.and_true, Bool.and_eq_true]
              refine ⟨?_, ?_⟩
              · rw [wfB, Bool.and_eq_true]
                refine ⟨by simp [shapeB], ?_⟩
                rcases htype with ht | ht <;> rw [ht] <;>
                  simp only [contentB, Node.nType_mk, Node.path_mk] <;> exact hpre
              · rw [nodeAll_unfold]
                simp only [Node.children_mk, nodeListAll_cons, nodeListAll_nil,
                  Bool.and_true, Bool.and_eq_true]
                refine ⟨?_, IH1⟩
                rw [wfB, Bool.and_eq_true]
                refine ⟨?_, ?_⟩
                · rw [shapeB]
                  simp [hgstatic, hgbool]
                · simp only [contentB, Node.nType_mk, Node.wildChild_mk, Node.path_mk]
                  simpa using hwn
            · intro hpne hns
              simp only [childIndexChar, Node.path_mk]
              rw [headD_take path iw '/' (by omega)]
            · intro w' v hfww
              simp only [Option.some.injEq, Prod.mk.injEq] at hfww
              obtain ⟨-, h2, -⟩ := hfww
              omega
            · intro hpne hp'
              simp only [Node.path_mk] at hp'
              exact absurd hp' htne
            · rw [capCount_unfold]
              simp only [Node.children_mk, capCountList_cons, capCountList_nil, hcapcw]
              rcases htype with ht | ht <;> rw [ht] <;> simp [selfW]
            · simp only [Node.children_mk, nodeListAll_cons, nodeListAll_nil,
                Bool.and_true]
              rw [nodeAll_unfold, Bool.and_eq_true]
              constructor
              · rw [mpOK, beq_iff_eq, hcapcw]
                simp
              · simp only [Node.children_mk, nodeListAll_cons, nodeListAll_nil,
                  Bool.and_true]
                exact hmall
            · intro acc hcond
              rcases hcond with ⟨h1, h2, -⟩ | ⟨w', v, hfww⟩
              · simp only [Node.handlers_mk] at h1
                simp only [Node.path_mk] at h2
                subst h1
                subst h2
                simp only [collectRoutes, collectRoutesList]
                rw [hcoll]
                conv_rhs => rw [← hdec]
                simp [List.append_assoc]
              · simp only [Option.some.injEq, Prod.mk.injEq] at hfww
                obtain ⟨-, h2, -⟩ := hfww
                omega
          · rw [if_neg hiw] at heq
            simp only [Node.withWildChild_mk, Node.withChildren_mk,
              Prod.mk.injEq] at heq
            obtain ⟨hn', -⟩ := heq
            subst hn'
            have hiw0 : iw = 0 := by omega
            subst hiw0
            have hpeq0 : path = ':' :: (body ++ rest) := by
              have := hdec.symm
              simpa using this
            refine ⟨?_, by simp, ?_, ?_, ?_, ?_, ?_, by left; simp, ?_⟩
            · rw [nodeAll_unfold]
              simp only [Node.children_mk, nodeListAll_cons, nodeListAll_nil,
                Bool.and_true, Bool.and_eq_true]
              refine ⟨?_, ?_⟩
              · rw [wfB, Bool.and_eq_true]
                refine ⟨by simp [shapeB], ?_⟩
                rcases htype with ht | ht <;> rw [ht] <;>
                  simp only [contentB, Node.nType_mk, Node.path_mk] <;> exact hnsa
              · rw [nodeAll_unfold]
                simp only [Node.children_mk, nodeListAll_cons, nodeListAll_nil,
                  Bool.and_true, Bool.and_eq_true]
                refine ⟨?_, IH1⟩
                rw [wfB, Bool.and_eq_true]
                refine ⟨?_, ?_⟩
                · rw [shapeB]
                  simp [hgstatic, hgbool]
                · simp only [contentB, Node.nType_mk, Node.wildChild_mk, Node.path_mk]
                  simpa using hwn
            · intro hpne hns
              exfalso
              rw [hpeq0] at hns
              simp at hns
            · intro w' v hfww
              simp
            · intro hpne hp'
              simp only [Node.path_mk] at hp'
              simp only [Node.handlers_mk]
              exact hEmpty hp'
            · rw [capCount_unfold]
              simp only [Node.children_mk, capCountList_cons, capCountList_nil, hcapcw]
              rcases htype with ht | ht <;> rw [ht] <;> simp [selfW]
            · simp only [Node.children_mk, nodeListAll_cons, nodeListAll_nil,
                Bool.and_true]
              rw [nodeAll_unfold, Bool.and_eq_true]
              constructor
              · rw [mpOK, beq_iff_eq, hcapcw]
                simp
              · simp only [Node.children_mk, nodeListAll_cons, nodeListAll_nil,
                  Bool.and_true]
                exact hmall
            · intro acc hcond
              simp only [collectRoutes, collectRoutesList]
              rw [hcoll]
              cases hh <;> simp [hpeq0, List.append_assoc]
      · subst hstar
        rw [if_neg (show ¬List.headD ('*' :: body) ' ' = ':' by simp)] at heq
        by_cases hc1 : iw + List.length ('*' :: body) ≠ List.length path ∨ numP + 1 > 1
        · rw [if_pos hc1] at heq
          exact (err_arm heq).elim
        rw [if_neg hc1] at heq
        push_neg at hc1
        obtain ⟨hlen0, hnple⟩ := hc1
        have hnp0 : numP = 0 := by omega
        have hlen : iw + (body.length + 1) = path.length := by
          simpa using hlen0
        by_cases hc2 : a ≠ [] ∧ List.getLastD a ' ' = '/'
        · rw [if_pos hc2] at heq
          exact (err_arm heq).elim
        rw [if_neg hc2] at heq
        by_cases hc3 : iw = 0
        · rw [if_pos hc3] at heq
          exact (err_arm heq).elim
        rw [if_neg hc3] at heq
        by_cases hc4 : List.getD path (iw - 1) ' ' ≠ '/'
        · rw [if_pos hc4] at heq
          exact (err_arm heq).elim
        rw [if_neg hc4] at heq
        push_neg at hc4
        have hrlen : rest = [] := by
          have hl2 := congrArg List.length hdec
          simp [List.length_append, hplen] at hl2
          have : rest.length = 0 := by omega
          exact List.length_eq_zero.mp this
        subst hrlen
        have hpeq : List.take iw path ++ '*' :: body = path := by
          simpa using hdec
        have hwn : wildNameOK body = true := wildNameOK_of body hnosig hball hbne
        have hiw1 : iw - 1 < path.length := by omega
        have hdropm1 : List.drop (iw - 1) path = '/' :: ('*' :: body) := by
          rw [List.drop_eq_getElem_cons hiw1]
          congr 1
          · rw [← getD_eq_getElem path (iw - 1) ' ' hiw1]
            exact hc4
          · have h2 : iw - 1 + 1 = iw := by omega
            rw [h2]
            simpa using hdropiw
        have hpre1 : noSigil (List.take (iw - 1) path) = true := by
          have hts : List.take (iw - 1) path = List.take (iw - 1) (List.take iw path) := by
            rw [List.take_take]
            congr 1
            omega
          rw [hts]
          exact noSigil_take _ _ hpre
        have hhn : hh = none := by
          rcases hNoH with h0 | ⟨w', v, hfww⟩
          · exact h0
          · rw [hfw] at hfww
            simp only [Option.some.injEq, Prod.mk.injEq] at hfww
            exact absurd hfww.2.1 hc3
        simp only [Node.withPath_mk, Node.withMaxParams_mk, Node.withChildren_mk,
          Node.withIndices_mk, Prod.mk.injEq] at heq
        obtain ⟨hn', -⟩ := heq
        subst hn'
        rw [hdropm1]
        have hcl : capCount (Node.mk ('/' :: '*' :: body) [] [] (some h) 1
            .catchAll 1 false full) = 1 := by
          rw [capCount_unfold]
          simp [selfW]
        have hca : capCount (Node.mk [] [] [Node.mk ('/' :: '*' :: body) [] []
            (some h) 1 .catchAll 1 false full] none 1 .catchAll 1 true full) = 1 := by
          rw [capCount_unfold]
          simp only [Node.children_mk, capCountList_cons, capCountList_nil, hcl]
          simp [selfW]
        refine ⟨?_, by simp, ?_, ?_, ?_, ?_, ?_, ?_, ?_⟩
        · rw [nodeAll_unfold]
          simp only [Node.children_mk, nodeListAll_cons, nodeListAll_nil,
            Bool.and_true, Bool.and_eq_true]
          refine ⟨?_, ?_⟩
          · rw [wfB, Bool.and_eq_true]
            refine ⟨?_, ?_⟩
            · rcases htype with ht | ht <;> rw [ht] <;> simp [shapeB, childIndexChar]
            · rcases htype with ht | ht <;> rw [ht] <;>
                simp only [contentB, Node.nType_mk, Node.path_mk] <;> exact hpre1
          · rw [nodeAll_unfold]
            simp only [Node.children_mk, nodeListAll_cons, nodeListAll_nil,
              Bool.and_true, Bool.and_eq_true]
            refine ⟨by simp [wfB, shapeB, contentB], ?_⟩
            rw [nodeAll_unfold]
            simp only [Node.children_mk, nodeListAll_nil, Bool.and_true]
            rw [wfB, Bool.and_eq_true]
            refine ⟨by simp [shapeB], ?_⟩
            simp only [contentB, Node.nType_mk, Node.wildChild_mk, Node.path_mk,
              Node.handlers_mk]
            simpa using hwn
        · intro hpne hns
          simp only [childIndexChar, Node.path_mk]
          by_cases hiw2 : 1 ≤ iw - 1
          · rw [headD_take path (iw - 1) '/' hiw2]
          · have h1 : iw = 1 := by omega
            subst h1
            cases path with
            | nil => exact absurd rfl hpne
            | cons c cs =>
              simp only [show (1 : Nat) - 1 = 0 from rfl, List.take_zero] at hc4 ⊢
              simp at hc4
              simp [hc4]
        · intro w' v hfww
          simp only [Option.some.injEq, Prod.mk.injEq] at hfww
          exact absurd hfww.2.1 hc3
        · intro hpne hp'
          simp only [Node.handlers_mk]
          exact hhn
        · rw [capCount_unfold]
          simp only [Node.children_mk, capCountList_cons, capCountList_nil, hca]
          rcases htype with ht | ht <;> rw [ht] <;> simp [selfW] <;> omega
        · simp only [Node.children_mk, nodeListAll_cons, nodeListAll_nil,
            Bool.and_true]
          rw [nodeAll_unfold, Bool.and_eq_true]
          constructor
          · rw [mpOK, beq_iff_eq, hca]
            simp
          · simp only [Node.children_mk, nodeListAll_cons, nodeListAll_nil,
              Bool.and_true]
            rw [nodeAll_unfold, Bool.and_eq_true]
            constructor
            · rw [mpOK, beq_iff_eq, hcl]
              simp
            · simp
        · right
          refine ⟨by omega, by simp⟩
        · intro acc hcond
          rcases hcond with ⟨h1, h2, -⟩ | ⟨w', v, hfww⟩
          · simp only [Node.path_mk] at h2
            subst h2
            subst hhn
            simp only [collectRoutes, collectRoutesList]
            rw [← hdropm1]
            simp [List.append_assoc]
          · simp only [Option.some.injEq, Prod.mk.injEq] at hfww
            obtain ⟨-, h2, -⟩ := hfww
            exact absurd h2 hc3

theorem commonPrefixLen_take : ∀ (s t : Str),
    List.take (commonPrefixLen s t) s = List.take (commonPrefixLen s t) t := by
  intro s
  induction s with
  | nil => intro t; simp [commonPrefixLen]
  | cons a as ih =>
    intro t
    cases t with
    | nil => simp [commonPrefixLen]
    | cons b bs =>
      rw [commonPrefixLen]
      by_cases hab : a = b
      · rw [if_pos hab]
        subst hab
        simp [List.take_succ_cons, ih bs]
      · rw [if_neg hab]
        simp

theorem commonPrefixLen_le_left : ∀ (s t : Str), commonPrefixLen s t ≤ s.length := by
  intro s
  induction s with
  | nil => intro t; simp [commonPrefixLen]
  | cons a as ih =>
    intro t
    cases t with
    | nil => simp [commonPrefixLen]
    | cons b bs =>
      rw [commonPrefixLen]
      by_cases hab : a = b
      · rw [if_pos hab]
        have := ih bs
        simp
        omega
      · rw [if_neg hab]
        simp

theorem commonPrefixLen_le_right : ∀ (s t : Str), commonPrefixLen s t ≤ t.length := by
  intro s
  induction s with
  | nil => intro t; simp [commonPrefixLen]
  | cons a as ih =>
    intro t
    cases t with
    | nil => simp [commonPrefixLen]
    | cons b bs =>
      rw [commonPrefixLen]
      by_cases hab : a = b
      · rw [if_pos hab]
        have := ih bs
        simp
        omega
      · rw [if_neg hab]
        simp

theorem commonPrefixLen_of_prefix : ∀ (s t : Str), t <+: s →
    commonPrefixLen s t = t.length := by
  intro s
  induction s with
  | nil =>
    intro t ht
    rw [List.prefix_nil] at ht
    subst ht
    rfl
  | cons a as ih =>
    intro t ht
    cases t with
    | nil => rfl
    | cons b bs =>
      obtain ⟨u, hu⟩ := ht
      simp only [List.cons_append, List.cons.injEq] at hu
      obtain ⟨hb, hrest⟩ := hu
      rw [commonPrefixLen, if_pos hb.symm]
      have : bs <+: as := ⟨u, hrest⟩
      rw [ih bs this]
      simp

theorem commonPrefixLen_neq : ∀ (s t : Str),
    commonPrefixLen s t < s.length → commonPrefixLen s t < t.length →
    s.getD (commonPrefixLen s t) ' ' ≠ t.getD (commonPrefixLen s t) ' ' := by
  intro s
  induction s with
  | nil => intro t h1 h2; simp at h1
  | cons a as ih =>
    intro t h1 h2
    cases t with
    | nil => simp at h2
    | cons b bs =>
      rw [commonPrefixLen] at h1 h2 ⊢
      by_cases hab : a = b
      · rw [if_pos hab] at h1 h2 ⊢
        simp only [List.length_cons] at h1 h2
        have := ih bs (by omega) (by omega)
        simpa using this
      · rw [if_neg hab] at h1 h2 ⊢
        simpa using hab

theorem headD_drop (s : Str) (i : Nat) (d : Char) (h : i < s.length) :
    (s.drop i).headD d = s.getD i d := by
  rw [List.drop_eq_getElem_cons h]
  rw [getD_eq_getElem s i d h]
  rfl

theorem noSigil_drop (s : Str) (k : Nat) (h : noSigil s = true) :
    noSigil (s.drop k) = true := by
  rw [noSigil, List.all_eq_true] at h ⊢
  intro x hx
  exact h x (List.drop_subset k s hx)

theorem rawParamCount_take_drop (s : Str) (i : Nat) :
    rawParamCount s = rawParamCount (s.take i) + rawParamCount (s.drop i) := by
  conv_lhs => rw [← List.take_append_drop i s]
  rw [rawParamCount_append]

theorem findIdx?_some : ∀ (l : Str) (p : Char → Bool) (s i : Nat),
    List.findIdx? p l s = some i →
    s ≤ i ∧ i - s < l.length ∧ p (l.getD (i - s) ' ') = true := by
  intro l
  induction l with
  | nil => intro p s i h; rw [List.findIdx?] at h; cases h
  | cons a as ih =>
    intro p s i h
    rw [List.findIdx?_cons] at h
    by_cases hp : p a = true
    · rw [if_pos hp] at h
      simp only [Option.some.injEq] at h
      subst h
      simpa using hp
    · rw [if_neg hp] at h
      obtain ⟨h1, h2, h3⟩ := ih p (s + 1) i h
      refine ⟨by omega, by simp; omega, ?_⟩
      have : i - s = (i - (s + 1)) + 1 := by omega
      rw [this]
      simpa using h3

theorem findIdx?_none : ∀ (l : Str) (p : Char → Bool) (s : Nat),
    List.findIdx? p l s = none → ∀ x ∈ l, p x = false := by
  intro l
  induction l with
  | nil => intro p s h x hx; cases hx
  | cons a as ih =>
    intro p s h x hx
    rw [List.findIdx?_cons] at h
    by_cases hp : p a = true
    · rw [if_pos hp] at h
      cases h
    · rw [if_neg hp] at h
      cases hx with
      | head => simpa using hp
      | tail _ hmem => exact ih p (s + 1) h x hmem

theorem dec8_of_pos (x : Nat) (h1 : 1 ≤ x) (h2 : x ≤ 255) : dec8 x = x - 1 := by
  rw [dec8]
  omega

theorem set_getD_self (l : List α) (k : Nat) (d : α) (h : k < l.length) :
    l.set k (l.getD k d) = l := by
  apply List.ext_getElem (by simp)
  intro n h1 h2
  rw [List.getElem_set]
  split
  · rename_i hkn
    subst hkn
    rw [getD_eq_getElem l k d h]
  · rfl

theorem movL_set_eq (l : List α) (pos k : Nat) (x : α) (hk : k ≤ pos)
    (h : pos < l.length) :
    (movL l pos k).set k x = movL (l.set pos x) pos k := by
  rw [movL_decomp l pos k hk h, movL_decomp (l.set pos x) pos k hk (by simpa using h)]
  rw [List.set_append]
  rw [if_neg (by simp)]
  have hlt : (l.take k).length = k := by
    simp
    omega
  rw [hlt]
  simp only [Nat.sub_self, List.set_cons_zero]
  rw [take_set_of_le l pos k x hk]
  congr 1
  congr 1
  · exact (List.getElem_set_self (by simpa using h)).symm
  congr 1
  · rw [List.drop_set, if_neg (by omega)]
    rw [take_set_of_le]
    omega
  · rw [List.drop_set, if_pos (by omega)]

theorem eraseIdx_set (l : List α) (pos : Nat) (x : α) :
    (l.set pos x).eraseIdx pos = l.eraseIdx pos := by
  rw [List.eraseIdx_eq_take_drop_succ, List.eraseIdx_eq_take_drop_succ]
  rw [take_set_of_le l pos pos x (Nat.le_refl pos)]
  rw [List.drop_set, if_pos (by omega)]

theorem perm_getD_eraseIdx (l : List α) (pos : Nat) (d : α) (h : pos < l.length) :
    List.Perm l (l.getD pos d :: l.eraseIdx pos) := by
  conv_lhs => rw [← List.take_append_drop pos l]
  rw [List.drop_eq_getElem_cons h, List.eraseIdx_eq_take_drop_succ]
  rw [getD_eq_getElem l pos d h]
  exact List.perm_middle

theorem set_perm_cons_eraseIdx (l : List α) (pos : Nat) (x : α) (h : pos < l.length) :
    List.Perm (l.set pos x) (x :: l.eraseIdx pos) := by
  have h2 : pos < (l.set pos x).length := by simpa using h
  have := perm_getD_eraseIdx (l.set pos x) pos x h2
  rw [List.getD_eq_getElem?_getD, List.getElem?_eq_getElem h2,
    List.getElem_set_self h2] at this
  rw [eraseIdx_set] at this
  exact this

theorem collectRoutesList_append (acc : Str) (l1 l2 : List Node) :
    collectRoutesList acc (l1 ++ l2) =
      collectRoutesList acc l1 ++ collectRoutesList acc l2 := by
  induction l1 with
  | nil => simp [collectRoutesList]
  | cons c cs ih => simp [collectRoutesList, ih]

theorem collectRoutesList_perm {l1 l2 : List Node} (acc : Str) (h : List.Perm l1 l2) :
    List.Perm (collectRoutesList acc l1) (collectRoutesList acc l2) := by
  induction h with
  | nil => exact List.Perm.refl _
  | cons x _ ih => simp only [collectRoutesList]; exact ih.append_left _
  | swap x y l =>
    simp only [collectRoutesList, ← List.append_assoc]
    exact (List.perm_append_comm.append_right _)
  | trans _ _ ih1 ih2 => exact ih1.trans ih2

theorem mpfold (cs : List Node) (hmp : nodeListAll mpOK cs = true) :
    ∀ a : Nat, cs.foldl (fun acc c => max acc c.maxParams) a = max a (capCountList cs) := by
  induction cs with
  | nil => intro a; simp
  | cons c cs ih =>
    intro a
    simp only [nodeListAll_cons, Bool.and_eq_true] at hmp
    obtain ⟨hc, hcs⟩ := hmp
    rw [nodeAll_unfold, Bool.and_eq_true] at hc
    have hm : c.maxParams = capCount c := by
      have := hc.1
      rw [mpOK] at this
      simpa using this
    simp only [List.foldl_cons, capCountList_cons]
    rw [ih hcs, hm]
    omega

theorem sigil_findWildcard (path : Str) (hne : path ≠ [])
    (hs : path.headD ' ' = ':' ∨ path.headD ' ' = '*') :
    ∃ w v, findWildcard path = some (w, 0, v) := by
  cases path with
  | nil => exact absurd rfl hne
  | cons c cs =>
    simp only [List.headD_cons] at hs
    rw [findWildcard, if_pos hs]
    exact ⟨_, _, rfl⟩

theorem noSigil_of_wildNameOK (s : Str) (h : wildNameOK s = true) :
    noSigil s = true := by
  rw [wildNameOK, Bool.and_eq_true, List.all_eq_true] at h
  rw [noSigil, List.all_eq_true]
  intro x hx
  have hx3 := h.2 x hx
  cases hv : (x == ':' || x == '*') with
  | false => rfl
  | true =>
    rw [hv] at hx3
    simp at hx3

theorem param_path_form (p : Str)
    (hm : (match p with | ':' :: name => wildNameOK name | _ => false) = true) :
    ∃ name, p = ':' :: name ∧ wildNameOK name = true := by
  split at hm
  · rename_i name
    exact ⟨name, rfl, hm⟩
  · exact absurd hm (by simp)

theorem catchAll_path_form (p : Str)
    (hm : (match p with | '/' :: '*' :: name => wildNameOK name | _ => false) = true) :
    ∃ name, p = '/' :: '*' :: name ∧ wildNameOK name = true := by
  split at hm
  · rename_i name
    exact ⟨name, rfl, hm⟩
  · exact absurd hm (by simp)

theorem raw_path_selfW (n : Node) (hwf : wfB n = true) :
    rawParamCount n.path = selfW n := by
  rw [wfB, Bool.and_eq_true] at hwf
  obtain ⟨-, hc⟩ := hwf
  rw [contentB] at hc
  rw [selfW]
  cases htn : n.nType with
  | static =>
    rw [htn] at hc
    rw [if_neg (by simp)]
    exact (noSigil_iff _).mp hc
  | root =>
    rw [htn] at hc
    rw [if_neg (by simp)]
    exact (noSigil_iff _).mp hc
  | param =>
    rw [htn] at hc
    simp only [Bool.and_eq_true] at hc
    obtain ⟨-, hc⟩ := hc
    obtain ⟨name, heq, hwn⟩ := param_path_form n.path hc
    rw [heq, if_pos (by simp)]
    rw [rawParamCount_cons, if_pos (Or.inl rfl)]
    rw [(noSigil_iff _).mp (noSigil_of_wildNameOK name hwn)]
  | catchAll =>
    rw [htn] at hc
    simp only [Bool.or_eq_true, Bool.and_eq_true] at hc
    rcases hc with ⟨-, hpe⟩ | ⟨⟨-, -⟩, hform⟩
    · have hp : n.path = [] := by simpa using hpe
      rw [hp, if_neg (by simp)]
      rfl
    · obtain ⟨name, heq, hwn⟩ := catchAll_path_form n.path hform
      rw [heq, if_pos (by simp)]
      rw [rawParamCount_cons, if_neg (by simp), rawParamCount_cons,
        if_pos (Or.inr rfl)]
      rw [(noSigil_iff _).mp (noSigil_of_wildNameOK name hwn)]

theorem wildMatch_iff (cs : List Node) :
    (match cs with
     | [w] => w.nType == NType.param || (w.nType == NType.catchAll && !w.path.isEmpty)
     | _ => false) = true ↔
      ∃ w, cs = [w] ∧ (w.nType = .param ∨ (w.nType = .catchAll ∧ w.path ≠ [])) := by
  cases cs with
  | nil => simp
  | cons c cs2 =>
    cases cs2 with
    | nil =>
      simp only [Bool.or_eq_true, Bool.and_eq_true, beq_iff_eq]
      constructor
      · intro h
        refine ⟨c, rfl, ?_⟩
        rcases h with h | ⟨h1, h2⟩
        · exact Or.inl h
        · refine Or.inr ⟨h1, ?_⟩
          simpa using h2
      · rintro ⟨w, hw, h⟩
        simp only [List.cons.injEq, and_true] at hw
        subst hw
        rcases h with h | ⟨h1, h2⟩
        · exact Or.inl h
        · refine Or.inr ⟨h1, ?_⟩
          simpa using h2
    | cons d ds => simp

theorem shapeB_iff (n : Node) : shapeB n = true ↔
    n.indices.Nodup ∧
    (if n.wildChild = true then
      n.indices = [] ∧ ∃ w, n.children = [w] ∧
        (w.nType = .param ∨ (w.nType = .catchAll ∧ w.path ≠ []))
     else
      (if n.nType = .param then
        n.children.length ≤ 1 ∧
          (n.indices = [] ∨ n.indices = n.children.map childIndexChar)
       else n.indices = n.children.map childIndexChar) ∧
      ∀ c ∈ n.children, c.nType ≠ .param ∧ (c.nType = .catchAll → c.path = [])) ∧
    (∀ c ∈ n.children, c.nType ≠ .root ∧ (c.path = [] → c.handlers = none)) := by
  rw [shapeB]
  simp only [Bool.and_eq_true]
  constructor
  · rintro ⟨⟨hnd, hmid⟩, hall⟩
    refine ⟨by simpa using hnd, ?_, ?_⟩
    · cases hw : n.wildChild with
      | true =>
        rw [hw] at hmid
        rw [if_pos rfl]
        simp only [if_pos] at hmid
        rw [Bool.and_eq_true] at hmid
        refine ⟨by simpa using hmid.1, (wildMatch_iff n.children).mp hmid.2⟩
      | false =>
        rw [hw] at hmid
        rw [if_neg (by simp)]
        rw [if_neg (by simp), Bool.and_eq_true] at hmid
        rcases hmid with ⟨hind, hch⟩
        constructor
        · by_cases hp : n.nType = .param
          · rw [if_pos hp]
            rw [hp] at hind
            simp only [if_pos, beq_self_eq_true, if_true] at hind
            rw [Bool.and_eq_true] at hind
            refine ⟨by simpa using hind.1, ?_⟩
            rcases Bool.or_eq_true _ _ |>.mp hind.2 with h | h
            · exact Or.inl (by simpa using h)
            · exact Or.inr (by simpa using h)
          · rw [if_neg hp]
            rw [if_neg (by simpa using hp)] at hind
            simpa using hind
        · intro c hc
          have := (List.all_eq_true.mp hch) c hc
          simp only [Bool.and_eq_true, Bool.not_eq_true', beq_eq_false_iff_ne,
            ne_eq, Bool.or_eq_true] at this
          refine ⟨this.1, fun hca => ?_⟩
          rcases this.2 with h | h
          · exact absurd hca h
          · simpa using h
    · intro c hc
      have := (List.all_eq_true.mp hall) c hc
      simp only [Bool.and_eq_true, Bool.not_eq_true', beq_eq_false_iff_ne,
        ne_eq, Bool.or_eq_true] at this
      refine ⟨this.1, fun hpe => ?_⟩
      rcases this.2 with h | h
      · exact absurd hpe (by simpa using h)
      · simpa using h
  · rintro ⟨hnd, hmid, hall⟩
    refine ⟨⟨by simpa using hnd, ?_⟩, ?_⟩
    · cases hw : n.wildChild with
      | true =>
        rw [hw, if_pos rfl] at hmid
        simp only [if_pos]
        rw [Bool.and_eq_true]
        exact ⟨by simpa using hmid.1, (wildMatch_iff n.children).mpr hmid.2⟩
      | false =>
        rw [hw, if_neg (by simp)] at hmid
        rw [if_neg (by simp), Bool.and_eq_true]
        rcases hmid with ⟨hind, hch⟩
        constructor
        · by_cases hp : n.nType = .param
          · rw [if_pos hp] at hind
            rw [if_pos (by simpa using hp)]
            rw [Bool.and_eq_true]
            refine ⟨by simpa using hind.1, ?_⟩
            rw [Bool.or_eq_true]
            rcases hind.2 with h | h
            · exact Or.inl (by simpa using h)
            · exact Or.inr (by simpa using h)
          · rw [if_neg hp] at hind
            rw [if_neg (by simpa using hp)]
            simpa using hind
        · rw [List.all_eq_true]
          intro c hc
          have := hch c hc
          simp only [Bool.and_eq_true, Bool.not_eq_true', beq_eq_false_iff_ne,
            ne_eq, Bool.or_eq_true]
          refine ⟨this.1, ?_⟩
          by_cases hca : c.nType = .catchAll
          · exact Or.inr (by simpa using this.2 hca)
          · exact Or.inl hca
    · rw [List.all_eq_true]
      intro c hc
      have := hall c hc
      simp only [Bool.and_eq_true, Bool.not_eq_true', beq_eq_false_iff_ne,
        ne_eq, Bool.or_eq_true]
      refine ⟨this.1, ?_⟩
      by_cases hpe : c.path = []
      · exact Or.inr (by simpa using this.2 hpe)
      · exact Or.inl (by simpa using hpe)

theorem contentB_iff (n : Node) : contentB n = true ↔
    ((n.nType = .static ∨ n.nType = .root) → noSigil n.path = true) ∧
    (n.nType = .param → n.wildChild = false ∧
      ∃ name, n.path = ':' :: name ∧ wildNameOK name = true) ∧
    (n.nType = .catchAll → (n.wildChild = true ∧ n.path = []) ∨
      (n.wildChild = false ∧ n.handlers.isSome = true ∧
        ∃ name, n.path = '/' :: '*' :: name ∧ wildNameOK name = true)) := by
  rw [contentB]
  cases htn : n.nType with
  | static => simp
  | root => simp
  | param =>
    simp only [Bool.and_eq_true, Bool.not_eq_true']
    constructor
    · rintro ⟨hw, hm⟩
      obtain ⟨name, heq, hwn⟩ := param_path_form n.path hm
      exact ⟨by simp, fun _ => ⟨by simpa using hw, name, heq, hwn⟩, by simp⟩
    · rintro ⟨-, hp, -⟩
      obtain ⟨hw, name, heq, hwn⟩ := hp trivial
      refine ⟨by simpa using hw, ?_⟩
      rw [heq]
      exact hwn
  | catchAll =>
    simp only [Bool.or_eq_true, Bool.and_eq_true]
    constructor
    · rintro (⟨hw, hpe⟩ | ⟨⟨hw, hs⟩, hm⟩)
      · exact ⟨by simp, by simp, fun _ => Or.inl ⟨hw, by simpa using hpe⟩⟩
      · obtain ⟨name, heq, hwn⟩ := catchAll_path_form n.path hm
        exact ⟨by simp, by simp,
          fun _ => Or.inr ⟨by simpa using hw, hs, name, heq, hwn⟩⟩
    · rintro ⟨-, -, hc⟩
      rcases hc trivial with ⟨hw, hpe⟩ | ⟨hw, hs, name, heq, hwn⟩
      · exact Or.inl ⟨hw, by simpa using hpe⟩
      · refine Or.inr ⟨⟨by simpa using hw, hs⟩, ?_⟩
        rw [heq]
        exact hwn

theorem not_mem_of_findIdx?_none (l : Str) (c : Char)
    (h : List.findIdx? (fun x => x == c) l 0 = none) : c ∉ l := by
  intro hc
  have := findIdx?_none l _ 0 h c hc
  simp at this

theorem pcOK_vacuous (n : Node) (ht : n.nType ≠ .param) : pcOK n = true := by
  rw [pcOK]
  cases hb : (n.nType == NType.param) with
  | false => rfl
  | true => exact absurd (by simpa using hb) ht

theorem insertChild_pc :
    ∀ (np : Nat) (path full : Str) (h : HandlersChain) (n n' : Node),
      Node.insertChild np path full h n = (n', none) →
      n.children = [] →
      (n.nType = .static ∨ n.nType = .root) →
      nodeAll pcOK n' = true ∧
      (n.path = [] → n'.path = [] ∨ n'.path.headD ' ' = path.headD ' ') := by
  intro np
  induction np with
  | zero =>
    intro path full h n n' heq hcs htype
    rw [Node.insertChild] at heq
    obtain ⟨a, ix, cs, hh, p0, t, m, w0, f⟩ := n
    simp only [Node.children_mk, Node.nType_mk, Node.path_mk] at hcs htype ⊢
    subst hcs
    simp only [Node.withPath_mk, Node.withHandlers_mk, Node.withFullPath_mk,
      Prod.mk.injEq] at heq
    obtain ⟨hn', -⟩ := heq
    subst hn'
    constructor
    · rw [nodeAll_unfold]
      simp only [Node.children_mk, nodeListAll_nil, Bool.and_true]
      exact pcOK_vacuous _ (by
        simp only [Node.nType_mk]
        rcases htype with ht | ht <;> rw [ht] <;> simp)
    · intro _
      right
      simp
  | succ numP ih =>
    intro path full h n n' heq hcs htype
    rw [Node.insertChild] at heq
    cases hfw : findWildcard path with
    | none =>
      rw [hfw] at heq
      obtain ⟨a, ix, cs, hh, p0, t, m, w0, f⟩ := n
      simp only [Node.children_mk, Node.nType_mk, Node.path_mk] at hcs htype ⊢
      subst hcs
      simp only [Node.withPath_mk, Node.withHandlers_mk, Node.withFullPath_mk,
        Prod.mk.injEq] at heq
      obtain ⟨hn', -⟩ := heq
      subst hn'
      constructor
      · rw [nodeAll_unfold]
        simp only [Node.children_mk, nodeListAll_nil, Bool.and_true]
        exact pcOK_vacuous _ (by
          simp only [Node.nType_mk]
          rcases htype with ht | ht <;> rw [ht] <;> simp)
      · intro _
        right
        simp
    | some r =>
      obtain ⟨wseg, iw, valid⟩ := r
      rw [hfw] at heq
      obtain ⟨s, body, rest, hweq, hsg, hdec, hplen, hpre, hball, hrest, hvv⟩ :=
        findWildcard_spec path wseg iw valid hfw
      simp only [hfw] at heq
      subst hweq
      by_cases hval : valid = true
      swap
      · rw [if_pos hval] at heq
        exact (err_arm heq).elim
      rw [if_neg (not_not_intro hval)] at heq
      by_cases hw2 : (s :: body).length < 2
      · rw [if_pos hw2] at heq
        exact (err_arm heq).elim
      rw [if_neg hw2] at heq
      by_cases hce : n.children.isEmpty = true
      swap
      · rw [if_pos hce] at heq
        exact (err_arm heq).elim
      rw [if_neg (not_not_intro hce)] at heq
      obtain ⟨a, ix, cs, hh, p0, t, m, w0, f⟩ := n
      simp only [Node.children_mk, Node.nType_mk, Node.path_mk] at hcs htype ⊢
      subst hcs
      have hdropiw : List.drop iw path = (s :: body) ++ rest := by
        have hdl := List.drop_left (path.take iw) ((s :: body) ++ rest)
        rw [hplen, ← List.append_assoc, hdec] at hdl
        exact hdl
      have hdropif : (if iw > 0 then List.drop iw path else path) =
          (s :: body) ++ rest := by
        by_cases hiw : iw > 0
        · rw [if_pos hiw]
          exact hdropiw
        · rw [if_neg hiw]
          have h0 : iw = 0 := by omega
          subst h0
          rw [← List.drop_zero path] at hdropiw
          exact hdropiw
      have htvac : ∀ (A I : Str) (CS : List Node) (HH : Option HandlersChain)
          (P M : Nat) (W : Bool) (F : Str),
          pcOK (Node.mk A I CS HH P t M W F) = true := by
        intro A I CS HH P M W F
        exact pcOK_vacuous _ (by
          simp only [Node.nType_mk]
          rcases htype with ht | ht <;> rw [ht] <;> simp)
      rcases hsg with hcol | hstar
      · subst hcol
        rw [if_pos (show List.headD (':' :: body) ' ' = ':' from rfl)] at heq
        rw [hdropif] at heq
        by_cases hrne : rest = []
        · subst hrne
          rw [List.append_nil] at heq
          rw [if_neg (lt_irrefl _)] at heq
          by_cases hiw : iw > 0 <;>
            [rw [if_pos hiw] at heq; rw [if_neg hiw] at heq] <;>
          · simp only [Node.withPath_mk, Node.withWildChild_mk, Node.withChildren_mk,
              Node.withHandlers_mk, Prod.mk.injEq] at heq
            obtain ⟨hn', -⟩ := heq
            subst hn'
            constructor
            · rw [nodeAll_unfold]
              simp only [Node.children_mk, nodeListAll_cons, nodeListAll_nil,
                Bool.and_true, Bool.and_eq_true]
              refine ⟨htvac _ _ _ _ _ _ _ _, ?_⟩
              rw [nodeAll_unfold]
              simp only [Node.children_mk, nodeListAll_nil, Bool.and_true]
              rw [pcOK]
              simp
            · intro hae
              simp only [Node.path_mk]
              first
              | (right
                 rw [headD_take path iw ' ' (by omega)])
              | (left
                 exact hae)
        · rw [if_pos (by
            rw [List.length_append]
            have := List.length_pos.mpr hrne
            omega)] at heq
          rw [List.drop_left] at heq
          cases hgr : Node.insertChild numP rest full h
              (Node.mk [] [] [] none 1 .static numP false full) with
          | mk g' err =>
          rw [hgr] at heq
          have herr : err = none := by
            have := congrArg Prod.snd heq
            simpa using this
          subst herr
          have IH := ih rest full h (Node.mk [] [] [] none 1 .static numP false full)
            g' hgr rfl (Or.inl rfl)
          obtain ⟨IH1, IH2⟩ := IH
          have hgp : (List.isEmpty (Node.path g') ||
              (List.headD (Node.path g') ' ' == '/')) = true := by
            rcases IH2 rfl with hgpe | hgph
            · simp [hgpe]
            · rcases hrest with hre | hrh
              · exact absurd hre hrne
              · rw [Bool.or_eq_true]
                right
                rw [beq_iff_eq, hgph]
                exact hrh
          by_cases hiw : iw > 0 <;>
            [rw [if_pos hiw] at heq; rw [if_neg hiw] at heq] <;>
          · simp only [Node.withPath_mk, Node.withWildChild_mk, Node.withChildren_mk,
              Node.withHandlers_mk, Prod.mk.injEq] at heq
            obtain ⟨hn', -⟩ := heq
            subst hn'
            constructor
            · rw [nodeAll_unfold]
              simp only [Node.children_mk, nodeListAll_cons, nodeListAll_nil,
                Bool.and_true, Bool.and_eq_true]
              refine ⟨htvac _ _ _ _ _ _ _ _, ?_⟩
              rw [nodeAll_unfold]
              simp only [Node.children_mk, nodeListAll_cons, nodeListAll_nil,
                Bool.and_true, Bool.and_eq_true]
              refine ⟨?_, IH1⟩
              rw [pcOK]
              simp only [Node.nType_mk, Node.children_mk, List.all_cons,
                List.all_nil, Bool.and_true, Node.path_mk]
              rw [Bool.or_eq_true]
              right
              exact hgp
            · intro hae
              simp only [Node.path_mk]
              first
              | (right
                 rw [headD_take path iw ' ' (by omega)])
              | (left
                 exact hae)
      · subst hstar
        rw [if_neg (show ¬List.headD ('*' :: body) ' ' = ':' by simp)] at heq
        simp only [Node.path_mk, Node.maxParams_mk] at heq
        by_cases hc1 : iw + List.length ('*' :: body) ≠ List.length path ∨
            numP + 1 > 1
        · rw [if_pos hc1] at heq
          exact (err_arm heq).elim
        rw [if_neg hc1] at heq
        by_cases hc2 : a ≠ [] ∧ List.getLastD a ' ' = '/'
        · rw [if_pos hc2] at heq
          exact (err_arm heq).elim
        rw [if_neg hc2] at heq
        by_cases hc3 : iw = 0
        · rw [if_pos hc3] at heq
          exact (err_arm heq).elim
        rw [if_neg hc3] at heq
        by_cases hc4 : List.getD path (iw - 1) ' ' ≠ '/'
        · rw [if_pos hc4] at heq
          exact (err_arm heq).elim
        rw [if_neg hc4] at heq
        simp only [Node.withPath_mk, Node.withMaxParams_mk, Node.withChildren_mk,
          Node.withIndices_mk, Prod.mk.injEq] at heq
        obtain ⟨hn', -⟩ := heq
        subst hn'
        constructor
        · rw [nodeAll_unfold]
          simp only [Node.children_mk, nodeListAll_cons, nodeListAll_nil,
            Bool.and_true, Bool.and_eq_true]
          refine ⟨htvac _ _ _ _ _ _ _ _, ?_⟩
          rw [nodeAll_unfold]
          simp only [Node.children_mk, nodeListAll_cons, nodeListAll_nil,
            Bool.and_true, Bool.and_eq_true]
          refine ⟨by rw [pcOK]; simp, ?_⟩
          rw [nodeAll_unfold]
          simp only [Node.children_mk, nodeListAll_nil, Bool.and_true]
          rw [pcOK]
          simp
        · intro hae
          simp only [Node.path_mk]
          by_cases hiw2 : 1 ≤ iw - 1
          · right
            rw [headD_take path (iw - 1) ' ' hiw2]
          · left
            have h1 : iw = 1 := by omega
            subst h1
            simp

theorem getD_congr_d (l : List α) (i : Nat) (d1 d2 : α) (h : i < l.length) :
    l.getD i d1 = l.getD i d2 := by
  rw [getD_eq_getElem l i d1 h, getD_eq_getElem l i d2 h]

theorem splitEdge_mk (a ix : Str) (cs : List Node) (hh : Option HandlersChain)
    (p0 : Nat) (t : NType) (m : Nat) (w0 : Bool) (f path fullPath : Str)
    (i pIdx : Nat) :
    splitEdge (Node.mk a ix cs hh p0 t m w0 f) i path fullPath pIdx =
      Node.mk (path.take i) [a.getD i ' ']
        [Node.mk (a.drop i) ix cs hh (dec32 p0) .static
          (cs.foldl (fun acc c => max acc c.maxParams) 0) w0 f]
        none p0 t m false (fullPath.take (pIdx + i)) := rfl

theorem selfW_zero (n : Node) (ht : n.nType = .static ∨ n.nType = .root) :
    selfW n = 0 := by
  rw [selfW, if_neg]
  rintro ⟨hc, -⟩
  rcases ht with ht | ht <;> rw [ht] at hc <;> simpa using hc

theorem splitEdge_facts (a ix : Str) (cs : List Node) (hh : Option HandlersChain)
    (p0 : Nat) (t : NType) (m : Nat) (w0 : Bool) (f path fullPath : Str)
    (i pIdx : Nat)
    (hwf : nodeAll wfB (Node.mk a ix cs hh p0 t m w0 f) = true)
    (hmpc : nodeListAll mpOK cs = true)
    (ht : t = .static ∨ t = .root)
    (hi : i < a.length)
    (htk : path.take i = a.take i) :
    nodeAll wfB (splitEdge (Node.mk a ix cs hh p0 t m w0 f) i path fullPath pIdx)
        = true ∧
    nodeListAll mpOK
        (splitEdge (Node.mk a ix cs hh p0 t m w0 f) i path fullPath pIdx).children
        = true ∧
    capCount (splitEdge (Node.mk a ix cs hh p0 t m w0 f) i path fullPath pIdx) =
      capCount (Node.mk a ix cs hh p0 t m w0 f) ∧
    (∀ acc : Str,
      collectRoutes acc (splitEdge (Node.mk a ix cs hh p0 t m w0 f) i path fullPath pIdx)
        = collectRoutes acc (Node.mk a ix cs hh p0 t m w0 f)) := by
  rw [splitEdge_mk]
  rw [nodeAll_unfold, Bool.and_eq_true] at hwf
  obtain ⟨hwfn, hwfcs⟩ := hwf
  simp only [Node.children_mk] at hwfcs
  rw [wfB, Bool.and_eq_true] at hwfn
  obtain ⟨hsh, hct⟩ := hwfn
  have hnsa : noSigil a = true := by
    rw [contentB_iff] at hct
    exact hct.1 (by rcases ht with ht | ht <;> rw [ht] <;> simp)
  have hane : a.drop i ≠ [] := by
    intro hc
    have := congrArg List.length hc
    simp at this
    omega
  rw [shapeB_iff] at hsh
  simp only [Node.indices_mk, Node.wildChild_mk, Node.children_mk, Node.nType_mk,
    Node.path_mk, Node.handlers_mk] at hsh
  obtain ⟨hnd, hmid, hcond⟩ := hsh
  have hchild_shape : shapeB (Node.mk (a.drop i) ix cs hh (dec32 p0) .static
      (cs.foldl (fun acc c => max acc c.maxParams) 0) w0 f) = true := by
    rw [shapeB_iff]
    simp only [Node.indices_mk, Node.wildChild_mk, Node.children_mk, Node.nType_mk,
      Node.path_mk, Node.handlers_mk]
    refine ⟨hnd, ?_, hcond⟩
    by_cases hw : w0 = true
    · rw [if_pos hw]
      rw [if_pos hw] at hmid
      exact hmid
    · rw [if_neg hw]
      rw [if_neg hw] at hmid
      refine ⟨?_, hmid.2⟩
      rw [if_neg (by simp)]
      rcases ht with ht | ht <;> rw [ht] at hmid <;>
        exact (by simpa using hmid.1)
  have hchild_content : contentB (Node.mk (a.drop i) ix cs hh (dec32 p0) .static
      (cs.foldl (fun acc c => max acc c.maxParams) 0) w0 f) = true := by
    rw [contentB_iff]
    refine ⟨fun _ => ?_, by simp, by simp⟩
    simp only [Node.path_mk]
    exact noSigil_drop a i hnsa
  have hcapchild : capCount (Node.mk (a.drop i) ix cs hh (dec32 p0) .static
      (cs.foldl (fun acc c => max acc c.maxParams) 0) w0 f) = capCountList cs := by
    rw [capCount_unfold]
    simp only [Node.children_mk]
    rw [selfW]
    rw [if_neg (by simp)]
    omega
  have hmpchild : mpOK (Node.mk (a.drop i) ix cs hh (dec32 p0) .static
      (cs.foldl (fun acc c => max acc c.maxParams) 0) w0 f) = true := by
    rw [mpOK, beq_iff_eq, hcapchild]
    simp only [Node.maxParams_mk]
    rw [mpfold cs hmpc 0]
    omega
  have hself : selfW (Node.mk a ix cs hh p0 t m w0 f) = 0 := by
    rw [selfW]
    rw [if_neg (by rcases ht with ht | ht <;> rw [ht] <;> simp)]
  refine ⟨?_, ?_, ?_, ?_⟩
  · rw [nodeAll_unfold]
    simp only [Node.children_mk, nodeListAll_cons, nodeListAll_nil, Bool.and_true,
      Bool.and_eq_true]
    refine ⟨?_, ?_⟩
    · rw [wfB, Bool.and_eq_true]
      constructor
      · rw [shapeB_iff]
        simp only [Node.indices_mk, Node.wildChild_mk, Node.children_mk,
          Node.nType_mk, Node.path_mk, Node.handlers_mk]
        refine ⟨by simp, ?_, ?_⟩
        · rw [if_neg (by simp)]
          constructor
          · rw [if_neg (by rcases ht with ht | ht <;> rw [ht] <;> simp)]
            simp only [List.map_cons, List.map_nil, childIndexChar, Node.path_mk]
            rw [headD_drop a i '/' hi]
            rw [getD_congr_d a i ' ' '/' hi]
          · intro c hc
            simp only [List.mem_singleton] at hc
            subst hc
            simp
        · intro c hc
          simp only [List.mem_singleton] at hc
          subst hc
          simp only [Node.nType_mk, Node.path_mk]
          exact ⟨by simp, fun hp => absurd hp hane⟩
      · rw [contentB_iff]
        refine ⟨fun _ => ?_, ?_, ?_⟩
        · simp only [Node.path_mk]
          rw [htk]
          exact noSigil_take a i hnsa
        · intro hp
          exact absurd hp (by rcases ht with ht | ht <;> rw [ht] <;> simp)
        · intro hp
          exact absurd hp (by rcases ht with ht | ht <;> rw [ht] <;> simp)
    · rw [nodeAll_unfold, Bool.and_eq_true]
      refine ⟨?_, by simpa using hwfcs⟩
      rw [wfB, Bool.and_eq_true]
      exact ⟨hchild_shape, hchild_content⟩
  · simp only [Node.children_mk, nodeListAll_cons, nodeListAll_nil, Bool.and_true]
    rw [nodeAll_unfold, Bool.and_eq_true]
    exact ⟨hmpchild, by simpa using hmpc⟩
  · rw [capCount_unfold, capCount_unfold]
    simp only [Node.children_mk, capCountList_cons, capCountList_nil, hcapchild]
    rw [selfW_zero _ (by simp only [Node.nType_mk]; exact ht)]
    rw [selfW_zero _ (by simp only [Node.nType_mk]; exact ht)]
    omega
  · intro acc
    simp only [collectRoutes, collectRoutesList]
    rw [htk]
    have hacc : (acc ++ a.take i) ++ a.drop i = acc ++ a := by
      rw [List.append_assoc, List.take_append_drop]
    cases hh with
    | none => simp [hacc, List.append_assoc]
    | some hs => simp [hacc, List.append_assoc]

theorem insertChild_conflict (numP : Nat) (path full : Str) (h : HandlersChain)
    (n : Node) (w : Str) (i : Nat) (v : Bool)
    (hfw : findWildcard path = some (w, i, v)) (hcne : n.children ≠ []) :
    (Node.insertChild (numP + 1) path full h n).2.isSome = true := by
  rw [Node.insertChild]
  simp only [hfw]
  by_cases hv : v = true
  swap
  · rw [if_pos hv]
    rfl
  rw [if_neg (not_not_intro hv)]
  by_cases hw2 : w.length < 2
  · rw [if_pos hw2]
    rfl
  rw [if_neg hw2]
  rw [if_pos (by
    intro hce
    exact hcne (by simpa using hce))]
  rfl

theorem insertChild_success_children (numP : Nat) (path full : Str)
    (h : HandlersChain) (n : Node) (w : Str) (i : Nat) (v : Bool)
    (hfw : findWildcard path = some (w, i, v))
    (hsucc : (Node.insertChild (numP + 1) path full h n).2 = none) :
    n.children = [] := by
  by_contra hne
  have hconf := insertChild_conflict numP path full h n w i v hfw hne
  rw [hsucc] at hconf
  simp at hconf

theorem nodeAll_wfB_mp (a ix : Str) (cs : List Node) (hh : Option HandlersChain)
    (p0 : Nat) (t : NType) (m m2 : Nat) (w0 : Bool) (f : Str) :
    nodeAll wfB (Node.mk a ix cs hh p0 t m2 w0 f) =
      nodeAll wfB (Node.mk a ix cs hh p0 t m w0 f) := by
  rw [nodeAll_unfold, nodeAll_unfold]
  rfl

theorem nodeAll_pcOK_mp (a ix : Str) (cs : List Node) (hh : Option HandlersChain)
    (p0 : Nat) (t : NType) (m m2 : Nat) (w0 : Bool) (f : Str) :
    nodeAll pcOK (Node.mk a ix cs hh p0 t m2 w0 f) =
      nodeAll pcOK (Node.mk a ix cs hh p0 t m w0 f) := by
  rw [nodeAll_unfold, nodeAll_unfold]
  rfl

theorem selfW_le_capCount (n : Node) : selfW n ≤ capCount n := by
  rw [capCount_unfold]
  omega

theorem nodeAll_wfB_pm (a ix : Str) (cs : List Node) (hh : Option HandlersChain)
    (p0 p2 : Nat) (t : NType) (m m2 : Nat) (w0 : Bool) (f : Str) :
    nodeAll wfB (Node.mk a ix cs hh p2 t m2 w0 f) =
      nodeAll wfB (Node.mk a ix cs hh p0 t m w0 f) := by
  rw [nodeAll_unfold, nodeAll_unfold]
  rfl

theorem nodeAll_pcOK_pm (a ix : Str) (cs : List Node) (hh : Option HandlersChain)
    (p0 p2 : Nat) (t : NType) (m m2 : Nat) (w0 : Bool) (f : Str) :
    nodeAll pcOK (Node.mk a ix cs hh p2 t m2 w0 f) =
      nodeAll pcOK (Node.mk a ix cs hh p0 t m w0 f) := by
  rw [nodeAll_unfold, nodeAll_unfold]
  rfl

theorem getD_append_length (l : List α) (x d : α) :
    (l ++ [x]).getD l.length d = x := by
  induction l with
  | nil => rfl
  | cons a as ih => simpa using ih

theorem set_append_length (l : List α) (x y : α) :
    (l ++ [x]).set l.length y = l ++ [y] := by
  induction l with
  | nil => rfl
  | cons a as ih => simpa using ih

theorem perm_app_one (L : List α) (x : α) : List.Perm (L ++ [x]) (x :: L) := by
  induction L with
  | nil => simp
  | cons y ys ih =>
    rw [List.cons_append]
    exact (ih.cons y).trans (List.Perm.swap x y ys)

theorem addRouteW_wf :
    ∀ (fuel : Nat) (n : Node) (numParams : Nat) (path fullPath : Str)
      (pIdx : Nat) (h : HandlersChain) (n' : Node),
      Node.addRouteW fuel n numParams path fullPath pIdx h = some (n', none) →
      path ≠ [] →
      nodeAll wfB n = true →
      nodeAll pcOK n = true →
      nodeListAll mpOK n.children = true →
      rawParamCount path = numParams + selfW n →
      numParams + selfW n < 255 →
      ((capCount n ≤ n.maxParams ∧
          max n.maxParams numParams = max (capCount n) (numParams + selfW n)) ∨
        (n.nType = .root ∧ n.maxParams ≤ capCount n)) →
      ((n.nType = .param ∨ n.nType = .catchAll) → entryGuard path n) →
      (n.path = [] → n.handlers = none) →
      nodeAll wfB n' = true ∧
      nodeAll pcOK n' = true ∧
      nodeListAll mpOK n'.children = true ∧
      n'.nType = n.nType ∧
      ((n.path ≠ [] → path.headD ' ' = n.path.headD ' ') →
        childIndexChar n' = childIndexChar n ∧ (n.path = [] ↔ n'.path = [])) ∧
      (n'.path = [] → n'.handlers = none) ∧
      ((n.nType = .param ∨ n.nType = .catchAll) → n'.path = n.path) ∧
      capCount n' = max (capCount n) (numParams + selfW n) ∧
      (n'.maxParams = capCount n' ∨ (n.nType = .root ∧ n'.maxParams ≤ capCount n')) ∧
      (∀ acc : Str,
        List.Perm (collectRoutes acc n') ((acc ++ path, h) :: collectRoutes acc n)) := by
  intro fuel
  induction fuel with
  | zero =>
    intro n numParams path fullPath pIdx h n' heq
    rw [Node.addRouteW] at heq
    cases heq
  | succ fuel ih =>
    intro n numParams path fullPath pIdx h n' heq hpne hwf hpc hmpc hraw hlt hmp
      hguard hEmpty
    rw [Node.addRouteW] at heq
    obtain ⟨a, ix, cs, hh, p0, t, m, w0, f⟩ := n
    have hupd : (if numParams > (Node.mk a ix cs hh p0 t m w0 f).maxParams then
        (Node.mk a ix cs hh p0 t m w0 f).withMaxParams numParams
        else Node.mk a ix cs hh p0 t m w0 f) =
        Node.mk a ix cs hh p0 t (max m numParams) w0 f := by
      by_cases hc : numParams > m
      · rw [if_pos (by simpa using hc)]
        simp only [Node.withMaxParams_mk]
        congr 1
        omega
      · rw [if_neg (by simpa using hc)]
        congr 1
        omega
    rw [hupd] at heq
    simp only [Node.path_mk, Node.maxParams_mk, Node.children_mk, Node.nType_mk,
      Node.wildChild_mk, Node.indices_mk, Node.handlers_mk] at heq
    rw [nodeAll_unfold, Bool.and_eq_true] at hwf hpc
    obtain ⟨hwfn, hwfc⟩ := hwf
    obtain ⟨hpcn, hpcc⟩ := hpc
    simp only [Node.children_mk] at hwfc hpcc hmpc
    simp only [Node.maxParams_mk, Node.nType_mk, Node.path_mk,
      Node.handlers_mk] at hmp hguard hEmpty
    have htk : path.take (commonPrefixLen path a) =
        a.take (commonPrefixLen path a) := commonPrefixLen_take path a
    have hcle : commonPrefixLen path a ≤ path.length := commonPrefixLen_le_left path a
    have hcra : commonPrefixLen path a ≤ a.length := commonPrefixLen_le_right path a
    by_cases hsplit : commonPrefixLen path a < a.length
    · -- the node is split
      have ht : t = .static ∨ t = .root := by
        cases htc : t with
        | static => exact Or.inl rfl
        | root => exact Or.inr rfl
        | param =>
          exfalso
          have hg := hguard (by rw [htc]; exact Or.inl (by simp))
          rw [entryGuard] at hg
          have := commonPrefixLen_of_prefix path a (by simpa using hg.1)
          omega
        | catchAll =>
          exfalso
          have hg := hguard (by rw [htc]; exact Or.inr (by simp))
          rw [entryGuard] at hg
          have := commonPrefixLen_of_prefix path a (by simpa using hg.1)
          omega
      have hself : selfW (Node.mk a ix cs hh p0 t m w0 f) = 0 :=
        selfW_zero _ (by simp only [Node.nType_mk]; exact ht)
      rw [hself] at hraw hlt hmp
      rw [if_pos hsplit] at heq
      rw [splitEdge_mk] at heq
      obtain ⟨hS1, hS2, hS3, hS4⟩ := splitEdge_facts a ix cs hh p0 t (max m numParams)
        w0 f path fullPath (commonPrefixLen path a) pIdx
        (by rw [nodeAll_wfB_mp a ix cs hh p0 t m, nodeAll_unfold, Bool.and_eq_true]
            exact ⟨hwfn, by simpa using hwfc⟩)
        hmpc ht hsplit htk
      rw [splitEdge_mk] at hS1 hS2 hS3 hS4
      by_cases hlen : commonPrefixLen path a < path.length
      · -- split, then continue below
        rw [if_pos hlen] at heq
        simp only [Node.wildChild_mk, Node.nType_mk, Node.children_mk, Node.path_mk,
          Node.indices_mk, Node.handlers_mk] at heq
        rw [if_neg (by simp)] at heq
        rw [if_neg (by
          rintro ⟨h1, -⟩
          rcases ht with ht2 | ht2 <;> rw [ht2] at h1 <;> simp at h1)] at heq
        have hcne : (a.getD (commonPrefixLen path a) ' ' ==
            List.headD (List.drop (commonPrefixLen path a) path) ' ') = false := by
          rw [beq_eq_false_iff_ne]
          rw [headD_drop path (commonPrefixLen path a) ' ' hlen]
          exact (commonPrefixLen_neq path a hlen hsplit).symm
        simp only [List.findIdx?_cons, hcne, Bool.false_eq_true, if_false,
          List.findIdx?_nil] at heq
        by_cases hcsig : List.headD (List.drop (commonPrefixLen path a) path) ' ' ≠ ':' ∧
            List.headD (List.drop (commonPrefixLen path a) path) ' ' ≠ '*'
        · -- fresh child below the split node
          rw [if_pos hcsig] at heq
          set DN := Node.mk (a.drop (commonPrefixLen path a)) ix cs hh (dec32 p0)
            NType.static (cs.foldl (fun acc c => max acc c.maxParams) 0) w0 f
            with hDN
          have hd2 : List.drop (commonPrefixLen path a) path ≠ [] := by
            intro hcon
            have hx := congrArg List.length hcon
            simp at hx
            omega
          have hane : a ≠ [] := by
            intro hc
            rw [hc] at hsplit
            simp at hsplit
          have hane2 : a.drop (commonPrefixLen path a) ≠ [] := by
            intro hc
            have hx := congrArg List.length hc
            simp at hx
            omega
          have hgcne : a.getD (commonPrefixLen path a) ' ' ≠ List.headD (List.drop (commonPrefixLen path a) path) ' ' := by
            have hx := hcne
            rw [beq_eq_false_iff_ne] at hx
            exact hx
          have hwfn3 := hwfn
          rw [wfB, Bool.and_eq_true, contentB_iff] at hwfn3
          have hnsa : noSigil a = true := hwfn3.2.1 (by simpa using ht)
          have hraw2 : rawParamCount (List.drop (commonPrefixLen path a) path) = numParams := by
            have hts := rawParamCount_take_drop path (commonPrefixLen path a)
            have h0 : rawParamCount (path.take (commonPrefixLen path a)) = 0 := by
              rw [htk]
              rw [(noSigil_iff _).mp (noSigil_take a _ hnsa)]
            omega
          rw [nodeAll_unfold, Bool.and_eq_true] at hS1
          obtain ⟨hSw, hSc⟩ := hS1
          simp only [Node.children_mk, nodeListAll_cons, nodeListAll_nil,
            Bool.and_true] at hSc hS2
          rw [wfB, Bool.and_eq_true] at hSw
          have hpcD : nodeAll pcOK DN = true := by
            rw [nodeAll_unfold, Bool.and_eq_true]
            refine ⟨pcOK_vacuous _ (by rw [hDN]; simp), ?_⟩
            rw [hDN]
            simpa using hpcc
          rw [show List.length (([a.getD (commonPrefixLen path a) ' '] : Str) ++ [List.headD (List.drop (commonPrefixLen path a) path) ' ']) - 1 = 1 from by simp]
            at heq
          obtain ⟨k, hk, hicp⟩ := incrementChildPrio_spec ([DN] ++ [Node.mk [] [] [] none 0 NType.static numParams false fullPath])
            ([a.getD (commonPrefixLen path a) ' '] ++ [List.headD (List.drop (commonPrefixLen path a) path) ' ']) 1 (by simp) (by simp)
          rw [hicp] at heq
          have hgd1 : (([DN] ++ [Node.mk [] [] [] none 0 NType.static numParams false fullPath]).getD 1 emptyNode) = Node.mk [] [] [] none 0 NType.static numParams false fullPath :=
            getD_append_length [DN] _ emptyNode
          rw [hgd1] at heq
          simp only [Node.withPriority_mk, Node.priority_mk] at heq
          have hset1 : ([DN] ++ [Node.mk [] [] [] none 0 NType.static numParams false fullPath]).set 1 (Node.mk [] [] [] none (inc32 0) NType.static numParams false fullPath) = [DN] ++ [Node.mk [] [] [] none (inc32 0) NType.static numParams false fullPath] :=
            set_append_length [DN] _ _
          rw [hset1] at heq
          have hgd2 : (movL ([DN] ++ [Node.mk [] [] [] none (inc32 0) NType.static numParams false fullPath]) 1 k).getD k emptyNode = Node.mk [] [] [] none (inc32 0) NType.static numParams false fullPath := by
            rw [movL_getD_new _ _ _ _ hk (by simp)]
            rw [← getD_eq_getElem _ _ emptyNode (by simp)]
            exact getD_append_length _ _ _
          rw [hgd2] at heq
          cases hins : Node.insertChild numParams (List.drop (commonPrefixLen path a) path) fullPath h (Node.mk [] [] [] none (inc32 0) NType.static numParams false fullPath) with
          | mk t1 e2 =>
          rw [hins] at heq
          simp only [Node.withChildren_mk, Node.withIndices_mk,
            Option.some.injEq, Prod.mk.injEq] at heq
          obtain ⟨hn', he⟩ := heq
          subst he
          have hsetX : ([DN] ++ [Node.mk [] [] [] none (inc32 0) NType.static numParams false fullPath]).set 1 t1 = [DN] ++ [t1] :=
            set_append_length [DN] _ _
          have hset2 : (movL ([DN] ++ [Node.mk [] [] [] none (inc32 0) NType.static numParams false fullPath]) 1 k).set k t1 =
              movL ([DN] ++ [t1]) 1 k := by
            rw [movL_set_eq _ _ _ _ hk (by simp)]
            rw [hsetX]
          rw [hset2] at hn'
          subst hn'
          obtain ⟨I1, I2, I3, I4, I5, I6, I7, I8, I9⟩ :=
            insertChild_wf numParams (List.drop (commonPrefixLen path a) path) fullPath h _ t1 hins rfl
              (Or.inl rfl) hraw2 (by omega) rfl rfl rfl (fun _ => rfl)
              (fun _ => rfl) (Or.inl rfl)
          obtain ⟨P1, P2⟩ := insertChild_pc numParams (List.drop (commonPrefixLen path a) path) fullPath h _ t1
            hins rfl (Or.inl rfl)
          have hty1 : Node.nType t1 = NType.static := by simpa using I2
          have hciT : childIndexChar t1 = List.headD (List.drop (commonPrefixLen path a) path) ' ' := by
            have hx := I3 hd2 (by
              rintro (hy | hy)
              · exact hcsig.1 hy
              · exact hcsig.2 hy)
            rw [hx]
            cases hdd : List.drop (commonPrefixLen path a) path with
            | nil => exact absurd hdd hd2
            | cons e2c es2 => simp
          have hciD : childIndexChar DN = a.getD (commonPrefixLen path a) ' ' := by
            rw [hDN, childIndexChar]
            simp only [Node.path_mk]
            rw [headD_drop a _ '/' hsplit]
            exact getD_congr_d a _ '/' ' ' hsplit
          have hpermC : List.Perm (movL ([DN] ++ [t1]) 1 k) ([DN] ++ [t1]) :=
            movL_perm _ _ _ hk (by simp)
          have hpermI : List.Perm (movL ([a.getD (commonPrefixLen path a) ' '] ++ [List.headD (List.drop (commonPrefixLen path a) path) ' ']) 1 k)
              ([a.getD (commonPrefixLen path a) ' '] ++ [List.headD (List.drop (commonPrefixLen path a) path) ' ']) := movL_perm _ _ _ hk (by simp)
          have hcapD : capCount (Node.mk a ix cs hh p0 t m w0 f) = capCount DN := by
            rw [show capCount (Node.mk a ix cs hh p0 t m w0 f) =
              capCount (Node.mk a ix cs hh p0 t (max m numParams) w0 f) from rfl]
            rw [← hS3, capCount_unfold]
            simp only [Node.children_mk, capCountList_cons, capCountList_nil,
              Nat.max_zero]
            rw [selfW_zero _ (by simp only [Node.nType_mk]; exact ht)]
            omega
          have hK8 : capCount (Node.mk (List.take (commonPrefixLen path a) path)
              (movL ([a.getD (commonPrefixLen path a) ' '] ++ [List.headD (List.drop (commonPrefixLen path a) path) ' ']) 1 k) (movL ([DN] ++ [t1]) 1 k) none p0 t
              (max m numParams) false
              (fullPath.take (pIdx + commonPrefixLen path a))) =
              max (capCount (Node.mk a ix cs hh p0 t m w0 f)) (numParams + 0) := by
            rw [capCount_unfold]
            simp only [Node.children_mk]
            rw [capCountList_perm hpermC, capCountList_append]
            simp only [capCountList_cons, capCountList_nil, Nat.max_zero]
            rw [selfW_zero _ (by simp only [Node.nType_mk]; exact ht)]
            rw [I6]
            simp only [Node.children_mk, capCountList_nil, Nat.add_zero]
            rw [hcapD]
            rcases Nat.le_total (capCount DN) numParams with hcc | hcc
            · rw [Nat.max_eq_right hcc]
              omega
            · rw [Nat.max_eq_left hcc]
              omega
          refine ⟨?_, ?_, ?_, by simp, ?_, ?_, ?_, ?_, ?_, ?_⟩
          · rw [nodeAll_unfold, Bool.and_eq_true]
            constructor
            · rw [wfB, Bool.and_eq_true]
              constructor
              · rw [shapeB_iff]
                simp only [Node.indices_mk, Node.wildChild_mk,
                  Node.children_mk, Node.nType_mk]
                refine ⟨(hpermI.nodup_iff).mpr
                  (List.nodup_cons.mpr ⟨fun hm =>
                    hgcne (List.mem_singleton.mp hm),
                    List.nodup_singleton _⟩), ?_, ?_⟩
                · rw [if_neg (by simp)]
                  constructor
                  · rw [if_neg (by
                      rcases ht with ht2 | ht2 <;> rw [ht2] <;> simp)]
                    rw [show List.map childIndexChar (movL ([DN] ++ [t1]) 1 k) =
                      movL (List.map childIndexChar ([DN] ++ [t1])) 1 k from
                      movL_map _ _ _ _]
                    simp only [List.map_append, List.map_cons, List.map_nil]
                    rw [hciD, hciT]
                  · intro c2 hc2
                    rcases List.mem_append.mp (hpermC.subset hc2) with hm | hm
                    · simp only [List.mem_singleton] at hm
                      rw [hm, hDN]
                      simp
                    · simp only [List.mem_singleton] at hm
                      rw [hm]
                      refine ⟨by rw [hty1]; simp, ?_⟩
                      intro hcat
                      rw [hty1] at hcat
                      simp at hcat
                · intro c2 hc2
                  rcases List.mem_append.mp (hpermC.subset hc2) with hm | hm
                  · simp only [List.mem_singleton] at hm
                    rw [hm, hDN]
                    refine ⟨by simp, ?_⟩
                    intro hc
                    simp only [Node.path_mk] at hc
                    exact absurd hc hane2
                  · simp only [List.mem_singleton] at hm
                    rw [hm]
                    refine ⟨by rw [hty1]; simp, I5 hd2⟩
              · rw [contentB_fields (List.take (commonPrefixLen path a) path)
                  [a.getD (commonPrefixLen path a) ' '] [DN] none p0 t (max m numParams) false
                  (fullPath.take (pIdx + commonPrefixLen path a))]
                exact hSw.2
            · simp only [Node.children_mk]
              apply nodeListAll_perm hpermC.symm
              rw [nodeListAll_append, Bool.and_eq_true]
              refine ⟨by simpa using hSc, ?_⟩
              simp only [nodeListAll_cons, nodeListAll_nil, Bool.and_true]
              exact I1
          · rw [nodeAll_unfold, Bool.and_eq_true]
            constructor
            · exact pcOK_vacuous _ (by
                simp only [Node.nType_mk]
                rcases ht with ht2 | ht2 <;> rw [ht2] <;> simp)
            · simp only [Node.children_mk]
              apply nodeListAll_perm hpermC.symm
              rw [nodeListAll_append, Bool.and_eq_true]
              refine ⟨by simpa using hpcD, ?_⟩
              simp only [nodeListAll_cons, nodeListAll_nil, Bool.and_true]
              exact P1
          · simp only [Node.children_mk]
            apply nodeListAll_perm hpermC.symm
            rw [nodeListAll_append, Bool.and_eq_true]
            refine ⟨by simpa using hS2, ?_⟩
            simp only [nodeListAll_cons, nodeListAll_nil, Bool.and_true]
            rw [nodeAll_unfold, Bool.and_eq_true]
            refine ⟨?_, I7⟩
            rw [mpOK, beq_iff_eq, I6]
            simp only [Node.children_mk, capCountList_nil, Nat.add_zero]
            rcases I8 with h8 | ⟨h81, h82⟩
            · rw [h8]
              rfl
            · rw [h82]
              simp only [Node.maxParams_mk]
              rw [h81]
              rfl
          · intro hpre2
            have hh2 := hpre2 hane
            have hcp1 : 1 ≤ commonPrefixLen path a := by
              cases path with
              | nil => exact absurd rfl hpne
              | cons pc pcs =>
                cases a with
                | nil => exact absurd rfl hane
                | cons ac acs =>
                  simp only [Node.path_mk, List.headD_cons] at hh2
                  rw [show commonPrefixLen (pc :: pcs) (ac :: acs) =
                    if pc = ac then commonPrefixLen pcs acs + 1 else 0 from rfl,
                    if_pos hh2]
                  omega
            constructor
            · simp only [childIndexChar, Node.path_mk]
              rw [headD_take path _ '/' hcp1]
              cases path with
              | nil => exact absurd rfl hpne
              | cons pc pcs =>
                cases a with
                | nil => exact absurd rfl hane
                | cons ac acs =>
                  simp only [List.headD_cons] at hh2 ⊢
                  exact hh2
            · constructor
              · intro hc
                exact absurd hc hane
              · intro hc
                simp only [Node.path_mk] at hc
                have hlp := List.length_pos.mpr hpne
                have hcl := congrArg List.length hc
                simp only [List.length_take, List.length_nil] at hcl
                omega
          · intro _
            rfl
          · intro hx
            exfalso
            rcases ht with ht2 | ht2 <;> rw [ht2] at hx <;>
              rcases hx with hx | hx <;> simp at hx
          · rw [hself]
            exact hK8
          · rcases hmp with ⟨h1, h2⟩ | ⟨h1, h2⟩
            · left
              simp only [Node.maxParams_mk]
              rw [hK8]
              exact h2
            · right
              refine ⟨h1, ?_⟩
              simp only [Node.maxParams_mk]
              rw [hK8]
              exact Nat.max_le.mpr ⟨le_trans h2 (Nat.le_max_left _ _),
                le_trans (Nat.le_add_right _ _) (Nat.le_max_right _ _)⟩
          · intro acc
            rw [show collectRoutes acc (Node.mk a ix cs hh p0 t m w0 f) =
              collectRoutes acc (Node.mk a ix cs hh p0 t (max m numParams) w0 f)
              from rfl]
            rw [← hS4 acc]
            have hstr2 : ((acc ++ List.take (commonPrefixLen path a) path) ++ List.drop (commonPrefixLen path a) path)
                = acc ++ path := by
              rw [List.append_assoc, List.take_append_drop]
            have h9 := I9 (acc ++ List.take (commonPrefixLen path a) path)
              (Or.inl ⟨rfl, rfl, rfl⟩)
            have hcu : collectRoutes (acc ++ List.take (commonPrefixLen path a) path)
                (Node.mk [] [] [] none (inc32 0) NType.static numParams false fullPath) = [] := rfl
            rw [hcu] at h9
            simp only [List.nil_append, Node.path_mk] at h9
            rw [hstr2] at h9
            have hcp := collectRoutesList_perm
              (acc ++ List.take (commonPrefixLen path a) path) hpermC
            have hceq : collectRoutesList
                (acc ++ List.take (commonPrefixLen path a) path) ([DN] ++ [t1]) =
                collectRoutes (acc ++ List.take (commonPrefixLen path a) path) DN
                  ++ [(acc ++ path, h)] := by
              rw [collectRoutesList_append]
              simp only [collectRoutesList, List.append_nil]
              rw [h9]
            rw [hceq] at hcp
            simp only [collectRoutes, collectRoutesList, List.nil_append,
              List.append_nil]
            exact hcp.trans (perm_app_one _ _)
        · -- wildcard right after a split point: insertChild rejects
          rw [if_neg hcsig] at heq
          push_neg at hcsig
          exfalso
          have hd2 : List.drop (commonPrefixLen path a) path ≠ [] := by
            intro hcon
            have := congrArg List.length hcon
            simp at this
            omega
          by_cases hcol : List.headD (List.drop (commonPrefixLen path a) path) ' ' = ':'
          · obtain ⟨w2, v2, hfw2⟩ := sigil_findWildcard _ hd2 (Or.inl hcol)
            have hnum : 1 ≤ numParams := by
              have hr2 : rawParamCount (List.drop (commonPrefixLen path a) path) =
                  numParams := by
                have := rawParamCount_take_drop path (commonPrefixLen path a)
                rw [htk] at this
                have hz : rawParamCount (a.take (commonPrefixLen path a)) = 0 := by
                  rw [← noSigil_iff]
                  refine noSigil_take a _ ?_
                  rw [wfB, Bool.and_eq_true, contentB_iff] at hwfn
                  exact hwfn.2.1 (by simpa using ht)
                omega
              rw [← hr2]
              cases hdd : List.drop (commonPrefixLen path a) path with
              | nil => exact absurd hdd hd2
              | cons c2 cs2 =>
                rw [rawParamCount_cons]
                rw [hdd] at hcol
                simp only [List.headD_cons] at hcol
                rw [if_pos (Or.inl hcol)]
                omega
            obtain ⟨k, hk⟩ : ∃ k, numParams = k + 1 := ⟨numParams - 1, by omega⟩
            rw [hk] at heq
            simp only [Option.some.injEq, Prod.mk.injEq] at heq
            have hcontra := insertChild_success_children k _ fullPath h _ w2 0 v2
              hfw2 heq.2
            simp at hcontra
          · have hstar2 : List.headD (List.drop (commonPrefixLen path a) path) ' '
                = '*' := hcsig hcol
            obtain ⟨w2, v2, hfw2⟩ := sigil_findWildcard _ hd2 (Or.inr hstar2)
            have hnum : 1 ≤ numParams := by
              have hr2 : rawParamCount (List.drop (commonPrefixLen path a) path) =
                  numParams := by
                have := rawParamCount_take_drop path (commonPrefixLen path a)
                rw [htk] at this
                have hz : rawParamCount (a.take (commonPrefixLen path a)) = 0 := by
                  rw [← noSigil_iff]
                  refine noSigil_take a _ ?_
                  rw [wfB, Bool.and_eq_true, contentB_iff] at hwfn
                  exact hwfn.2.1 (by simpa using ht)
                omega
              rw [← hr2]
              cases hdd : List.drop (commonPrefixLen path a) path with
              | nil => exact absurd hdd hd2
              | cons c2 cs2 =>
                rw [rawParamCount_cons]
                rw [hdd] at hstar2
                simp only [List.headD_cons] at hstar2
                rw [if_pos (Or.inr hstar2)]
                omega
            obtain ⟨k, hk⟩ : ∃ k, numParams = k + 1 := ⟨numParams - 1, by omega⟩
            rw [hk] at heq
            simp only [Option.some.injEq, Prod.mk.injEq] at heq
            have hcontra := insertChild_success_children k _ fullPath h _ w2 0 v2
              hfw2 heq.2
            simp at hcontra
      · -- split, terminal: attach the handlers to the split parent
        rw [if_neg hlen] at heq
        simp only [Node.handlers_mk, Option.isSome_none, Bool.false_eq_true,
          if_false, Node.withHandlers_mk, Option.some.injEq, Prod.mk.injEq] at heq
        obtain ⟨hn', -⟩ := heq
        subst hn'
        set D := Node.mk (a.drop (commonPrefixLen path a)) ix cs hh (dec32 p0)
          NType.static (cs.foldl (fun acc c => max acc c.maxParams) 0) w0 f with hD
        have hptake : path.take (commonPrefixLen path a) = path := by
          rw [show commonPrefixLen path a = path.length from by omega]
          exact List.take_length path
        have hwfn2 := hwfn
        rw [wfB, Bool.and_eq_true, contentB_iff] at hwfn2
        have hns : noSigil a = true := hwfn2.2.1 (by simpa using ht)
        have hnsp : noSigil path = true := by
          rw [← hptake, htk]
          exact noSigil_take a _ hns
        have hnum0 : numParams = 0 := by
          have := (noSigil_iff path).mp hnsp
          omega
        subst hnum0
        have hane : a ≠ [] := by
          intro hc
          rw [hc] at hsplit
          simp at hsplit
        rw [nodeAll_unfold, Bool.and_eq_true] at hS1
        obtain ⟨hS1a, hS1b⟩ := hS1
        simp only [Node.children_mk] at hS1b hS2
        rw [wfB, Bool.and_eq_true] at hS1a
        have hcapT : capCount (Node.mk (List.take (commonPrefixLen path a) path)
            [a.getD (commonPrefixLen path a) ' '] [D] (some h) p0 t (max m 0) false
            (fullPath.take (pIdx + commonPrefixLen path a))) =
            capCount (Node.mk a ix cs hh p0 t m w0 f) := by
          rw [show capCount (Node.mk (List.take (commonPrefixLen path a) path)
            [a.getD (commonPrefixLen path a) ' '] [D] (some h) p0 t (max m 0) false
            (fullPath.take (pIdx + commonPrefixLen path a))) =
            capCount (Node.mk (List.take (commonPrefixLen path a) path)
            [a.getD (commonPrefixLen path a) ' '] [D] none p0 t (max m 0) false
            (fullPath.take (pIdx + commonPrefixLen path a))) from rfl]
          rw [hS3]
          rfl
        refine ⟨?_, ?_, ?_, by simp, ?_, ?_, ?_, ?_, ?_, ?_⟩
        · rw [nodeAll_unfold]
          simp only [Node.children_mk, Bool.and_eq_true]
          refine ⟨?_, by simpa using hS1b⟩
          rw [wfB, Bool.and_eq_true]
          constructor
          · rw [shapeB_fields (List.take (commonPrefixLen path a) path)
              [a.getD (commonPrefixLen path a) ' '] [D] none p0 t (max m 0) false
              (fullPath.take (pIdx + commonPrefixLen path a))
              (List.take (commonPrefixLen path a) path) (some h) p0 (max m 0)
              (fullPath.take (pIdx + commonPrefixLen path a))]
            exact hS1a.1
          · rw [contentB_iff]
            simp only [Node.nType_mk, Node.path_mk]
            refine ⟨fun _ => by rw [hptake]; exact hnsp, ?_, ?_⟩
            · intro hx
              exact absurd hx (by rcases ht with ht2 | ht2 <;> rw [ht2] <;> simp)
            · intro hx
              exact absurd hx (by rcases ht with ht2 | ht2 <;> rw [ht2] <;> simp)
        · rw [nodeAll_unfold]
          simp only [Node.children_mk, nodeListAll_cons, nodeListAll_nil,
            Bool.and_true, Bool.and_eq_true]
          refine ⟨?_, ?_⟩
          · exact pcOK_vacuous _ (by
              simp only [Node.nType_mk]
              rcases ht with ht2 | ht2 <;> rw [ht2] <;> simp)
          · rw [nodeAll_unfold, Bool.and_eq_true]
            refine ⟨?_, ?_⟩
            · exact pcOK_vacuous _ (by rw [hD]; simp)
            · rw [hD]
              simpa using hpcc
        · simp only [Node.children_mk]
          exact hS2
        · intro hpre2
          have hh2 := hpre2 hane
          constructor
          · simp only [childIndexChar, Node.path_mk]
            rw [headD_take path _ '/' (by
              have := List.length_pos.mpr hpne
              omega)]
            cases path with
            | nil => exact absurd rfl hpne
            | cons pc pcs =>
              cases a with
              | nil => exact absurd rfl hane
              | cons ac acs =>
                simp only [List.headD_cons] at hh2 ⊢
                exact hh2
          · constructor
            · intro hc
              exact absurd hc hane
            · intro hc
              simp only [Node.path_mk] at hc
              rw [hptake] at hc
              exact absurd hc hpne
        · intro hc
          simp only [Node.path_mk] at hc
          rw [hptake] at hc
          exact absurd hc hpne
        · intro hx
          exfalso
          rcases ht with ht2 | ht2 <;> rw [ht2] at hx <;>
            rcases hx with hx | hx <;> simp at hx
        · rw [hcapT, hself]
          exact (Nat.max_eq_left (by omega)).symm
        · rcases hmp with ⟨h1, h2⟩ | ⟨h1, h2⟩
          · left
            simp only [Node.maxParams_mk]
            rw [hcapT]
            have h3 := selfW_le_capCount (Node.mk a ix cs hh p0 t m w0 f)
            rw [hself] at h3
            rw [Nat.max_eq_left (by omega : 0 + 0 ≤ capCount
              (Node.mk a ix cs hh p0 t m w0 f))] at h2
            rw [Nat.max_eq_left (Nat.zero_le m)]
            omega
          · right
            refine ⟨by simpa using h1, ?_⟩
            simp only [Node.maxParams_mk]
            rw [hcapT]
            omega
        · intro acc
          have hCL := hS4 acc
          simp only [collectRoutes, List.nil_append] at hCL
          simp only [collectRoutes, List.singleton_append, List.nil_append]
          rw [hptake] at hCL ⊢
          rw [hCL]
    · -- no split
      rw [if_neg hsplit] at heq
      simp only [Node.path_mk, Node.maxParams_mk, Node.children_mk, Node.nType_mk,
        Node.wildChild_mk, Node.indices_mk, Node.handlers_mk] at heq
      have hcpla : commonPrefixLen path a = a.length := by omega
      have hata : path.take (commonPrefixLen path a) = a := by
        rw [htk, hcpla, List.take_length]
      have hapre : a <+: path := by
        rw [← hata]
        exact List.take_prefix _ path
      by_cases hlen : commonPrefixLen path a < path.length
      · -- continue below the node
        rw [if_pos hlen] at heq
        by_cases hw : w0 = true
        · -- wildcard child descent
          subst hw
          rw [if_pos (show (true : Bool) = true from rfl)] at heq
          have hwfn2 := hwfn
          rw [wfB, Bool.and_eq_true] at hwfn2
          obtain ⟨hshp, hctB⟩ := hwfn2
          rw [shapeB_iff] at hshp
          simp only [Node.indices_mk, Node.wildChild_mk, Node.children_mk,
            Node.nType_mk] at hshp
          obtain ⟨hnd, hmid, hcond3⟩ := hshp
          rw [if_pos trivial] at hmid
          obtain ⟨hixe, w1, hcs1, hwty⟩ := hmid
          subst hixe
          subst hcs1
          obtain ⟨ca, ci, ccs, chh, cp, ct, cm, cw, cf⟩ := w1
          simp only [Node.nType_mk, Node.path_mk] at hwty
          have hcond3n := hcond3 _ (List.mem_singleton.mpr rfl)
          simp only [Node.nType_mk, Node.path_mk, Node.handlers_mk] at hcond3n
          simp only [nodeListAll_cons, nodeListAll_nil,
            Bool.and_true] at hwfc hpcc hmpc
          have hcallw := hwfc
          have hcallp := hpcc
          rw [nodeAll_unfold, Bool.and_eq_true] at hwfc hpcc hmpc
          obtain ⟨hcwf, hcwfc⟩ := hwfc
          obtain ⟨hcpc, hcpcc⟩ := hpcc
          obtain ⟨hcmp, hcmpc⟩ := hmpc
          simp only [Node.children_mk] at hcwfc hcpcc hcmpc
          have hcm : cm = capCount (Node.mk ca ci ccs chh cp ct cm cw cf) := by
            rw [mpOK, beq_iff_eq] at hcmp
            simpa using hcmp
          have hcane : ca ≠ [] := by
            rcases hwty with hx | ⟨hx, hy⟩
            · have hcwf2 := hcwf
              rw [wfB, Bool.and_eq_true] at hcwf2
              obtain ⟨-, hcc2⟩ := hcwf2
              rw [contentB_iff] at hcc2
              obtain ⟨-, nm, hpn, -⟩ := hcc2.2.1 (by simpa using hx)
              simp only [Node.path_mk] at hpn
              rw [hpn]
              simp
            · exact hy
          simp only [List.getD_cons_zero, Node.withPriority_mk,
            Node.priority_mk] at heq
          have hupd2 : (if numParams >
              (Node.mk ca ci ccs chh (inc32 cp) ct cm cw cf).maxParams then
              (Node.mk ca ci ccs chh (inc32 cp) ct cm cw cf).withMaxParams numParams
              else Node.mk ca ci ccs chh (inc32 cp) ct cm cw cf) =
              Node.mk ca ci ccs chh (inc32 cp) ct (max cm numParams) cw cf := by
            by_cases hc : numParams > cm
            · rw [if_pos (by simpa using hc)]
              simp only [Node.withMaxParams_mk]
              congr 1
              omega
            · rw [if_neg (by simpa using hc)]
              congr 1
              omega
          rw [hupd2] at heq
          simp only [Node.path_mk, Node.maxParams_mk, Node.children_mk] at heq
          have hselfa : rawParamCount a = selfW (Node.mk a []
              [Node.mk ca ci ccs chh cp ct cm cw cf] hh p0 t m true f) := by
            have hx := raw_path_selfW _ hwfn
            simpa using hx
          have hraw2 : rawParamCount (List.drop (commonPrefixLen path a) path)
              = numParams := by
            have hts := rawParamCount_take_drop path (commonPrefixLen path a)
            rw [hata] at hts
            omega
          have hselfc1 : selfW (Node.mk ca ci ccs chh cp ct cm cw cf) = 1 := by
            rw [selfW, if_pos]
            refine ⟨?_, hcane⟩
            rcases hwty with hx | ⟨hx, -⟩
            · exact Or.inl hx
            · exact Or.inr hx
          have hselfc2 : selfW (Node.mk ca ci ccs chh (inc32 cp) ct
              (max cm numParams) cw cf) =
              selfW (Node.mk ca ci ccs chh cp ct cm cw cf) := rfl
          have hrawca : rawParamCount ca = 1 := by
            have hx := raw_path_selfW _ hcwf
            simp only [Node.path_mk] at hx
            rw [hselfc1] at hx
            exact hx
          by_cases hcnd : List.length (List.drop (commonPrefixLen path a) path)
              ≥ ca.length ∧
              List.take ca.length (List.drop (commonPrefixLen path a) path) = ca ∧
              (ca.length ≥ List.length (List.drop (commonPrefixLen path a) path) ∨
                List.getD (List.drop (commonPrefixLen path a) path) ca.length ' '
                  = '/')
          swap
          · rw [if_neg hcnd] at heq
            simp at heq
          · rw [if_pos hcnd] at heq
            obtain ⟨hc1, hc2, hc3⟩ := hcnd
            have hnp1 : 1 ≤ numParams := by
              have hts := rawParamCount_take_drop
                (List.drop (commonPrefixLen path a) path) ca.length
              rw [hc2, hrawca] at hts
              omega
            rw [dec8_of_pos numParams (by omega) (by omega)] at heq
            cases hrec : Node.addRouteW fuel
                (Node.mk ca ci ccs chh (inc32 cp) ct (max cm numParams) cw cf)
                (numParams - 1) (List.drop (commonPrefixLen path a) path) fullPath
                (pIdx + a.length) h with
            | none =>
              rw [hrec] at heq
              simp at heq
            | some pr =>
              obtain ⟨c0', e⟩ := pr
              rw [hrec] at heq
              simp only [Option.some.injEq, Prod.mk.injEq, Node.withChildren_mk,
                List.set_cons_zero] at heq
              obtain ⟨hn', he⟩ := heq
              subst he
              subst hn'
              have hcapC : capCount (Node.mk ca ci ccs chh (inc32 cp) ct
                  (max cm numParams) cw cf) =
                  capCount (Node.mk ca ci ccs chh cp ct cm cw cf) := rfl
              obtain ⟨R1, R2, R3, R4, R5, R6, R7, R8, R9, R10⟩ :=
                ih (Node.mk ca ci ccs chh (inc32 cp) ct (max cm numParams) cw cf)
                  (numParams - 1) (List.drop (commonPrefixLen path a) path)
                  fullPath (pIdx + a.length) h c0' hrec
                  (by
                    intro hcon
                    have hx := congrArg List.length hcon
                    simp at hx
                    omega)
                  (by rw [nodeAll_wfB_pm ca ci ccs chh cp _ ct cm]; exact hcallw)
                  (by rw [nodeAll_pcOK_pm ca ci ccs chh cp _ ct cm]; exact hcallp)
                  (by simp only [Node.children_mk]; exact hcmpc)
                  (by rw [hselfc2, hselfc1]; omega)
                  (by rw [hselfc2, hselfc1]; omega)
                  (Or.inl ⟨by
                      rw [hcapC, ← hcm]
                      simp only [Node.maxParams_mk]
                      exact Nat.le_max_left _ _,
                    by
                      rw [hcapC, hselfc2, hselfc1, ← hcm]
                      simp only [Node.maxParams_mk]
                      have h1 : numParams - 1 + 1 = numParams := by omega
                      rw [h1]
                      rcases Nat.le_total cm numParams with hcc | hcc
                      · rw [Nat.max_eq_right hcc,
                          Nat.max_eq_left (by omega : numParams - 1 ≤ numParams)]
                      · rw [Nat.max_eq_left hcc,
                          Nat.max_eq_left (by omega : numParams - 1 ≤ cm)]⟩)
                  (by
                    intro _
                    rw [entryGuard]
                    constructor
                    · simp only [Node.path_mk]
                      rw [← hc2]
                      exact List.take_prefix _ _
                    · simp only [Node.path_mk]
                      rcases hc3 with hx | hx
                      · exact Or.inl hx
                      · exact Or.inr hx)
                  (by
                    intro hx
                    simp only [Node.path_mk] at hx
                    exact absurd hx hcane)
              have hty2 : Node.nType c0' = ct := by simpa using R4
              have hp7 : Node.path c0' = ca := by
                have hx := R7 (by
                  rcases hwty with hx | ⟨hx, -⟩
                  · exact Or.inl (by simpa using hx)
                  · exact Or.inr (by simpa using hx))
                simpa using hx
              have hR8 : capCount c0' =
                  max (capCount (Node.mk ca ci ccs chh cp ct cm cw cf))
                    numParams := by
                rw [R8, hcapC, hselfc2, hselfc1]
                congr 1
                omega
              have hK8 : capCount (Node.mk a [] [c0'] hh p0 t
                  (max m numParams) true f) =
                  max (capCount (Node.mk a []
                    [Node.mk ca ci ccs chh cp ct cm cw cf] hh p0 t m true f))
                    (numParams + selfW (Node.mk a []
                    [Node.mk ca ci ccs chh cp ct cm cw cf] hh p0 t m true f)) := by
                rw [capCount_unfold, capCount_unfold]
                simp only [Node.children_mk, capCountList_cons, capCountList_nil,
                  Nat.max_zero]
                rw [hR8]
                rw [show selfW (Node.mk a [] [c0'] hh p0 t (max m numParams) true f)
                  = selfW (Node.mk a [] [Node.mk ca ci ccs chh cp ct cm cw cf]
                    hh p0 t m true f) from rfl]
                rcases Nat.le_total
                    (capCount (Node.mk ca ci ccs chh cp ct cm cw cf))
                    numParams with hcc | hcc
                · rw [Nat.max_eq_right hcc, Nat.max_eq_right (by omega)]
                  omega
                · rw [Nat.max_eq_left hcc, Nat.max_eq_left (by omega)]
              refine ⟨?_, ?_, ?_, by simp, ?_, ?_, ?_, ?_, ?_, ?_⟩
              · rw [nodeAll_unfold]
                simp only [Node.children_mk, nodeListAll_cons, nodeListAll_nil,
                  Bool.and_true, Bool.and_eq_true]
                refine ⟨?_, R1⟩
                rw [wfB, Bool.and_eq_true]
                constructor
                · rw [shapeB_iff]
                  simp only [Node.indices_mk, Node.wildChild_mk, Node.children_mk,
                    Node.nType_mk]
                  refine ⟨by simp, ?_, ?_⟩
                  · rw [if_pos trivial]
                    refine ⟨trivial, c0', rfl, ?_⟩
                    rcases hwty with hx | ⟨hx, -⟩
                    · left
                      rw [hty2, hx]
                    · right
                      refine ⟨by rw [hty2, hx], ?_⟩
                      rw [hp7]
                      exact hcane
                  · intro c hc
                    simp only [List.mem_singleton] at hc
                    rw [hc]
                    exact ⟨by rw [hty2]; exact hcond3n.1, R6⟩
                · rw [contentB_fields a ci [Node.mk ca ci ccs chh cp ct cm cw cf]
                    hh p0 t m true f]
                  exact hctB
              · rw [nodeAll_unfold]
                simp only [Node.children_mk, nodeListAll_cons, nodeListAll_nil,
                  Bool.and_true, Bool.and_eq_true]
                refine ⟨?_, R2⟩
                rw [pcOK]
                simp only [Node.nType_mk, Node.children_mk, List.all_cons,
                  List.all_nil, Bool.and_true]
                cases hbt : (t == NType.param) with
                | false => simp
                | true =>
                  simp only [Bool.not_true, Bool.false_or]
                  have hpcn2 := hpcn
                  rw [pcOK] at hpcn2
                  simp only [Node.nType_mk, Node.children_mk, hbt, Bool.not_true,
                    Bool.false_or, List.all_cons, List.all_nil, Bool.and_true,
                    Node.path_mk] at hpcn2
                  rw [hp7]
                  exact hpcn2
              · simp only [Node.children_mk, nodeListAll_cons, nodeListAll_nil,
                  Bool.and_true]
                rw [nodeAll_unfold, Bool.and_eq_true]
                refine ⟨?_, R3⟩
                rw [mpOK, beq_iff_eq]
                rcases R9 with h9 | ⟨h9, -⟩
                · exact h9
                · exfalso
                  rw [show Node.nType (Node.mk ca ci ccs chh (inc32 cp) ct
                    (max cm numParams) cw cf) = ct from rfl] at h9
                  exact hcond3n.1 h9
              · intro _
                exact ⟨rfl, Iff.rfl⟩
              · intro hx
                simp only [Node.path_mk] at hx
                exact hEmpty hx
              · intro _
                rfl
              · exact hK8
              · rcases hmp with ⟨h1, h2⟩ | ⟨h1, h2⟩
                · left
                  simp only [Node.maxParams_mk]
                  rw [hK8]
                  exact h2
                · right
                  refine ⟨h1, ?_⟩
                  simp only [Node.maxParams_mk]
                  rw [hK8]
                  exact Nat.max_le.mpr ⟨le_trans h2 (Nat.le_max_left _ _),
                    le_trans (Nat.le_add_right _ _) (Nat.le_max_right _ _)⟩
              · intro acc
                have h10 := R10 (acc ++ a)
                have hfix : a ++ List.drop (commonPrefixLen path a) path = path := by
                  have hfix0 := List.take_append_drop (commonPrefixLen path a) path
                  rw [hata] at hfix0
                  exact hfix0
                have hstr : (acc ++ a) ++ List.drop (commonPrefixLen path a) path
                    = acc ++ path := by
                  rw [List.append_assoc, hfix]
                rw [hstr] at h10
                have hcoln : collectRoutes (acc ++ a)
                    (Node.mk ca ci ccs chh (inc32 cp) ct (max cm numParams) cw cf) =
                    collectRoutes (acc ++ a)
                    (Node.mk ca ci ccs chh cp ct cm cw cf) := rfl
                rw [hcoln] at h10
                simp only [collectRoutes, collectRoutesList, List.append_nil]
                cases hh with
                | none =>
                  simp only [List.nil_append]
                  exact h10
                | some hs =>
                  simp only [List.singleton_append]
                  exact (h10.cons _).trans (List.Perm.swap _ _ _)
        · have hw0 : w0 = false := by
            cases w0
            · rfl
            · exact absurd rfl hw
          subst hw0
          rw [if_neg (by simp)] at heq
          by_cases hparam : t = NType.param ∧
              List.headD (List.drop (commonPrefixLen path a) path) ' ' = '/' ∧
              cs.length = 1
          · -- param continuation descent
            rw [if_pos hparam] at heq
            obtain ⟨ht, hslash, hlen1⟩ := hparam
            subst ht
            cases cs with
            | nil => simp at hlen1
            | cons c0n rest =>
            cases rest with
            | cons d ds => simp at hlen1
            | nil =>
            obtain ⟨ca, ci, ccs, chh, cp, ct, cm, cw, cf⟩ := c0n
            simp only [List.getD_cons_zero, Node.withPriority_mk,
              Node.priority_mk] at heq
            cases hrec : Node.addRouteW fuel
                (Node.mk ca ci ccs chh (inc32 cp) ct cm cw cf) numParams
                (List.drop (commonPrefixLen path a) path) fullPath
                (pIdx + a.length) h with
            | none =>
              rw [hrec] at heq
              simp at heq
            | some pr =>
              obtain ⟨c0', e⟩ := pr
              rw [hrec] at heq
              simp only [Option.some.injEq, Prod.mk.injEq, Node.withChildren_mk,
                List.set_cons_zero] at heq
              obtain ⟨hn', he⟩ := heq
              subst he
              subst hn'
              have hwfn2 := hwfn
              rw [wfB, Bool.and_eq_true] at hwfn2
              obtain ⟨hshp, hctp⟩ := hwfn2
              rw [shapeB_iff] at hshp
              simp only [Node.indices_mk, Node.wildChild_mk, Node.children_mk,
                Node.nType_mk] at hshp
              obtain ⟨hnd, hmid, hcond⟩ := hshp
              rw [if_neg (by simp), if_pos trivial] at hmid
              obtain ⟨⟨hle1, hixor⟩, hccond⟩ := hmid
              rw [contentB_iff] at hctp
              obtain ⟨hwc0, name, heqa, hwnm⟩ := hctp.2.1 (by simp)
              simp only [Node.path_mk] at heqa
              simp only [nodeListAll_cons, nodeListAll_nil,
                Bool.and_true] at hwfc hpcc hmpc
              have hcallw := hwfc
              have hcallp := hpcc
              rw [nodeAll_unfold, Bool.and_eq_true] at hwfc hpcc hmpc
              obtain ⟨hcwf, hcwfc⟩ := hwfc
              obtain ⟨hcpc, hcpcc⟩ := hpcc
              obtain ⟨hcmp, hcmpc⟩ := hmpc
              simp only [Node.children_mk] at hcwfc hcpcc hcmpc
              have hcm : cm = capCount (Node.mk ca ci ccs chh cp ct cm cw cf) := by
                rw [mpOK, beq_iff_eq] at hcmp
                simpa using hcmp
              have hct0 := hccond _ (List.mem_singleton.mpr rfl)
              simp only [Node.nType_mk, Node.path_mk] at hct0
              have hcroot := hcond _ (List.mem_singleton.mpr rfl)
              simp only [Node.nType_mk, Node.path_mk, Node.handlers_mk] at hcroot
              have hpc0 : ca = [] ∨ List.headD ca ' ' = '/' := by
                have hpcn2 := hpcn
                rw [pcOK] at hpcn2
                simp only [Node.nType_mk, Node.children_mk, beq_self_eq_true,
                  Bool.not_true, Bool.false_or, List.all_cons, List.all_nil,
                  Bool.and_true, Node.path_mk, Bool.or_eq_true, beq_iff_eq,
                  List.isEmpty_iff] at hpcn2
                exact hpcn2
              have hselfp : selfW (Node.mk a ix
                  [Node.mk ca ci ccs chh cp ct cm cw cf] hh p0 NType.param m false f)
                  = 1 := by
                rw [selfW, if_pos]
                exact ⟨Or.inl rfl, by simp [heqa]⟩
              rw [hselfp] at hraw hlt hmp
              have hselfc : selfW (Node.mk ca ci ccs chh (inc32 cp) ct cm cw cf)
                  = 0 := by
                rw [selfW, if_neg]
                rintro ⟨hc1, hc2⟩
                simp only [Node.nType_mk, Node.path_mk] at hc1 hc2
                rcases hc1 with hx | hx
                · exact hct0.1 hx
                · exact hc2 (hct0.2 hx)
              have hrawa : rawParamCount a = 1 := by
                rw [heqa, rawParamCount_cons, if_pos (Or.inl rfl),
                  (noSigil_iff _).mp (noSigil_of_wildNameOK name hwnm)]
              have hraw2 : rawParamCount (List.drop (commonPrefixLen path a) path)
                  = numParams := by
                have hts := rawParamCount_take_drop path (commonPrefixLen path a)
                rw [hata] at hts
                omega
              have hd2 : List.drop (commonPrefixLen path a) path ≠ [] := by
                intro hcon
                have := congrArg List.length hcon
                simp at this
                omega
              have hcapC : capCount (Node.mk ca ci ccs chh (inc32 cp) ct cm cw cf) =
                  capCount (Node.mk ca ci ccs chh cp ct cm cw cf) := rfl
              obtain ⟨R1, R2, R3, R4, R5, R6, R7, R8, R9, R10⟩ :=
                ih (Node.mk ca ci ccs chh (inc32 cp) ct cm cw cf) numParams
                  (List.drop (commonPrefixLen path a) path) fullPath
                  (pIdx + a.length) h c0' hrec hd2
                  (by rw [nodeAll_wfB_pm ca ci ccs chh cp _ ct cm]; exact hcallw)
                  (by rw [nodeAll_pcOK_pm ca ci ccs chh cp _ ct cm]; exact hcallp)
                  (by simp only [Node.children_mk]; exact hcmpc)
                  (by rw [hselfc]; omega)
                  (by rw [hselfc]; omega)
                  (Or.inl ⟨by rw [hcapC]; simp only [Node.maxParams_mk]; omega,
                    by rw [hcapC, hselfc]
                       simp only [Node.maxParams_mk]
                       rw [← hcm]
                       omega⟩)
                  (by
                    intro hx
                    simp only [Node.nType_mk] at hx
                    rcases hx with hx | hx
                    · exact absurd hx hct0.1
                    · have hca0 : ca = [] := hct0.2 hx
                      rw [entryGuard]
                      simp only [Node.path_mk, hca0]
                      refine ⟨List.nil_prefix, Or.inr ?_⟩
                      simp only [List.length_nil]
                      cases hdd : List.drop (commonPrefixLen path a) path with
                      | nil => exact absurd hdd hd2
                      | cons c2 cs2 =>
                        rw [hdd] at hslash
                        simpa using hslash)
                  (by
                    simp only [Node.path_mk, Node.handlers_mk]
                    exact hcroot.2)
              have hprem : Node.path (Node.mk ca ci ccs chh (inc32 cp) ct cm cw cf)
                  ≠ [] → List.headD (List.drop (commonPrefixLen path a) path) ' ' =
                  List.headD (Node.path
                    (Node.mk ca ci ccs chh (inc32 cp) ct cm cw cf)) ' ' := by
                simp only [Node.path_mk]
                intro hcane
                rcases hpc0 with hx | hx
                · exact absurd hx hcane
                · rw [hslash, hx]
              obtain ⟨hcx, hciff⟩ := R5 hprem
              simp only [Node.path_mk] at hciff
              have hK8 : capCount (Node.mk a ix [c0'] hh p0 NType.param
                  (max m numParams) false f) =
                  max (capCount (Node.mk a ix
                    [Node.mk ca ci ccs chh cp ct cm cw cf] hh p0 NType.param m
                    false f)) (numParams + 1) := by
                rw [capCount_unfold, capCount_unfold]
                simp only [Node.children_mk, capCountList_cons, capCountList_nil,
                  Nat.max_zero]
                rw [show selfW (Node.mk a ix [c0'] hh p0 NType.param
                  (max m numParams) false f) = 1 from by
                    rw [selfW, if_pos]
                    exact ⟨Or.inl rfl, by simp [heqa]⟩]
                rw [show selfW (Node.mk a ix
                  [Node.mk ca ci ccs chh cp ct cm cw cf] hh p0 NType.param m
                  false f) = 1 from by
                    rw [selfW, if_pos]
                    exact ⟨Or.inl rfl, by simp [heqa]⟩]
                rw [R8, hcapC, hselfc]
                rcases Nat.le_total (capCount (Node.mk ca ci ccs chh cp ct cm cw cf))
                    numParams with hcc | hcc
                · rw [Nat.max_eq_right (by omega), Nat.max_eq_right (by omega)]
                  omega
                · rw [Nat.max_eq_left (by omega), Nat.max_eq_left (by omega)]
              refine ⟨?_, ?_, ?_, by simp, ?_, ?_, ?_, ?_, ?_, ?_⟩
              · rw [nodeAll_unfold]
                simp only [Node.children_mk, nodeListAll_cons, nodeListAll_nil,
                  Bool.and_true, Bool.and_eq_true]
                refine ⟨?_, R1⟩
                rw [wfB, Bool.and_eq_true]
                constructor
                · rw [shapeB_iff]
                  simp only [Node.indices_mk, Node.wildChild_mk, Node.children_mk,
                    Node.nType_mk]
                  refine ⟨hnd, ?_, ?_⟩
                  · rw [if_neg (by simp), if_pos trivial]
                    refine ⟨⟨by simp, ?_⟩, ?_⟩
                    · rcases hixor with hx | hx
                      · exact Or.inl hx
                      · right
                        rw [hx]
                        simp only [List.map_cons, List.map_nil, List.cons.injEq,
                          and_true]
                        rw [hcx]
                        rfl
                    · intro c hc
                      simp only [List.mem_singleton] at hc
                      rw [hc]
                      have h3 := R3
                      have hty : Node.nType c0' = ct := by simpa using R4
                      refine ⟨by rw [hty]; exact hct0.1, fun hcat => ?_⟩
                      rw [hty] at hcat
                      have hca0 : ca = [] := hct0.2 hcat
                      exact hciff.mp hca0
                  · intro c hc
                    simp only [List.mem_singleton] at hc
                    rw [hc]
                    have hty : Node.nType c0' = ct := by simpa using R4
                    exact ⟨by rw [hty]; exact hcroot.1, R6⟩
                · rw [contentB_iff]
                  simp only [Node.nType_mk, Node.path_mk, Node.wildChild_mk]
                  refine ⟨?_, ?_, ?_⟩
                  · intro hx
                    rcases hx with hx | hx <;> simp at hx
                  · intro _
                    exact ⟨trivial, name, heqa, hwnm⟩
                  · intro hx
                    simp at hx
              · rw [nodeAll_unfold]
                simp only [Node.children_mk, nodeListAll_cons, nodeListAll_nil,
                  Bool.and_true, Bool.and_eq_true]
                refine ⟨?_, R2⟩
                rw [pcOK]
                simp only [Node.nType_mk, Node.children_mk, beq_self_eq_true,
                  Bool.not_true, Bool.false_or, List.all_cons, List.all_nil,
                  Bool.and_true, Bool.or_eq_true, beq_iff_eq, List.isEmpty_iff]
                rcases hpc0 with hx | hx
                · left
                  exact hciff.mp hx
                · right
                  have hcane : ca ≠ [] := by
                    intro hcon
                    rw [hcon] at hx
                    simp at hx
                  have hcpne : Node.path c0' ≠ [] := by
                    intro hcon
                    exact hcane (hciff.mpr hcon)
                  have := hcx
                  rw [childIndexChar, childIndexChar] at this
                  simp only [Node.path_mk] at this
                  cases hdd : Node.path c0' with
                  | nil => exact absurd hdd hcpne
                  | cons e2 es2 =>
                    cases hda : ca with
                    | nil => exact absurd hda hcane
                    | cons e3 es3 =>
                      rw [hdd, hda] at this
                      simp only [List.headD_cons] at this ⊢
                      rw [hda] at hx
                      simp only [List.headD_cons] at hx
                      rw [this, hx]
              · simp only [Node.children_mk, nodeListAll_cons, nodeListAll_nil,
                  Bool.and_true]
                rw [nodeAll_unfold, Bool.and_eq_true]
                refine ⟨?_, R3⟩
                rw [mpOK, beq_iff_eq]
                rcases R9 with h9 | ⟨h9, -⟩
                · exact h9
                · exfalso
                  rw [show Node.nType (Node.mk ca ci ccs chh (inc32 cp) ct cm cw cf)
                    = ct from rfl] at h9
                  exact hcroot.1 h9
              · intro _
                exact ⟨rfl, Iff.rfl⟩
              · intro hc
                simp only [Node.path_mk] at hc
                rw [heqa] at hc
                simp at hc
              · intro _
                rfl
              · rw [hselfp]
                exact hK8
              · left
                simp only [Node.maxParams_mk]
                rw [hK8]
                rcases hmp with ⟨h1, h2⟩ | ⟨h1, h2⟩
                · exact h2
                · simp at h1
              · intro acc
                have h10 := R10 (acc ++ a)
                have hfix : a ++ List.drop (commonPrefixLen path a) path = path := by
                  have hfix0 := List.take_append_drop (commonPrefixLen path a) path
                  rw [hata] at hfix0
                  exact hfix0
                have hstr : (acc ++ a) ++ List.drop (commonPrefixLen path a) path
                    = acc ++ path := by
                  rw [List.append_assoc, hfix]
                rw [hstr] at h10
                have hcoln : collectRoutes (acc ++ a)
                    (Node.mk ca ci ccs chh (inc32 cp) ct cm cw cf) =
                    collectRoutes (acc ++ a)
                    (Node.mk ca ci ccs chh cp ct cm cw cf) := rfl
                rw [hcoln] at h10
                simp only [collectRoutes, collectRoutesList, List.append_nil]
                cases hh with
                | none =>
                  simp only [List.nil_append]
                  exact h10
                | some hs =>
                  simp only [List.singleton_append]
                  exact (h10.cons _).trans (List.Perm.swap _ _ _)
          · rw [if_neg hparam] at heq
            cases hidx : List.findIdx?
                (fun x => x == List.headD (List.drop (commonPrefixLen path a) path) ' ')
                ix 0 with
            | some idx =>
              rw [hidx] at heq
              have hd2 : List.drop (commonPrefixLen path a) path ≠ [] := by
                intro hcon
                have hx := congrArg List.length hcon
                simp at hx
                omega
              have hwfn2 := hwfn
              rw [wfB, Bool.and_eq_true] at hwfn2
              obtain ⟨hshp, hctB⟩ := hwfn2
              rw [shapeB_iff] at hshp
              simp only [Node.indices_mk, Node.wildChild_mk, Node.children_mk,
                Node.nType_mk] at hshp
              obtain ⟨hnd, hmid, hcond3⟩ := hshp
              rw [if_neg (by simp)] at hmid
              obtain ⟨hmap0, hcclause⟩ := hmid
              have hparam0 : t = NType.param →
                  cs = [] ∧ ix = [] ∧ List.headD (List.drop (commonPrefixLen path a) path) ' ' = '/' := by
                intro htp
                have hgd := hguard (Or.inl htp)
                rw [entryGuard] at hgd
                simp only [Node.path_mk] at hgd
                have hcchv : List.headD (List.drop (commonPrefixLen path a) path) ' ' = '/' := by
                  rw [headD_drop path (commonPrefixLen path a) ' ' (by omega)]
                  rcases hgd.2 with hx | hx
                  · omega
                  · rw [hcpla]
                    exact hx
                rw [if_pos htp] at hmap0
                have hcs0 : cs = [] := by
                  cases cs with
                  | nil => rfl
                  | cons x xs =>
                    cases xs with
                    | nil => exact absurd ⟨htp, hcchv, rfl⟩ hparam
                    | cons y ys =>
                      obtain ⟨hl1, -⟩ := hmap0
                      simp at hl1
                refine ⟨hcs0, ?_, hcchv⟩
                rcases hmap0.2 with hx | hx
                · simpa using hx
                · rw [hcs0] at hx
                  simpa using hx
              have hmap : ix = List.map childIndexChar cs := by
                by_cases htp : t = NType.param
                · obtain ⟨hcs0, hix0, -⟩ := hparam0 htp
                  rw [hcs0, hix0]
                  rfl
                · rw [if_neg htp] at hmap0
                  exact hmap0
              have hixlen : ix.length = cs.length := by
                rw [hmap]
                simp
              have hraw2 : rawParamCount (List.drop (commonPrefixLen path a) path) = numParams := by
                have hts := rawParamCount_take_drop path (commonPrefixLen path a)
                rw [hata] at hts
                have hselfa := raw_path_selfW _ hwfn
                simp only [Node.path_mk] at hselfa
                omega
              obtain ⟨-, hilen0, hichar0⟩ := findIdx?_some ix _ 0 idx hidx
              simp only [Nat.sub_zero] at hilen0 hichar0
              have hichar : List.getD ix idx ' ' = List.headD (List.drop (commonPrefixLen path a) path) ' ' := by
                simpa using hichar0
              have hidxlt : idx < cs.length := by omega
              obtain ⟨k, hk, hicp⟩ := incrementChildPrio_spec cs ix idx hidxlt hixlen
              simp only [] at heq
              rw [hicp] at heq
              cases hc0 : cs.getD idx emptyNode with
              | mk ca ci ccs chh cp ct cm cw cf =>
              rw [hc0] at heq
              simp only [Node.withPriority_mk, Node.priority_mk] at heq
              have hgd2 : (movL (cs.set idx (Node.mk ca ci ccs chh (inc32 cp) ct cm cw cf)) idx k).getD k emptyNode =
                  Node.mk ca ci ccs chh (inc32 cp) ct cm cw cf := by
                rw [movL_getD_new _ _ _ _ hk (by simp [hidxlt])]
                exact List.getElem_set_self (by simpa using hidxlt)
              rw [hgd2] at heq
              cases hrec : Node.addRouteW fuel (Node.mk ca ci ccs chh (inc32 cp) ct cm cw cf) numParams (List.drop (commonPrefixLen path a) path) fullPath
                  (pIdx + a.length) h with
              | none =>
                rw [hrec] at heq
                simp at heq
              | some pr =>
                obtain ⟨c0', e⟩ := pr
                rw [hrec] at heq
                simp only [Node.withChildren_mk, Node.withIndices_mk,
                  Option.some.injEq, Prod.mk.injEq] at heq
                obtain ⟨hn', he⟩ := heq
                subst he
                rw [movL_set_eq _ _ _ _ hk (by simp [hidxlt]),
                  List.set_set] at hn'
                subst hn'
                have hc0mem : Node.mk ca ci ccs chh cp ct cm cw cf ∈ cs := by
                  rw [← hc0, getD_eq_getElem _ _ _ hidxlt]
                  exact List.getElem_mem _
                have hcallw := (nodeListAll_forall _ _).mp hwfc _ hc0mem
                have hcallp := (nodeListAll_forall _ _).mp hpcc _ hc0mem
                have hcallm := (nodeListAll_forall _ _).mp hmpc _ hc0mem
                have hcallm2 := hcallm
                rw [nodeAll_unfold, Bool.and_eq_true] at hcallm2
                obtain ⟨hcmp, hcmpc⟩ := hcallm2
                simp only [Node.children_mk] at hcmpc
                have hcm : cm = capCount (Node.mk ca ci ccs chh cp ct cm cw cf) := by
                  rw [mpOK, beq_iff_eq] at hcmp
                  simpa using hcmp
                have hcty := hcclause _ hc0mem
                simp only [Node.nType_mk, Node.path_mk] at hcty
                have hcro := hcond3 _ hc0mem
                simp only [Node.nType_mk, Node.path_mk, Node.handlers_mk] at hcro
                have hselfc0 : selfW (Node.mk ca ci ccs chh cp ct cm cw cf) = 0 := by
                  rw [selfW, if_neg]
                  rintro ⟨h1, h2⟩
                  simp only [Node.nType_mk, Node.path_mk] at h1 h2
                  rcases h1 with hx | hx
                  · exact hcty.1 hx
                  · exact h2 (hcty.2 hx)
                have hgm : List.getD ix idx ' ' = childIndexChar (Node.mk ca ci ccs chh cp ct cm cw cf) := by
                  rw [hmap]
                  rw [getD_eq_getElem (List.map childIndexChar cs) idx ' '
                    (by simpa using hidxlt)]
                  rw [List.getElem_map]
                  rw [← getD_eq_getElem cs idx emptyNode hidxlt]
                  rw [hc0]
                have hichar3 : childIndexChar (Node.mk ca ci ccs chh cp ct cm cw cf) = List.headD (List.drop (commonPrefixLen path a) path) ' ' := by
                  rw [← hgm]
                  exact hichar
                obtain ⟨R1, R2, R3, R4, R5, R6, R7, R8, R9, R10⟩ :=
                  ih (Node.mk ca ci ccs chh (inc32 cp) ct cm cw cf) numParams (List.drop (commonPrefixLen path a) path) fullPath (pIdx + a.length) h c0' hrec
                    hd2
                    (by rw [nodeAll_wfB_pm ca ci ccs chh cp _ ct cm]; exact hcallw)
                    (by rw [nodeAll_pcOK_pm ca ci ccs chh cp _ ct cm]; exact hcallp)
                    (by simp only [Node.children_mk]; exact hcmpc)
                    (by
                      rw [show selfW (Node.mk ca ci ccs chh (inc32 cp) ct cm cw cf) = selfW (Node.mk ca ci ccs chh cp ct cm cw cf) from rfl, hselfc0]
                      omega)
                    (by
                      rw [show selfW (Node.mk ca ci ccs chh (inc32 cp) ct cm cw cf) = selfW (Node.mk ca ci ccs chh cp ct cm cw cf) from rfl, hselfc0]
                      omega)
                    (Or.inl ⟨by
                        simp only [Node.maxParams_mk]
                        rw [show capCount (Node.mk ca ci ccs chh (inc32 cp) ct cm cw cf) = capCount (Node.mk ca ci ccs chh cp ct cm cw cf) from rfl,
                          ← hcm],
                      by
                        simp only [Node.maxParams_mk]
                        rw [show capCount (Node.mk ca ci ccs chh (inc32 cp) ct cm cw cf) = capCount (Node.mk ca ci ccs chh cp ct cm cw cf) from rfl,
                          show selfW (Node.mk ca ci ccs chh (inc32 cp) ct cm cw cf) = selfW (Node.mk ca ci ccs chh cp ct cm cw cf) from rfl, hselfc0,
                          ← hcm]
                        simp⟩)
                    (by
                      intro hx
                      rcases hx with hx | hx
                      · exact absurd (by simpa using hx) hcty.1
                      · have hca0 : ca = [] := hcty.2 (by simpa using hx)
                        rw [entryGuard]
                        simp only [Node.path_mk, hca0]
                        refine ⟨List.nil_prefix, Or.inr ?_⟩
                        simp only [List.length_nil]
                        have hCv : List.headD (List.drop (commonPrefixLen path a) path) ' ' = '/' := by
                          rw [← hichar3, childIndexChar]
                          simp [hca0]
                        cases hdd : List.drop (commonPrefixLen path a) path with
                        | nil => exact absurd hdd hd2
                        | cons e2c es2 =>
                          rw [hdd] at hCv
                          simpa using hCv)
                    (by
                      intro hx
                      simp only [Node.path_mk] at hx
                      exact hcro.2 hx)
                have hprem : Node.path (Node.mk ca ci ccs chh (inc32 cp) ct cm cw cf) ≠ [] →
                    List.headD (List.drop (commonPrefixLen path a) path) ' ' = List.headD (Node.path (Node.mk ca ci ccs chh (inc32 cp) ct cm cw cf)) ' ' := by
                  simp only [Node.path_mk]
                  intro hcane
                  rw [← hichar3, childIndexChar]
                  simp only [Node.path_mk]
                  cases hda : ca with
                  | nil => exact absurd hda hcane
                  | cons e3 es3 => simp
                obtain ⟨hcx, hciff⟩ := R5 hprem
                simp only [Node.path_mk] at hciff
                have hty2 : Node.nType c0' = ct := by simpa using R4
                have htnp : t ≠ NType.param := by
                  intro htp
                  obtain ⟨-, hix0, -⟩ := hparam0 htp
                  rw [hix0] at hilen0
                  simp at hilen0
                have hpermC : List.Perm (movL (cs.set idx c0') idx k)
                    (cs.set idx c0') := movL_perm _ _ _ hk (by simp [hidxlt])
                have hpermC2 : List.Perm (cs.set idx c0')
                    (c0' :: cs.eraseIdx idx) :=
                  set_perm_cons_eraseIdx cs idx c0' hidxlt
                have hpermCs : List.Perm cs (Node.mk ca ci ccs chh cp ct cm cw cf :: cs.eraseIdx idx) := by
                  have hx := perm_getD_eraseIdx cs idx emptyNode hidxlt
                  rw [hc0] at hx
                  exact hx
                have hpermI : List.Perm (movL ix idx k) ix :=
                  movL_perm _ _ _ hk (by omega)
                have hR8 : capCount c0' = max (capCount (Node.mk ca ci ccs chh cp ct cm cw cf)) numParams := by
                  rw [R8, show capCount (Node.mk ca ci ccs chh (inc32 cp) ct cm cw cf) = capCount (Node.mk ca ci ccs chh cp ct cm cw cf) from rfl,
                    show selfW (Node.mk ca ci ccs chh (inc32 cp) ct cm cw cf) = selfW (Node.mk ca ci ccs chh cp ct cm cw cf) from rfl, hselfc0]
                  simp
                have hK8 : capCount (Node.mk a (movL ix idx k)
                    (movL (cs.set idx c0') idx k) hh p0 t (max m numParams)
                    false f) =
                    max (capCount (Node.mk a ix cs hh p0 t m false f)) (numParams + selfW (Node.mk a ix cs hh p0 t m false f)) := by
                  rw [capCount_unfold, capCount_unfold]
                  simp only [Node.children_mk]
                  rw [capCountList_perm (hpermC.trans hpermC2),
                    capCountList_perm hpermCs]
                  simp only [capCountList_cons]
                  rw [hR8]
                  rw [show selfW (Node.mk a (movL ix idx k)
                    (movL (cs.set idx c0') idx k) hh p0 t (max m numParams)
                    false f) = selfW (Node.mk a ix cs hh p0 t m false f) from rfl]
                  rw [Nat.max_assoc,
                    Nat.max_comm numParams (capCountList (cs.eraseIdx idx)),
                    ← Nat.max_assoc]
                  rcases Nat.le_total
                      (max (capCount (Node.mk ca ci ccs chh cp ct cm cw cf)) (capCountList (cs.eraseIdx idx)))
                      numParams with hcc2 | hcc2
                  · have hle : selfW (Node.mk a ix cs hh p0 t m false f) +
                        (max (capCount (Node.mk ca ci ccs chh cp ct cm cw cf)) (capCountList (cs.eraseIdx idx))) ≤
                        numParams + selfW (Node.mk a ix cs hh p0 t m false f) := by omega
                    rw [Nat.max_eq_right hcc2, Nat.max_eq_right hle]
                    omega
                  · have hle : numParams + selfW (Node.mk a ix cs hh p0 t m false f) ≤ selfW (Node.mk a ix cs hh p0 t m false f) +
                        (max (capCount (Node.mk ca ci ccs chh cp ct cm cw cf)) (capCountList (cs.eraseIdx idx))) := by
                      omega
                    rw [Nat.max_eq_left hcc2, Nat.max_eq_left hle]
                refine ⟨?_, ?_, ?_, by simp, ?_, ?_, ?_, ?_, ?_, ?_⟩
                · rw [nodeAll_unfold, Bool.and_eq_true]
                  constructor
                  · rw [wfB, Bool.and_eq_true]
                    constructor
                    · rw [shapeB_iff]
                      simp only [Node.indices_mk, Node.wildChild_mk,
                        Node.children_mk, Node.nType_mk]
                      refine ⟨(hpermI.nodup_iff).mpr hnd, ?_, ?_⟩
                      · rw [if_neg (by simp)]
                        constructor
                        · rw [if_neg htnp]
                          rw [show List.map childIndexChar
                              (movL (cs.set idx c0') idx k) =
                              movL (List.map childIndexChar (cs.set idx c0'))
                                idx k from movL_map _ _ _ _]
                          rw [List.map_set, ← hmap]
                          rw [show childIndexChar c0' = List.getD ix idx ' ' from by
                            rw [hcx, show childIndexChar (Node.mk ca ci ccs chh (inc32 cp) ct cm cw cf) =
                              childIndexChar (Node.mk ca ci ccs chh cp ct cm cw cf) from rfl, ← hgm]]
                          rw [set_getD_self ix idx ' ' (by omega)]
                        · intro c2 hc2
                          rcases List.mem_cons.mp
                              ((hpermC.trans hpermC2).subset hc2) with hm | hm
                          · rw [hm]
                            refine ⟨by rw [hty2]; exact hcty.1, ?_⟩
                            intro hcat
                            rw [hty2] at hcat
                            exact hciff.mp (hcty.2 hcat)
                          · exact hcclause c2 (List.mem_of_mem_eraseIdx hm)
                      · intro c2 hc2
                        rcases List.mem_cons.mp
                            ((hpermC.trans hpermC2).subset hc2) with hm | hm
                        · rw [hm]
                          exact ⟨by rw [hty2]; exact hcro.1, R6⟩
                        · exact hcond3 c2 (List.mem_of_mem_eraseIdx hm)
                    · rw [contentB_fields a ix cs hh p0 t m false f]
                      exact hctB
                  · simp only [Node.children_mk]
                    apply nodeListAll_perm hpermC.symm
                    exact nodeListAll_set hwfc R1
                · rw [nodeAll_unfold, Bool.and_eq_true]
                  constructor
                  · exact pcOK_vacuous _ (by
                      simp only [Node.nType_mk]
                      exact htnp)
                  · simp only [Node.children_mk]
                    apply nodeListAll_perm hpermC.symm
                    exact nodeListAll_set hpcc R2
                · simp only [Node.children_mk]
                  apply nodeListAll_perm hpermC.symm
                  apply nodeListAll_set hmpc
                  rw [nodeAll_unfold, Bool.and_eq_true]
                  refine ⟨?_, R3⟩
                  rw [mpOK, beq_iff_eq]
                  rcases R9 with h9 | ⟨h9, -⟩
                  · exact h9
                  · exfalso
                    rw [show Node.nType (Node.mk ca ci ccs chh (inc32 cp) ct cm cw cf) = ct from rfl] at h9
                    exact hcro.1 h9
                · intro _
                  exact ⟨rfl, Iff.rfl⟩
                · intro hx
                  simp only [Node.path_mk] at hx
                  exact hEmpty hx
                · intro _
                  rfl
                · exact hK8
                · rcases hmp with ⟨h1, h2⟩ | ⟨h1, h2⟩
                  · left
                    simp only [Node.maxParams_mk]
                    rw [hK8]
                    exact h2
                  · right
                    refine ⟨h1, ?_⟩
                    simp only [Node.maxParams_mk]
                    rw [hK8]
                    exact Nat.max_le.mpr ⟨le_trans h2 (Nat.le_max_left _ _),
                      le_trans (Nat.le_add_right _ _) (Nat.le_max_right _ _)⟩
                · intro acc
                  have hstr2 : (acc ++ a) ++ List.drop (commonPrefixLen path a) path = acc ++ path := by
                    rw [List.append_assoc]
                    have hfix0 := List.take_append_drop (commonPrefixLen path a) path
                    rw [hata] at hfix0
                    rw [hfix0]
                  have h10 := R10 (acc ++ a)
                  rw [hstr2] at h10
                  have hcoln : collectRoutes (acc ++ a) (Node.mk ca ci ccs chh (inc32 cp) ct cm cw cf) =
                      collectRoutes (acc ++ a) (Node.mk ca ci ccs chh cp ct cm cw cf) := rfl
                  rw [hcoln] at h10
                  have hcl1 := collectRoutesList_perm (acc ++ a)
                    (hpermC.trans hpermC2)
                  have hcl3 := collectRoutesList_perm (acc ++ a) hpermCs
                  simp only [collectRoutesList] at hcl1 hcl3
                  have hNone : List.Perm
                      (collectRoutesList (acc ++ a) (movL (cs.set idx c0') idx k))
                      ((acc ++ path, h) :: collectRoutesList (acc ++ a) cs) := by
                    refine hcl1.trans ?_
                    refine ((h10.append_right _).trans ?_)
                    rw [List.cons_append]
                    exact ((hcl3.symm).cons _)
                  simp only [collectRoutes]
                  cases hh with
                  | none =>
                    simp only [List.nil_append]
                    exact hNone
                  | some hs =>
                    simp only [List.singleton_append]
                    exact ((hNone.cons _).trans (List.Perm.swap _ _ _))
            | none =>
              rw [hidx] at heq
              by_cases hcsig :
                  List.headD (List.drop (commonPrefixLen path a) path) ' ' ≠ ':' ∧
                  List.headD (List.drop (commonPrefixLen path a) path) ' ' ≠ '*'
              · -- fresh child
                rw [if_pos hcsig] at heq
                have hd2 : List.drop (commonPrefixLen path a) path ≠ [] := by
                  intro hcon
                  have hx := congrArg List.length hcon
                  simp at hx
                  omega
                have hwfn2 := hwfn
                rw [wfB, Bool.and_eq_true] at hwfn2
                obtain ⟨hshp, hctB⟩ := hwfn2
                rw [shapeB_iff] at hshp
                simp only [Node.indices_mk, Node.wildChild_mk, Node.children_mk,
                  Node.nType_mk] at hshp
                obtain ⟨hnd, hmid, hcond3⟩ := hshp
                rw [if_neg (by simp)] at hmid
                obtain ⟨hmap0, hcclause⟩ := hmid
                have hparam0 : t = NType.param →
                    cs = [] ∧ ix = [] ∧ List.headD (List.drop (commonPrefixLen path a) path) ' ' = '/' := by
                  intro htp
                  have hgd := hguard (Or.inl htp)
                  rw [entryGuard] at hgd
                  simp only [Node.path_mk] at hgd
                  have hcchv : List.headD (List.drop (commonPrefixLen path a) path) ' ' = '/' := by
                    rw [headD_drop path (commonPrefixLen path a) ' ' (by omega)]
                    rcases hgd.2 with hx | hx
                    · omega
                    · rw [hcpla]
                      exact hx
                  rw [if_pos htp] at hmap0
                  have hcs0 : cs = [] := by
                    cases cs with
                    | nil => rfl
                    | cons x xs =>
                      cases xs with
                      | nil => exact absurd ⟨htp, hcchv, rfl⟩ hparam
                      | cons y ys =>
                        obtain ⟨hl1, -⟩ := hmap0
                        simp at hl1
                  refine ⟨hcs0, ?_, hcchv⟩
                  rcases hmap0.2 with hx | hx
                  · simpa using hx
                  · rw [hcs0] at hx
                    simpa using hx
                have hmap : ix = List.map childIndexChar cs := by
                  by_cases htp : t = NType.param
                  · obtain ⟨hcs0, hix0, -⟩ := hparam0 htp
                    rw [hcs0, hix0]
                    rfl
                  · rw [if_neg htp] at hmap0
                    exact hmap0
                have hixlen : ix.length = cs.length := by
                  rw [hmap]
                  simp
                have hraw2 : rawParamCount (List.drop (commonPrefixLen path a) path) = numParams := by
                  have hts := rawParamCount_take_drop path (commonPrefixLen path a)
                  rw [hata] at hts
                  have hselfa := raw_path_selfW _ hwfn
                  simp only [Node.path_mk] at hselfa
                  omega
                rw [show List.length (ix ++ [List.headD (List.drop (commonPrefixLen path a) path) ' ']) - 1 = cs.length from by
                  simp [hixlen]] at heq
                obtain ⟨k, hk, hicp⟩ := incrementChildPrio_spec
                  (cs ++ [Node.mk [] [] [] none 0 NType.static numParams false fullPath]) (ix ++ [List.headD (List.drop (commonPrefixLen path a) path) ' ']) cs.length (by simp)
                  (by simp [hixlen])
                rw [hicp] at heq
                rw [getD_append_length cs _ emptyNode] at heq
                simp only [Node.withPriority_mk, Node.priority_mk] at heq
                rw [set_append_length cs _ _] at heq
                have hgd2 : (movL (cs ++ [Node.mk [] [] [] none (inc32 0) NType.static numParams false fullPath]) cs.length k).getD k emptyNode =
                    Node.mk [] [] [] none (inc32 0) NType.static numParams false fullPath := by
                  rw [movL_getD_new _ _ _ _ hk (by simp)]
                  rw [← getD_eq_getElem _ _ emptyNode (by simp)]
                  exact getD_append_length _ _ _
                rw [hgd2] at heq
                cases hins : Node.insertChild numParams (List.drop (commonPrefixLen path a) path) fullPath h
                    (Node.mk [] [] [] none (inc32 0) NType.static numParams false fullPath) with
                | mk t1 e2 =>
                rw [hins] at heq
                simp only [Node.withChildren_mk, Node.withIndices_mk,
                  Option.some.injEq, Prod.mk.injEq] at heq
                obtain ⟨hn', he⟩ := heq
                subst he
                rw [movL_set_eq _ _ _ _ hk (by simp), set_append_length] at hn'
                subst hn'
                obtain ⟨I1, I2, I3, I4, I5, I6, I7, I8, I9⟩ :=
                  insertChild_wf numParams (List.drop (commonPrefixLen path a) path) fullPath h _ t1 hins rfl
                    (Or.inl rfl) hraw2 (by omega) rfl rfl rfl (fun _ => rfl)
                    (fun _ => rfl) (Or.inl rfl)
                obtain ⟨P1, P2⟩ := insertChild_pc numParams (List.drop (commonPrefixLen path a) path) fullPath h _ t1
                  hins rfl (Or.inl rfl)
                have hP2 := P2 rfl
                have hty1 : Node.nType t1 = NType.static := by simpa using I2
                have hciT : childIndexChar t1 = List.headD (List.drop (commonPrefixLen path a) path) ' ' := by
                  have hx := I3 hd2 (by
                    rintro (hy | hy)
                    · exact hcsig.1 hy
                    · exact hcsig.2 hy)
                  rw [hx]
                  cases hdd : List.drop (commonPrefixLen path a) path with
                  | nil => exact absurd hdd hd2
                  | cons e2c es2 => simp
                have hpermC : List.Perm (movL (cs ++ [t1]) cs.length k)
                    (cs ++ [t1]) := movL_perm _ _ _ hk (by simp)
                have hpermI : List.Perm (movL (ix ++ [List.headD (List.drop (commonPrefixLen path a) path) ' ']) cs.length k)
                    (ix ++ [List.headD (List.drop (commonPrefixLen path a) path) ' ']) := movL_perm _ _ _ hk (by simp [← hixlen])
                have hK8 : capCount (Node.mk a (movL (ix ++ [List.headD (List.drop (commonPrefixLen path a) path) ' ']) cs.length k)
                    (movL (cs ++ [t1]) cs.length k) hh p0 t (max m numParams)
                    false f) =
                    max (capCount (Node.mk a ix cs hh p0 t m false f))
                      (numParams + selfW (Node.mk a ix cs hh p0 t m false f)) := by
                  rw [capCount_unfold, capCount_unfold]
                  simp only [Node.children_mk]
                  rw [capCountList_perm hpermC, capCountList_append]
                  simp only [capCountList_cons, capCountList_nil, Nat.max_zero]
                  rw [I6]
                  simp only [Node.children_mk, capCountList_nil, Nat.add_zero]
                  rw [show selfW (Node.mk a (movL (ix ++ [List.headD (List.drop (commonPrefixLen path a) path) ' ']) cs.length k)
                    (movL (cs ++ [t1]) cs.length k) hh p0 t (max m numParams)
                    false f) = selfW (Node.mk a ix cs hh p0 t m false f) from rfl]
                  rcases Nat.le_total (capCountList cs) numParams with hcc2 | hcc2
                  · rw [Nat.max_eq_right hcc2, Nat.max_eq_right (by omega)]
                    omega
                  · rw [Nat.max_eq_left hcc2, Nat.max_eq_left (by omega)]
                refine ⟨?_, ?_, ?_, by simp, ?_, ?_, ?_, ?_, ?_, ?_⟩
                · rw [nodeAll_unfold, Bool.and_eq_true]
                  constructor
                  · rw [wfB, Bool.and_eq_true]
                    constructor
                    · rw [shapeB_iff]
                      simp only [Node.indices_mk, Node.wildChild_mk,
                        Node.children_mk, Node.nType_mk]
                      refine ⟨?_, ?_, ?_⟩
                      · refine (hpermI.nodup_iff).mpr ?_
                        rw [List.nodup_append]
                        refine ⟨hnd, List.nodup_singleton _, ?_⟩
                        intro x hx hx2
                        simp only [List.mem_singleton] at hx2
                        subst hx2
                        exact not_mem_of_findIdx?_none ix _ hidx hx
                      · rw [if_neg (by simp)]
                        have hIC : movL (ix ++ [List.headD (List.drop (commonPrefixLen path a) path) ' ']) cs.length k =
                            List.map childIndexChar
                              (movL (cs ++ [t1]) cs.length k) := by
                          rw [movL_map, List.map_append]
                          simp only [List.map_cons, List.map_nil]
                          rw [hciT, ← hmap]
                        constructor
                        · by_cases htp : t = NType.param
                          · rw [if_pos htp]
                            obtain ⟨hcs0, hix0, hc0⟩ := hparam0 htp
                            refine ⟨?_, Or.inr hIC⟩
                            rw [movL_length _ _ _ hk (by simp), hcs0]
                            simp
                          · rw [if_neg htp]
                            exact hIC
                        · intro c2 hc2
                          rcases List.mem_append.mp (hpermC.subset hc2) with hm | hm
                          · exact hcclause c2 hm
                          · simp only [List.mem_singleton] at hm
                            rw [hm]
                            constructor
                            · rw [hty1]
                              simp
                            · intro hcat
                              rw [hty1] at hcat
                              simp at hcat
                      · intro c2 hc2
                        rcases List.mem_append.mp (hpermC.subset hc2) with hm | hm
                        · exact hcond3 c2 hm
                        · simp only [List.mem_singleton] at hm
                          rw [hm]
                          refine ⟨by rw [hty1]; simp, I5 hd2⟩
                    · rw [contentB_fields a ix cs hh p0 t m false f]
                      exact hctB
                  · simp only [Node.children_mk]
                    apply nodeListAll_perm hpermC.symm
                    rw [nodeListAll_append, Bool.and_eq_true]
                    refine ⟨hwfc, ?_⟩
                    simp only [nodeListAll_cons, nodeListAll_nil, Bool.and_true]
                    exact I1
                · rw [nodeAll_unfold, Bool.and_eq_true]
                  constructor
                  · rw [pcOK]
                    simp only [Node.nType_mk, Node.children_mk]
                    cases hbt : (t == NType.param) with
                    | false => simp
                    | true =>
                      have htp : t = NType.param := by simpa using hbt
                      obtain ⟨hcs0, hix0, hc0⟩ := hparam0 htp
                      simp only [Bool.not_true, Bool.false_or]
                      have hkl : k ≤ 0 := by
                        rw [hcs0] at hk
                        simpa using hk
                      have hk0 : k = 0 := by omega
                      subst hk0
                      rw [hcs0]
                      simp only [List.nil_append, List.length_nil]
                      rw [movL_self _ _ (by simp)]
                      simp only [List.all_cons, List.all_nil, Bool.and_true]
                      rcases hP2 with hx | hx
                      · rw [hx]
                        simp
                      · rw [Bool.or_eq_true]
                        right
                        rw [beq_iff_eq, hx, hc0]
                  · simp only [Node.children_mk]
                    apply nodeListAll_perm hpermC.symm
                    rw [nodeListAll_append, Bool.and_eq_true]
                    refine ⟨hpcc, ?_⟩
                    simp only [nodeListAll_cons, nodeListAll_nil, Bool.and_true]
                    exact P1
                · simp only [Node.children_mk]
                  apply nodeListAll_perm hpermC.symm
                  rw [nodeListAll_append, Bool.and_eq_true]
                  refine ⟨hmpc, ?_⟩
                  simp only [nodeListAll_cons, nodeListAll_nil, Bool.and_true]
                  rw [nodeAll_unfold, Bool.and_eq_true]
                  refine ⟨?_, I7⟩
                  rw [mpOK, beq_iff_eq, I6]
                  simp only [Node.children_mk, capCountList_nil, Nat.add_zero]
                  rcases I8 with h8 | ⟨h81, h82⟩
                  · rw [h8]
                    rfl
                  · rw [h82]
                    simp only [Node.maxParams_mk]
                    rw [h81]
                    rfl
                · intro _
                  exact ⟨rfl, Iff.rfl⟩
                · intro hx
                  simp only [Node.path_mk] at hx
                  exact hEmpty hx
                · intro _
                  rfl
                · exact hK8
                · rcases hmp with ⟨h1, h2⟩ | ⟨h1, h2⟩
                  · left
                    simp only [Node.maxParams_mk]
                    rw [hK8]
                    exact h2
                  · right
                    refine ⟨h1, ?_⟩
                    simp only [Node.maxParams_mk]
                    rw [hK8]
                    exact Nat.max_le.mpr ⟨le_trans h2 (Nat.le_max_left _ _),
                      le_trans (Nat.le_add_right _ _) (Nat.le_max_right _ _)⟩
                · intro acc
                  have hstr2 : (acc ++ a) ++ List.drop (commonPrefixLen path a) path = acc ++ path := by
                    rw [List.append_assoc]
                    have hfix0 := List.take_append_drop (commonPrefixLen path a) path
                    rw [hata] at hfix0
                    rw [hfix0]
                  have h9 := I9 (acc ++ a) (Or.inl ⟨rfl, rfl, rfl⟩)
                  have hcu : collectRoutes (acc ++ a) (Node.mk [] [] [] none (inc32 0) NType.static numParams false fullPath) = [] := rfl
                  rw [hcu] at h9
                  simp only [List.nil_append, Node.path_mk] at h9
                  have hcp := collectRoutesList_perm (acc ++ a) hpermC
                  have hceq : collectRoutesList (acc ++ a) (cs ++ [t1]) =
                      collectRoutesList (acc ++ a) cs ++ [(acc ++ path, h)] := by
                    rw [collectRoutesList_append]
                    simp only [collectRoutesList, List.append_nil]
                    rw [h9, hstr2]
                  rw [hceq] at hcp
                  simp only [collectRoutes]
                  cases hh with
                  | none =>
                    simp only [List.nil_append]
                    exact hcp.trans (perm_app_one _ _)
                  | some hs =>
                    simp only [List.singleton_append]
                    exact (hcp.cons _).trans (by
                      rw [← List.cons_append]
                      exact perm_app_one _ _)
              · -- wildcard goes through insertChild on this node
                rw [if_neg hcsig] at heq
                push_neg at hcsig
                have hd2 : List.drop (commonPrefixLen path a) path ≠ [] := by
                  intro hcon
                  have := congrArg List.length hcon
                  simp at this
                  omega
                have hsig2 : List.headD (List.drop (commonPrefixLen path a) path) ' '
                    = ':' ∨
                    List.headD (List.drop (commonPrefixLen path a) path) ' ' = '*' := by
                  by_cases hcol : List.headD (List.drop (commonPrefixLen path a) path)
                      ' ' = ':'
                  · exact Or.inl hcol
                  · exact Or.inr (hcsig hcol)
                have ht : t = .static ∨ t = .root := by
                  cases htc : t with
                  | static => exact Or.inl rfl
                  | root => exact Or.inr rfl
                  | param =>
                    exfalso
                    have hg := hguard (by rw [htc]; exact Or.inl rfl)
                    rw [entryGuard] at hg
                    simp only [Node.path_mk] at hg
                    rcases hg.2 with hg2 | hg2
                    · omega
                    · rw [headD_drop path (commonPrefixLen path a) ' ' hlen] at hsig2
                      rw [hcpla] at hsig2
                      rcases hsig2 with hx | hx <;> rw [hg2] at hx <;> simp at hx
                  | catchAll =>
                    exfalso
                    have hg := hguard (by rw [htc]; exact Or.inr rfl)
                    rw [entryGuard] at hg
                    simp only [Node.path_mk] at hg
                    rcases hg.2 with hg2 | hg2
                    · omega
                    · rw [headD_drop path (commonPrefixLen path a) ' ' hlen] at hsig2
                      rw [hcpla] at hsig2
                      rcases hsig2 with hx | hx <;> rw [hg2] at hx <;> simp at hx
                have hself : selfW (Node.mk a ix cs hh p0 t m false f) = 0 :=
                  selfW_zero _ (by simp only [Node.nType_mk]; exact ht)
                rw [hself] at hraw hlt hmp
                have hns : noSigil a = true := by
                  have hwfn2 := hwfn
                  rw [wfB, Bool.and_eq_true, contentB_iff] at hwfn2
                  exact hwfn2.2.1 (by simpa using ht)
                have hraw2 : rawParamCount (List.drop (commonPrefixLen path a) path)
                    = numParams := by
                  have hts := rawParamCount_take_drop path (commonPrefixLen path a)
                  rw [hata] at hts
                  have hz : rawParamCount a = 0 := (noSigil_iff a).mp hns
                  omega
                have hnum1 : 1 ≤ numParams := by
                  rw [← hraw2]
                  cases hdd : List.drop (commonPrefixLen path a) path with
                  | nil => exact absurd hdd hd2
                  | cons c2 cs2 =>
                    rw [hdd] at hsig2
                    simp only [List.headD_cons] at hsig2
                    rw [rawParamCount_cons, if_pos hsig2]
                    omega
                obtain ⟨w2, v2, hfw2⟩ := sigil_findWildcard _ hd2 hsig2
                simp only [Option.some.injEq, Prod.mk.injEq] at heq
                have hcs0 : cs = [] := by
                  obtain ⟨k, hk⟩ : ∃ k, numParams = k + 1 := ⟨numParams - 1, by omega⟩
                  rw [hk] at heq
                  have := insertChild_success_children k _ fullPath h _ w2 0 v2
                    hfw2 heq.2
                  simpa using this
                subst hcs0
                have hins : Node.insertChild numParams
                    (List.drop (commonPrefixLen path a) path) fullPath h
                    (Node.mk a ix [] hh p0 t (max m numParams) false f) = (n', none) := by
                  rw [← heq.1, ← heq.2]
                have hwfn1 : wfB (Node.mk a ix [] hh p0 t (max m numParams) false f)
                    = true := by
                  rw [show wfB (Node.mk a ix [] hh p0 t (max m numParams) false f) =
                    wfB (Node.mk a ix [] hh p0 t m false f) from rfl]
                  exact hwfn
                obtain ⟨I1, I2, I3, I4, I5, I6, I7, I8, I9⟩ :=
                  insertChild_wf numParams _ fullPath h _ n' hins rfl
                    (by simp only [Node.nType_mk]; exact ht) hraw2 (by omega) hwfn1
                    (by simp) (by simp) (fun _ => rfl) (by
                      simp only [Node.path_mk, Node.handlers_mk]
                      exact hEmpty)
                    (Or.inr ⟨w2, v2, hfw2⟩)
                obtain ⟨P1, P2⟩ := insertChild_pc numParams _ fullPath h _ n' hins
                  rfl (by simp only [Node.nType_mk]; exact ht)
                obtain ⟨hp4, hh4⟩ := I4 w2 v2 hfw2
                simp only [Node.path_mk, Node.handlers_mk] at hp4 hh4
                have hcap0 : capCount (Node.mk a ix ([] : List Node) hh p0 t m false f)
                    = 0 := by
                  rw [capCount_unfold]
                  simp only [Node.children_mk, capCountList_nil]
                  rw [hself]
                have hcapn : capCount n' = numParams := by
                  rw [I6]
                  simp
                have hmle : m ≤ numParams := by
                  rcases hmp with ⟨h1, h2⟩ | ⟨h1, h2⟩
                  · rw [hcap0] at h2
                    rcases Nat.le_total m numParams with hle | hle
                    · exact hle
                    · rw [Nat.max_eq_left hle, Nat.max_eq_right (by omega)] at h2
                      omega
                  · rw [hcap0] at h2
                    omega
                have hmp' : Node.maxParams n' = numParams := by
                  rcases I8 with h8 | ⟨h81, h82⟩
                  · simp only [Node.maxParams_mk] at h8
                    rw [h8]
                    omega
                  · simp only [Node.maxParams_mk] at h82
                    rw [h82]
                    omega
                refine ⟨I1, P1, I7, by simpa using I2, ?_, ?_, ?_, ?_, ?_, ?_⟩
                · intro _
                  constructor
                  · rw [childIndexChar, childIndexChar, hp4]
                    simp
                  · rw [hp4]
                    simp
                · intro hc
                  rw [hh4]
                  rw [hp4] at hc
                  exact hEmpty hc
                · intro hx
                  exfalso
                  rcases ht with ht2 | ht2 <;> rw [ht2] at hx <;>
                    rcases hx with hx | hx <;> simp at hx
                · rw [hcapn, hcap0]
                  omega
                · left
                  rw [hmp', hcapn]
                · intro acc
                  have h9 := I9 acc (Or.inr ⟨w2, v2, hfw2⟩)
                  simp only [Node.path_mk] at h9
                  have hfix : a ++ List.drop (commonPrefixLen path a) path = path := by
                    have hfix0 := List.take_append_drop (commonPrefixLen path a) path
                    rw [hata] at hfix0
                    exact hfix0
                  rw [hfix] at h9
                  have hcoln : collectRoutes acc (Node.mk a ix ([] : List Node) hh p0 t
                      (max m numParams) false f) = collectRoutes acc
                      (Node.mk a ix [] hh p0 t m false f) := rfl
                  rw [hcoln] at h9
                  rw [h9]
                  exact List.perm_append_comm
      · -- terminal: attach handlers here
        rw [if_neg hlen] at heq
        have hpa : path = a := by
          have h1 : commonPrefixLen path a = path.length := by omega
          rw [← hata, h1, List.take_length]
        cases hh with
        | some hs =>
          exfalso
          rw [if_pos (by simp)] at heq
          simp at heq
        | none =>
          simp only [Node.handlers_mk, Option.isSome_none, Bool.false_eq_true,
            if_false, Node.withHandlers_mk, Option.some.injEq, Prod.mk.injEq] at heq
          obtain ⟨hn', -⟩ := heq
          subst hn'
          subst hpa
          have hnum0 : numParams = 0 := by
            have hrs := raw_path_selfW (Node.mk path ix cs none p0 t m w0 f) hwfn
            simp only [Node.path_mk] at hrs
            omega
          subst hnum0
          rw [wfB, Bool.and_eq_true] at hwfn
          obtain ⟨hsh, hct⟩ := hwfn
          have hct' : contentB (Node.mk path ix cs (some h) p0 t (max m 0) w0 f)
              = true := by
            rw [contentB_iff] at hct ⊢
            simp only [Node.nType_mk, Node.path_mk, Node.wildChild_mk,
              Node.handlers_mk] at hct ⊢
            refine ⟨hct.1, hct.2.1, fun hca => ?_⟩
            rcases hct.2.2 hca with ⟨hw, hpe⟩ | ⟨-, hhs, -⟩
            · exact absurd hpe hpne
            · simp at hhs
          refine ⟨?_, ?_, ?_, by simp, ?_, ?_, ?_, ?_, ?_, ?_⟩
          · rw [nodeAll_unfold]
            simp only [Node.children_mk, Bool.and_eq_true]
            refine ⟨?_, by simpa using hwfc⟩
            rw [wfB, Bool.and_eq_true]
            refine ⟨?_, hct'⟩
            rw [shapeB_fields path ix cs none p0 t m w0 f path (some h) p0
              (max m 0) f]
            exact hsh
          · rw [nodeAll_unfold]
            simp only [Node.children_mk, Bool.and_eq_true]
            refine ⟨?_, by simpa using hpcc⟩
            have he : pcOK (Node.mk path ix cs (some h) p0 t (max m 0) w0 f) =
                pcOK (Node.mk path ix cs none p0 t m w0 f) := rfl
            rw [he]
            exact hpcn
          · simp only [Node.children_mk]
            exact hmpc
          · intro _
            exact ⟨rfl, Iff.rfl⟩
          · intro hc
            simp only [Node.path_mk] at hc
            exact absurd hc hpne
          · intro _
            rfl
          · have he : capCount (Node.mk path ix cs (some h) p0 t (max m 0) w0 f) =
                capCount (Node.mk path ix cs none p0 t m w0 f) := rfl
            have h3 := selfW_le_capCount (Node.mk path ix cs none p0 t m w0 f)
            rw [he]
            exact (Nat.max_eq_left (by omega)).symm
          · have he : capCount (Node.mk path ix cs (some h) p0 t (max m 0) w0 f) =
                capCount (Node.mk path ix cs none p0 t m w0 f) := rfl
            have h3 := selfW_le_capCount (Node.mk path ix cs none p0 t m w0 f)
            rcases hmp with ⟨h1, h2⟩ | ⟨h1, h2⟩
            · left
              simp only [Node.maxParams_mk]
              rw [he]
              rw [Nat.max_eq_left (by omega : 0 + selfW
                (Node.mk path ix cs none p0 t m w0 f) ≤ capCount
                (Node.mk path ix cs none p0 t m w0 f))] at h2
              rw [Nat.max_eq_left (Nat.zero_le m)]
              omega
            · right
              refine ⟨h1, ?_⟩
              simp only [Node.maxParams_mk]
              rw [he]
              rw [Nat.max_eq_left (Nat.zero_le m)]
              exact h2
          · intro acc
            simp only [collectRoutes, List.singleton_append, List.nil_append]
            exact List.Perm.refl _

theorem rootInv_empty : rootInv emptyNode := by
  refine ⟨by decide, by decide, by decide, fun _ => rfl, Or.inl (by decide),
    Or.inr rfl⟩

theorem countParams_eq (path : Str) (h : rawParamCount path < 255) :
    countParams path = rawParamCount path := by
  rw [countParams]
  exact if_neg (by omega)

theorem addRoute_wf (n : Node) (path : Str) (h : HandlersChain) (n' : Node)
    (heq : Node.addRoute n path h = (n', none))
    (hpne : path ≠ []) (hraw : rawParamCount path < 255)
    (hinv : rootInv n) :
    rootInv n' ∧ ∀ acc : Str,
      List.Perm (collectRoutes acc n') ((acc ++ path, h) :: collectRoutes acc n) := by
  obtain ⟨hwf, hpc, hmpc, hEmpty, hmp, htype⟩ := hinv
  rw [Node.addRoute] at heq
  cases hF : Node.addRouteF (nodeSize n) n path h with
  | none =>
    rw [hF] at heq
    simp only [Option.getD_none, Prod.mk.injEq] at heq
    cases heq.2
  | some pr =>
    obtain ⟨n2, e⟩ := pr
    rw [hF] at heq
    simp only [Option.getD_some, Prod.mk.injEq] at heq
    obtain ⟨h1, h2⟩ := heq
    subst h1
    subst h2
    rw [Node.addRouteF] at hF
    rw [countParams_eq path hraw] at hF
    obtain ⟨a, ix, cs, hh, p0, t, m, w0, f⟩ := n
    simp only [Node.withPriority_mk, Node.priority_mk, Node.path_mk,
      Node.children_mk, Node.nType_mk, Node.maxParams_mk,
      Node.handlers_mk] at hF hEmpty hmp htype ⊢
    by_cases hempty : a = [] ∧ List.isEmpty cs = true
    · rw [if_pos hempty] at hF
      obtain ⟨ha0, hcs0⟩ := hempty
      rw [List.isEmpty_iff] at hcs0
      subst ha0
      subst hcs0
      have hh0 : hh = none := hEmpty rfl
      subst hh0
      have hwild : w0 = false := by
        rw [nodeAll_unfold, Bool.and_eq_true] at hwf
        have hsh := hwf.1
        rw [wfB, Bool.and_eq_true] at hsh
        have hsh2 := hsh.1
        rw [shapeB_iff] at hsh2
        simp only [Node.indices_mk, Node.wildChild_mk, Node.children_mk] at hsh2
        obtain ⟨-, hmid, -⟩ := hsh2
        cases hw : w0 with
        | false => rfl
        | true =>
          rw [hw] at hmid
          rw [if_pos rfl] at hmid
          obtain ⟨-, w1, hw1, -⟩ := hmid
          cases hw1
      subst hwild
      cases hins : Node.insertChild (rawParamCount path) path path h
          (Node.mk [] ix [] none (inc32 p0) t m false f) with
      | mk r1 e1 =>
      rw [hins] at hF
      by_cases he1 : e1.isSome = true
      · rw [if_pos he1] at hF
        simp only [Option.some.injEq, Prod.mk.injEq] at hF
        rw [hF.2] at he1
        simp at he1
      · rw [if_neg he1] at hF
        simp only [Option.some.injEq, Prod.mk.injEq] at hF
        obtain ⟨hn2, -⟩ := hF
        have he1n : e1 = none := by
          cases e1 with
          | none => rfl
          | some x => simp at he1
        subst he1n
        have hm0 : m = 0 := by
          rcases hmp with hmp | ⟨-, hmp⟩ <;>
          · rw [capCount_unfold] at hmp
            simp only [Node.children_mk, capCountList_nil] at hmp
            rw [selfW_zero _ (by simp only [Node.nType_mk]; exact htype.symm)] at hmp
            omega
        subst hm0
        obtain ⟨I1, I2, I3, I4, I5, I6, I7, I8, I9⟩ :=
          insertChild_wf (rawParamCount path) path path h _ r1 hins rfl
            (by simp only [Node.nType_mk]; exact htype.symm)
            rfl hraw
            (by
              rw [nodeAll_unfold, Bool.and_eq_true] at hwf
              have := hwf.1
              rwa [show wfB (Node.mk [] ix [] none (inc32 p0) t 0 false f) =
                wfB (Node.mk [] ix [] none p0 t 0 false f) from rfl])
            rfl rfl (fun _ => rfl) (fun _ => rfl) (Or.inl rfl)
        obtain ⟨P1, P2⟩ := insertChild_pc (rawParamCount path) path path h _ r1
          hins rfl (by simp only [Node.nType_mk]; exact htype.symm)
        obtain ⟨ra, rix, rcs, rhh, rp, rt, rm, rw0, rf⟩ := r1
        simp only [Node.withNType_mk] at hn2
        subst hn2
        have hrt : rt = t := by simpa using I2
        constructor
        · refine ⟨?_, ?_, ?_, ?_, ?_, Or.inl rfl⟩
          · rw [nodeAll_unfold, Bool.and_eq_true] at I1 ⊢
            refine ⟨?_, by simpa using I1.2⟩
            have hsh := I1.1
            rw [wfB, Bool.and_eq_true] at hsh ⊢
            constructor
            · rw [shapeB_iff] at hsh ⊢
              simp only [Node.indices_mk, Node.wildChild_mk, Node.children_mk,
                Node.nType_mk, Node.path_mk, Node.handlers_mk] at hsh ⊢
              obtain ⟨s1, s2, s3⟩ := hsh.1
              refine ⟨s1, ?_, s3⟩
              by_cases hw2 : rw0 = true
              · rw [if_pos hw2] at s2 ⊢
                exact s2
              · rw [if_neg hw2] at s2 ⊢
                refine ⟨?_, s2.2⟩
                rw [if_neg (by simp)]
                rw [hrt] at s2
                rcases htype with ht2 | ht2 <;> rw [ht2] at s2
                · rw [if_neg (by simp)] at s2
                  exact s2.1
                · rw [if_neg (by simp)] at s2
                  exact s2.1
            · rw [contentB_iff] at hsh ⊢
              simp only [Node.nType_mk, Node.path_mk] at hsh ⊢
              refine ⟨fun _ => ?_, by simp, by simp⟩
              exact hsh.2.1 (by rw [hrt]; exact htype.symm)
          · rw [nodeAll_unfold, Bool.and_eq_true] at P1 ⊢
            refine ⟨?_, by simpa using P1.2⟩
            exact pcOK_vacuous _ (by simp)
          · simpa using I7
          · intro hra
            simp only [Node.path_mk] at hra
            simp only [Node.handlers_mk]
            exact I5 hpne hra
          · right
            refine ⟨rfl, ?_⟩
            simp only [Node.maxParams_mk]
            rw [show capCount (Node.mk ra rix rcs rhh rp NType.root rm rw0 rf) =
              capCount (Node.mk ra rix rcs rhh rp rt rm rw0 rf) from by
                rw [capCount_unfold, capCount_unfold]
                rw [selfW_zero _ (by simp only [Node.nType_mk]; exact Or.inr trivial)]
                rw [selfW_zero _ (by
                  simp only [Node.nType_mk]
                  rw [hrt]
                  exact htype.symm)]
                simp only [Node.children_mk]]
            rw [show capCount (Node.mk ra rix rcs rhh rp rt rm rw0 rf) =
              rawParamCount path + capCountList [] from I6]
            simp only [capCountList_nil, Nat.add_zero]
            rcases I8 with h8 | ⟨h81, h82⟩
            · simp only [Node.maxParams_mk] at h8
              omega
            · simp only [Node.maxParams_mk] at h82
              omega
        · intro acc
          have h9 := I9 acc (Or.inl ⟨rfl, rfl, rfl⟩)
          simp only [Node.path_mk, List.nil_append] at h9
          rw [show collectRoutes acc
            (Node.mk ra rix rcs rhh rp NType.root rm rw0 rf) =
            collectRoutes acc (Node.mk ra rix rcs rhh rp rt rm rw0 rf) from rfl]
          rw [h9]
          rw [show collectRoutes acc
            (Node.mk [] ix [] none (inc32 p0) t 0 false f) = [] from rfl]
          rw [show collectRoutes acc (Node.mk [] ix [] none p0 t 0 false f) = []
            from rfl]
          simp
    · rw [if_neg hempty] at hF
      have hself : selfW (Node.mk a ix cs hh p0 t m w0 f) = 0 :=
        selfW_zero _ (by simp only [Node.nType_mk]; exact htype.symm)
      obtain ⟨K1, K2, K3, K4, K5, K6, K7, K8, K9, K10⟩ :=
        addRouteW_wf (nodeSize (Node.mk a ix cs hh p0 t m w0 f)) _
          (rawParamCount path) path path 0 h n2 hF hpne
          (by rw [nodeAll_wfB_pm a ix cs hh p0 _ t m]; exact hwf)
          (by rw [nodeAll_pcOK_pm a ix cs hh p0 _ t m]; exact hpc)
          (by simp only [Node.children_mk]; exact hmpc)
          (by
            rw [show selfW (Node.mk a ix cs hh (inc32 p0) t m w0 f) =
              selfW (Node.mk a ix cs hh p0 t m w0 f) from rfl, hself]
            omega)
          (by
            rw [show selfW (Node.mk a ix cs hh (inc32 p0) t m w0 f) =
              selfW (Node.mk a ix cs hh p0 t m w0 f) from rfl, hself]
            omega)
          (by
            simp only [Node.maxParams_mk, Node.nType_mk]
            rw [show capCount (Node.mk a ix cs hh (inc32 p0) t m w0 f) =
              capCount (Node.mk a ix cs hh p0 t m w0 f) from rfl]
            rw [show selfW (Node.mk a ix cs hh (inc32 p0) t m w0 f) =
              selfW (Node.mk a ix cs hh p0 t m w0 f) from rfl, hself]
            rcases hmp with hmp | ⟨hmt, hmp⟩
            · left
              rw [hmp]
              exact ⟨Nat.le_refl _, rfl⟩
            · right
              exact ⟨hmt, hmp⟩)
          (by
            intro hx
            simp only [Node.nType_mk] at hx
            rcases htype with ht2 | ht2 <;> rw [ht2] at hx <;>
              rcases hx with hx | hx <;> simp at hx)
          (by
            simp only [Node.path_mk, Node.handlers_mk]
            exact hEmpty)
      constructor
      · refine ⟨K1, K2, K3, ?_, ?_, ?_⟩
        · intro hx
          exact K6 hx
        · rcases K9 with h9 | ⟨h9, h92⟩
          · left
            exact h9
          · right
            refine ⟨?_, h92⟩
            rw [K4]
            simpa using h9
        · rw [K4]
          simpa using htype
      · intro acc
        have := K10 acc
        rwa [show collectRoutes acc (Node.mk a ix cs hh (inc32 p0) t m w0 f) =
          collectRoutes acc (Node.mk a ix cs hh p0 t m w0 f) from rfl] at this

theorem buildFrom_wf : ∀ (rs : List (Str × HandlersChain)) (t t' : Node),
    buildFrom t rs = some t' → rootInv t →
    (∀ r ∈ rs, r.1 ≠ [] ∧ rawParamCount r.1 < 255) →
    rootInv t' := by
  intro rs
  induction rs with
  | nil =>
    intro t t' hb hinv _
    rw [buildFrom] at hb
    simp only [Option.some.injEq] at hb
    subst hb
    exact hinv
  | cons r rs ih =>
    intro t t' hb hinv hok
    rw [buildFrom] at hb
    cases hr : Node.addRoute t r.1 r.2 with
    | mk t1 e1 =>
    rw [hr] at hb
    cases e1 with
    | some x => simp at hb
    | none =>
      simp only [] at hb
      have hk := hok r (List.mem_cons_self r rs)
      have step := addRoute_wf t r.1 r.2 t1 hr hk.1 hk.2 hinv
      exact ih t1 t' hb step.1 (fun x hx => hok x (List.mem_cons_of_mem r hx))

theorem buildTree_wf (rs : List (Str × HandlersChain)) (t : Node)
    (hb : buildTree rs = some t)
    (hok : ∀ r ∈ rs, r.1 ≠ [] ∧ rawParamCount r.1 < 255) :
    rootInv t := by
  rw [buildTree] at hb
  exact buildFrom_wf rs emptyNode t hb rootInv_empty hok

theorem getD_of_le (l : List α) (d : α) (i : Nat) (h : l.length ≤ i) :
    l.getD i d = d := by
  rw [List.getD_eq_getElem?_getD, List.getElem?_eq_none h]
  rfl

theorem capCountList_le_of_mem : ∀ {cs : List Node} {c : Node}, c ∈ cs →
    capCount c ≤ capCountList cs := by
  intro cs
  induction cs with
  | nil =>
    intro c hc
    cases hc
  | cons d ds ih =>
    intro c hc
    rw [capCountList_cons]
    cases hc with
    | head => exact Nat.le_max_left _ _
    | tail _ hm => exact le_trans (ih hm) (Nat.le_max_right _ _)

theorem capCount_child_le (n : Node) (i : Nat) :
    capCount (n.children.getD i emptyNode) ≤ capCount n := by
  rw [capCount_unfold n]
  by_cases hi : i < n.children.length
  · have hm : n.children.getD i emptyNode ∈ n.children := by
      rw [getD_eq_getElem _ _ _ hi]
      exact List.getElem_mem _
    have := capCountList_le_of_mem hm
    omega
  · rw [getD_of_le _ _ _ (by omega)]
    have : capCount emptyNode = 0 := rfl
    omega

theorem nodeAll_child (P : Node → Bool) (n : Node) (i : Nat)
    (h : nodeAll P n = true) :
    nodeAll P (n.children.getD i emptyNode) = true ∨
      n.children.getD i emptyNode = emptyNode := by
  by_cases hi : i < n.children.length
  · left
    rw [nodeAll_unfold, Bool.and_eq_true] at h
    refine (nodeListAll_forall _ _).mp h.2 _ ?_
    rw [getD_eq_getElem _ _ _ hi]
    exact List.getElem_mem _
  · right
    exact getD_of_le _ _ _ (by omega)

theorem nodeListAll_child (P : Node → Bool) (cs : List Node) (i : Nat)
    (h : nodeListAll P cs = true) :
    nodeAll P (cs.getD i emptyNode) = true ∨ cs.getD i emptyNode = emptyNode := by
  by_cases hi : i < cs.length
  · left
    refine (nodeListAll_forall _ _).mp h _ ?_
    rw [getD_eq_getElem _ _ _ hi]
    exact List.getElem_mem _
  · right
    exact getD_of_le _ _ _ (by omega)

theorem getValueW_bound :
    ∀ (fuel : Nat) (n : Node) (path : Str) (po : PBuf) (u : Bool) (r : NodeValue),
      Node.getValueW fuel n path po u = some (.ok r) →
      nodeAll wfB n = true →
      nodeListAll mpOK n.children = true →
      po.data.length + capCount n ≤ po.cap →
      r.params.cap = po.cap ∧
      r.params.data.length ≤ po.data.length + capCount n ∧
      po.data <+: r.params.data := by
  intro fuel
  induction fuel with
  | zero =>
    intro n path po u r heq
    rw [Node.getValueW] at heq
    cases heq
  | succ fuel ih =>
    intro n path po u r heq hwf hmpc hcap
    rw [Node.getValueW] at heq
    obtain ⟨a, ix, cs, hh, p, t, m, w, f⟩ := n
    simp only [Node.path_mk, Node.handlers_mk, Node.wildChild_mk, Node.nType_mk,
      Node.indices_mk, Node.children_mk, Node.fullPath_mk] at heq
    simp only [Node.children_mk] at hmpc
    by_cases hpp : path = a
    · rw [if_pos hpp] at heq
      by_cases hhs : hh.isSome = true
      · rw [if_pos hhs] at heq
        simp only [Option.some.injEq, Except.ok.injEq] at heq
        subst heq
        refine ⟨rfl, ?_, List.prefix_refl _⟩
        show po.data.length ≤ po.data.length + capCount _
        omega
      · rw [if_neg hhs] at heq
        by_cases htsr : path = ['/'] ∧ w = true ∧ ¬t = NType.root
        · rw [if_pos htsr] at heq
          simp only [Option.some.injEq, Except.ok.injEq] at heq
          subst heq
          refine ⟨rfl, ?_, List.prefix_refl _⟩
          show po.data.length ≤ po.data.length + capCount _
          omega
        · rw [if_neg htsr] at heq
          cases hidx : List.findIdx? (fun x => x == '/') ix 0 with
          | some i =>
            rw [hidx] at heq
            simp only [] at heq
            by_cases hc1 : (cs.getD i emptyNode).path.length = 1 ∧
                (cs.getD i emptyNode).handlers.isSome = true
            · rw [if_pos hc1] at heq
              simp only [Option.some.injEq, Except.ok.injEq] at heq
              subst heq
              refine ⟨rfl, ?_, List.prefix_refl _⟩
              show po.data.length ≤ po.data.length + capCount _
              omega
            · rw [if_neg hc1] at heq
              by_cases hc2 : (cs.getD i emptyNode).nType = NType.catchAll
              · rw [if_pos hc2] at heq
                cases hcc : (cs.getD i emptyNode).children with
                | nil =>
                  rw [hcc] at heq
                  simp only [] at heq
                  simp at heq
                | cons c0 crest =>
                  rw [hcc] at heq
                  simp only [] at heq
                  simp only [Option.some.injEq, Except.ok.injEq] at heq
                  subst heq
                  refine ⟨rfl, ?_, List.prefix_refl _⟩
                  show po.data.length ≤ po.data.length + capCount _
                  omega
              · rw [if_neg hc2] at heq
                simp only [Option.some.injEq, Except.ok.injEq] at heq
                subst heq
                refine ⟨rfl, ?_, List.prefix_refl _⟩
                show po.data.length ≤ po.data.length + capCount _
                omega
          | none =>
            rw [hidx] at heq
            simp only [] at heq
            simp only [Option.some.injEq, Except.ok.injEq] at heq
            subst heq
            refine ⟨rfl, ?_, List.prefix_refl _⟩
            show po.data.length ≤ po.data.length + capCount _
            omega
    · rw [if_neg hpp] at heq
      by_cases hlong : path.length > a.length ∧ path.take a.length = a
      · rw [if_pos hlong] at heq
        by_cases hw : w = false
        · rw [if_pos hw] at heq
          cases hidx : List.findIdx? (fun x => x ==
              (path.drop a.length).headD ' ') ix 0 with
          | some i =>
            rw [hidx] at heq
            simp only [] at heq
            have hwf2 := hwf
            rw [nodeAll_unfold, Bool.and_eq_true] at hwf2
            have hwfc0 : nodeListAll wfB cs = true := by simpa using hwf2.2
            have hcapc := capCount_child_le (Node.mk a ix cs hh p t m w f) i
            simp only [Node.children_mk] at hcapc
            rcases nodeListAll_child wfB cs i hwfc0 with hcw | hce
            · rcases nodeListAll_child mpOK cs i hmpc with hcm | hce2
              · have hcm2 := hcm
                rw [nodeAll_unfold, Bool.and_eq_true] at hcm2
                obtain ⟨R1, R2, R3⟩ := ih _ _ _ _ _ heq hcw hcm2.2
                  (by omega)
                exact ⟨R1, by omega, R3⟩
              · rw [hce2] at heq hcapc
                obtain ⟨R1, R2, R3⟩ := ih _ _ _ _ _ heq (by decide) (by decide)
                  (by
                    have hz : capCount emptyNode = 0 := rfl
                    omega)
                have hz : capCount emptyNode = 0 := rfl
                exact ⟨R1, by omega, R3⟩
            · rw [hce] at heq hcapc
              obtain ⟨R1, R2, R3⟩ := ih _ _ _ _ _ heq (by decide) (by decide)
                (by
                  have hz : capCount emptyNode = 0 := rfl
                  omega)
              have hz : capCount emptyNode = 0 := rfl
              exact ⟨R1, by omega, R3⟩
          | none =>
            rw [hidx] at heq
            simp only [] at heq
            simp only [Option.some.injEq, Except.ok.injEq] at heq
            subst heq
            refine ⟨rfl, ?_, List.prefix_refl _⟩
            show po.data.length ≤ po.data.length + capCount _
            omega
        · have hw1 : w = true := by
            cases w
            · exact absurd rfl hw
            · rfl
          subst hw1
          rw [if_neg (by simp)] at heq
          -- the wild child is the single child w1
          have hwf2 := hwf
          rw [nodeAll_unfold, Bool.and_eq_true] at hwf2
          obtain ⟨hwfn, hwfc⟩ := hwf2
          have hsh := hwfn
          rw [wfB, Bool.and_eq_true] at hsh
          rw [shapeB_iff] at hsh
          simp only [Node.indices_mk, Node.wildChild_mk, Node.children_mk,
            Node.nType_mk] at hsh
          obtain ⟨⟨-, hmid, -⟩, -⟩ := hsh
          rw [if_pos trivial] at hmid
          obtain ⟨-, w1, hcs1, hwty⟩ := hmid
          subst hcs1
          simp only [List.getD_cons_zero] at heq
          simp only [Node.children_mk, nodeListAll_cons, nodeListAll_nil,
            Bool.and_true] at hwfc hmpc
          have hw1mp : Node.maxParams w1 = capCount w1 := by
            have := hmpc
            rw [nodeAll_unfold, Bool.and_eq_true] at this
            have h2 := this.1
            rw [mpOK, beq_iff_eq] at h2
            exact h2
          have hcapw : capCount w1 ≤
              capCount (Node.mk a ix [w1] hh p t m true f) := by
            rw [capCount_unfold (Node.mk a ix [w1] hh p t m true f)]
            simp only [Node.children_mk, capCountList_cons, capCountList_nil,
              Nat.max_zero]
            omega
          have hselfw1 : 1 ≤ capCount w1 := by
            have hle := selfW_le_capCount w1
            have h1 : selfW w1 = 1 := by
              rw [selfW, if_pos]
              constructor
              · rcases hwty with hx | ⟨hx, -⟩
                · exact Or.inl hx
                · exact Or.inr hx
              · rcases hwty with hx | ⟨-, hx⟩
                · have hcw := hwfc
                  rw [nodeAll_unfold, Bool.and_eq_true] at hcw
                  have hc2 := hcw.1
                  rw [wfB, Bool.and_eq_true, contentB_iff] at hc2
                  obtain ⟨-, nm, hpn, -⟩ := hc2.2.2.1 hx
                  rw [hpn]
                  simp
                · exact hx
            omega
          cases hnt : Node.nType w1 with
          | param =>
            rw [hnt] at heq
            simp only [] at heq
            rw [if_neg (show ¬po.cap < w1.maxParams by
              rw [hw1mp]
              omega)] at heq
            rw [if_neg (show ¬po.data.length + 1 > po.cap by omega)] at heq
            by_cases hend : ((path.drop a.length).findIdx? (fun x => x == '/')).getD
                (path.drop a.length).length < (path.drop a.length).length
            · rw [if_pos hend] at heq
              by_cases hwce : ¬List.isEmpty (Node.children w1) = true
              · rw [if_pos hwce] at heq
                -- recursion into the grandchild
                have hcw2 := hwfc
                rw [nodeAll_unfold, Bool.and_eq_true] at hcw2
                have hmp2 := hmpc
                rw [nodeAll_unfold, Bool.and_eq_true] at hmp2
                have hcap2 : capCount (Node.children w1 |>.getD 0 emptyNode) + 1 ≤
                    capCount w1 := by
                  have h1 : selfW w1 = 1 := by
                    rw [selfW, if_pos]
                    exact ⟨Or.inl hnt, by
                      have hcw := hwfc
                      rw [nodeAll_unfold, Bool.and_eq_true] at hcw
                      have hc2 := hcw.1
                      rw [wfB, Bool.and_eq_true, contentB_iff] at hc2
                      obtain ⟨-, nm, hpn, -⟩ := hc2.2.2.1 hnt
                      rw [hpn]
                      simp⟩
                  rw [capCount_unfold w1, h1]
                  by_cases hi : 0 < (Node.children w1).length
                  · have hm : (Node.children w1).getD 0 emptyNode ∈
                        Node.children w1 := by
                      rw [getD_eq_getElem _ _ _ hi]
                      exact List.getElem_mem _
                    have := capCountList_le_of_mem hm
                    omega
                  · rw [getD_of_le _ _ _ (by omega)]
                    have : capCount emptyNode = 0 := rfl
                    omega
                rcases nodeListAll_child wfB (Node.children w1) 0 hcw2.2 with
                    hgw | hge
                · rcases nodeListAll_child mpOK (Node.children w1) 0 hmp2.2 with
                      hgm | hge2
                  · have hgm2 := hgm
                    rw [nodeAll_unfold, Bool.and_eq_true] at hgm2
                    obtain ⟨R1, R2, R3⟩ := ih _ _ _ _ _ heq hgw hgm2.2
                      (by
                        simp only []
                        rw [List.length_append, List.length_cons, List.length_nil]
                        omega)
                    refine ⟨R1, ?_, ?_⟩
                    · simp only [] at R2
                      rw [List.length_append, List.length_cons,
                        List.length_nil] at R2
                      omega
                    · refine List.IsPrefix.trans ?_ R3
                      exact ⟨_, rfl⟩
                  · rw [hge2] at heq
                    obtain ⟨R1, R2, R3⟩ := ih _ _ _ _ _ heq (by decide) (by decide)
                      (by
                        have : capCount emptyNode = 0 := rfl
                        simp only []
                        rw [List.length_append, List.length_cons, List.length_nil]
                        omega)
                    refine ⟨R1, ?_, ?_⟩
                    · have : capCount emptyNode = 0 := rfl
                      simp only [] at R2
                      rw [List.length_append, List.length_cons,
                        List.length_nil] at R2
                      omega
                    · refine List.IsPrefix.trans ?_ R3
                      exact ⟨_, rfl⟩
                · rw [hge] at heq
                  obtain ⟨R1, R2, R3⟩ := ih _ _ _ _ _ heq (by decide) (by decide)
                    (by
                      have : capCount emptyNode = 0 := rfl
                      simp only []
                      rw [List.length_append, List.length_cons, List.length_nil]
                      omega)
                  refine ⟨R1, ?_, ?_⟩
                  · have : capCount emptyNode = 0 := rfl
                    simp only [] at R2
                    rw [List.length_append, List.length_cons,
                      List.length_nil] at R2
                    omega
                  · refine List.IsPrefix.trans ?_ R3
                    exact ⟨_, rfl⟩
              · rw [if_neg hwce] at heq
                simp only [Option.some.injEq, Except.ok.injEq] at heq
                subst heq
                refine ⟨rfl, ?_, ⟨_, rfl⟩⟩
                show (po.data ++ [_]).length ≤ po.data.length +
                  capCount (Node.mk a ix [w1] hh p t m true f)
                rw [List.length_append, List.length_cons, List.length_nil]
                omega
            · rw [if_neg hend] at heq
              by_cases hwh : (Node.handlers w1).isSome = true
              · rw [if_pos hwh] at heq
                simp only [Option.some.injEq, Except.ok.injEq] at heq
                subst heq
                refine ⟨rfl, ?_, ⟨_, rfl⟩⟩
                show (po.data ++ [_]).length ≤ po.data.length +
                  capCount (Node.mk a ix [w1] hh p t m true f)
                rw [List.length_append, List.length_cons, List.length_nil]
                omega
              · rw [if_neg hwh] at heq
                by_cases hl1 : (Node.children w1).length = 1
                · rw [if_pos hl1] at heq
                  simp only [Option.some.injEq, Except.ok.injEq] at heq
                  subst heq
                  refine ⟨rfl, ?_, ⟨_, rfl⟩⟩
                  show (po.data ++ [_]).length ≤ po.data.length +
                    capCount (Node.mk a ix [w1] hh p t m true f)
                  rw [List.length_append, List.length_cons, List.length_nil]
                  omega
                · rw [if_neg hl1] at heq
                  simp only [Option.some.injEq, Except.ok.injEq] at heq
                  subst heq
                  refine ⟨rfl, ?_, ⟨_, rfl⟩⟩
                  show (po.data ++ [_]).length ≤ po.data.length +
                    capCount (Node.mk a ix [w1] hh p t m true f)
                  rw [List.length_append, List.length_cons, List.length_nil]
                  omega
          | catchAll =>
            rw [hnt] at heq
            simp only [] at heq
            rw [if_neg (show ¬po.cap < w1.maxParams by
              rw [hw1mp]
              omega)] at heq
            rw [if_neg (show ¬po.data.length + 1 > po.cap by omega)] at heq
            simp only [Option.some.injEq, Except.ok.injEq] at heq
            subst heq
            refine ⟨rfl, ?_, ⟨_, rfl⟩⟩
            show (po.data ++ [_]).length ≤ po.data.length +
              capCount (Node.mk a ix [w1] hh p t m true f)
            rw [List.length_append, List.length_cons, List.length_nil]
            omega
          | static =>
            rw [hnt] at heq
            simp at heq
          | root =>
            rw [hnt] at heq
            simp at heq
      · rw [if_neg hlong] at heq
        simp only [Option.some.injEq, Except.ok.injEq] at heq
        subst heq
        refine ⟨rfl, ?_, List.prefix_refl _⟩
        show po.data.length ≤ po.data.length + capCount _
        omega

theorem built_shape (rs : List (Str × HandlersChain)) (t : Node)
    (hb : buildTree rs = some t)
    (hok : ∀ r ∈ rs, r.1 ≠ [] ∧ rawParamCount r.1 < 255) :
    nodeAll (fun nd =>
      if nd.wildChild then
        nd.indices.isEmpty &&
        (match nd.children with
         | [w] => w.nType == NType.param ||
             (w.nType == NType.catchAll && !w.path.isEmpty)
         | _ => false)
      else if nd.nType == NType.param then
        decide (nd.children.length ≤ 1) &&
        (nd.indices.isEmpty || nd.indices == nd.children.map childIndexChar)
      else nd.indices == nd.children.map childIndexChar) t = true := by
  have hinv := buildTree_wf rs t hb hok
  refine nodeAll_imp (fun n hn => ?_) t hinv.1
  rw [wfB, Bool.and_eq_true] at hn
  have hs := hn.1
  rw [shapeB_iff] at hs
  obtain ⟨-, hmid, -⟩ := hs
  by_cases hw : n.wildChild = true
  · rw [if_pos hw] at hmid
    rw [if_pos hw]
    obtain ⟨hix, w1, hcs, hty⟩ := hmid
    rw [hix, hcs]
    simp only [List.isEmpty_nil, Bool.true_and]
    rcases hty with hx | ⟨hx, hy⟩
    · simp [hx]
    · simp [hx, hy]
  · rw [if_neg hw] at hmid
    rw [if_neg hw]
    obtain ⟨hif, -⟩ := hmid
    by_cases hp : n.nType = NType.param
    · rw [if_pos hp] at hif
      rw [if_pos (show (n.nType == NType.param) = true from beq_iff_eq.mpr hp)]
      obtain ⟨hlen, hor⟩ := hif
      rw [Bool.and_eq_true]
      refine ⟨by simpa using hlen, ?_⟩
      rcases hor with hx | hx
      · rw [hx]
        simp
      · rw [hx]
        simp
    · rw [if_neg hp] at hif
      rw [if_neg (show ¬(n.nType == NType.param) = true by simpa using hp)]
      rw [hif]
      simp

theorem built_lookup_bound (rs : List (Str × HandlersChain)) (t : Node)
    (hb : buildTree rs = some t)
    (hok : ∀ r ∈ rs, r.1 ≠ [] ∧ rawParamCount r.1 < 255)
    (path : Str) (u : Bool) (po : PBuf) (r : NodeValue)
    (hcap : capCount t ≤ po.cap) (hdata : po.data = [])
    (hv : t.getValue path po u = .ok r) :
    nodeListAll mpOK t.children = true ∧
    t.maxParams ≤ capCount t ∧
    r.params.cap = po.cap ∧
    r.params.data.length ≤ capCount t := by
  have hinv := buildTree_wf rs t hb hok
  obtain ⟨hwf, -, hmpc, -, hmp, -⟩ := hinv
  rw [Node.getValue] at hv
  cases hgv : Node.getValueW (nodeSize t) t path po u with
  | none =>
    rw [hgv] at hv
    simp at hv
  | some res =>
    rw [hgv] at hv
    simp only [Option.getD_some] at hv
    subst hv
    obtain ⟨B1, B2, B3⟩ := getValueW_bound _ _ _ _ _ _ hgv hwf hmpc
      (by rw [hdata]; simpa)
    refine ⟨hmpc, ?_, B1, ?_⟩
    · rcases hmp with hx | ⟨-, hx⟩
      · omega
      · exact hx
    · rw [hdata] at B2
      simpa using B2

theorem patParams_nil : patParams [] = [] := rfl

/-- C2: with only `/foo` registered, looking up `/foo/` yields no handlers
and a trailing-slash suggestion; with only `/foo/` registered, looking up
`/foo` yields no handlers and a trailing-slash suggestion; in either tree a
lookup of the unrelated `/bar` yields no handlers and no suggestion. -/
theorem claim_C2 :
    (Node.addRoute emptyNode ("/foo".toList) [1]).2 = none ∧
    (Node.addRoute emptyNode ("/foo/".toList) [1]).2 = none ∧
    lookupHandlers (fooTree.getValue ("/foo/".toList) noBuf false) = none ∧
    lookupTsr (fooTree.getValue ("/foo/".toList) noBuf false) = true ∧
    lookupHandlers (fooSlashTree.getValue ("/foo".toList) noBuf false) = none ∧
    lookupTsr (fooSlashTree.getValue ("/foo".toList) noBuf false) = true ∧
    lookupHandlers (fooTree.getValue ("/bar".toList) noBuf false) = none ∧
    lookupTsr (fooTree.getValue ("/bar".toList) noBuf false) = false ∧
    lookupHandlers (fooSlashTree.getValue ("/bar".toList) noBuf false) = none ∧
    lookupTsr (fooSlashTree.getValue ("/bar".toList) noBuf false) = false := by
  decide

/-- C3: after registering `/files/*filepath`, looking up `/files/a/b/c`
returns that route's handlers with exactly one captured parameter, key
`filepath` and value the whole remainder `/a/b/c` following `/files`,
embedded slashes included; a lookup of `/files` does not return those
handlers. -/
theorem claim_C3 :
    (Node.addRoute emptyNode ("/files/*filepath".toList) [7]).2 = none ∧
    lookupHandlers (filesTree.getValue ("/files/a/b/c".toList) noBuf false) = some [7] ∧
    lookupParams (filesTree.getValue ("/files/a/b/c".toList) noBuf false) =
      [(("filepath".toList), ("/a/b/c".toList))] ∧
    lookupHandlers (filesTree.getValue ("/files".toList) noBuf false) = none := by
  decide

/-- C4: registering `/user/:name` then `/user/profile` fails, in the
reverse order it also fails, and `/user/:name` then `/user/:id` fails; in
every failing case the set of reachable registered routes of the tree is
unchanged. -/
theorem claim_C4 :
    (Node.addRoute emptyNode ("/user/:name".toList) [1]).2 = none ∧
    (Node.addRoute emptyNode ("/user/profile".toList) [2]).2 = none ∧
    (Node.addRoute userParamTree ("/user/profile".toList) [2]).2.isSome = true ∧
    (Node.addRoute userParamTree ("/user/profile".toList) [2]).1.routesList =
      userParamTree.routesList ∧
    (Node.addRoute userProfileTree ("/user/:name".toList) [1]).2.isSome = true ∧
    (Node.addRoute userProfileTree ("/user/:name".toList) [1]).1.routesList =
      userProfileTree.routesList ∧
    (Node.addRoute userParamTree ("/user/:id".toList) [2]).2.isSome = true ∧
    (Node.addRoute userParamTree ("/user/:id".toList) [2]).1.routesList =
      userParamTree.routesList := by
  decide

/-- C7, counterexample: registering `/a/:x` and then `/a/:y/b` does not
succeed — the insertion walk aborts with a wildcard conflict because the
capture name at the shared position differs — and the reverse order aborts
as well, contradicting the claim that both registrations succeed. -/
theorem claim_C7_counterexample :
    (Node.addRoute emptyNode ("/a/:x".toList) [1]).2 = none ∧
    (Node.addRoute aParamTree ("/a/:y/b".toList) [2]).2 = some .wildcardConflict ∧
    (Node.addRoute emptyNode ("/a/:y/b".toList) [2]).2 = none ∧
    (Node.addRoute ((Node.addRoute emptyNode ("/a/:y/b".toList) [2]).1)
      ("/a/:x".toList) [1]).2 = some .wildcardConflict := by
  decide

/-- C7, amended: divergence after a shared capture position succeeds only
when the second route reuses the same capture name: registering `/a/:x` and
then `/a/:x/b` both succeed, and afterwards each route is independently
reachable with its own handler chain and captured value; with a different
capture name (`/a/:y/b`) the second registration aborts in either order. -/
theorem claim_C7_amended :
    (Node.addRoute emptyNode ("/a/:x".toList) [1]).2 = none ∧
    (Node.addRoute aParamTree ("/a/:x/b".toList) [2]).2 = none ∧
    lookupHandlers (axbTree.getValue ("/a/v".toList) noBuf false) = some [1] ∧
    lookupParams (axbTree.getValue ("/a/v".toList) noBuf false) =
      [(("x".toList), ("v".toList))] ∧
    lookupHandlers (axbTree.getValue ("/a/v/b".toList) noBuf false) = some [2] ∧
    lookupParams (axbTree.getValue ("/a/v/b".toList) noBuf false) =
      [(("x".toList), ("v".toList))] ∧
    (Node.addRoute aParamTree ("/a/:y/b".toList) [2]).2.isSome = true ∧
    (Node.addRoute ((Node.addRoute emptyNode ("/a/:y/b".toList) [2]).1)
      ("/a/:x".toList) [1]).2.isSome = true := by
  decide

/-- C8, counterexample: the single registration `/a/:x/*y`, which combines a
param capture with a final catch-all, is not rejected: `addRoute` returns
without error and the route is afterwards reachable, with both captures
reported. -/
theorem claim_C8_counterexample :
    (Node.addRoute emptyNode ("/a/:x/*y".toList) [9]).2 = none ∧
    lookupHandlers (paramCatchTree.getValue ("/a/v/w/z".toList) noBuf false) = some [9] ∧
    lookupParams (paramCatchTree.getValue ("/a/v/w/z".toList) noBuf false) =
      [(("x".toList), ("v".toList)), (("y".toList), ("/w/z".toList))] := by
  decide

/-- C8, amended: a registration combining a catch-all with another capture
is accepted when the catch-all is the final pattern element (`/a/:x/*y`
registers successfully and is reachable); what insertion rejects
synchronously and fatally is a catch-all that is not at the end of the
pattern, such as `/a/*y/:x`. -/
theorem claim_C8_amended :
    (Node.addRoute emptyNode ("/a/:x/*y".toList) [9]).2 = none ∧
    lookupHandlers (paramCatchTree.getValue ("/a/v/w/z".toList) noBuf false) = some [9] ∧
    (Node.addRoute emptyNode ("/a/*y/:x".toList) [9]).2 = some .catchAllNotAtEnd ∧
    (Node.addRoute emptyNode ("/a/*y/:x".toList) [9]).1.routesList = some [] := by
  decide

/-- C9: the registry-level `addRoute` rejects every call whose handler chain
is empty — one of its `assert1` guards (or, for an empty pattern, the
`path[0]` index panic) fires before any tree is touched — for every method,
every pattern and every pre-existing forest, so the registry is left
unchanged and no terminus with an empty chain is ever stored. -/
theorem claim_C9 (trees : MethodTrees) (method path : Str) :
    (centreAddRoute trees method path []).2.isSome = true ∧
    (centreAddRoute trees method path []).1 = trees := by
  unfold centreAddRoute
  rcases path with _ | ⟨c, cs⟩
  · simp
  · by_cases hc : c = '/'
    · rcases method with _ | ⟨m, ms⟩ <;> simp [hc]
    · simp [List.headD, hc]

/-- C10: `countParams` returns the number of ':' and '*' bytes of the
pattern capped at 255 — exactly the raw count when it is below 255 and
exactly 255 otherwise — so the value always fits the 8-bit `maxParams`
fields without wrapping. -/
theorem claim_C10 (path : Str) :
    countParams path = min (rawParamCount path) 255 ∧ countParams path ≤ 255 := by
  unfold countParams
  dsimp only []
  constructor
  · split <;> omega
  · split <;> omega

/-- C5, counterexample: after the single successful registration `/a/:x`
the root's `maxParams` is 0 while its param child's `maxParams` is 1, so
the claimed invariant `maxParams(node) ≥ maxParams(child)` fails — the
param branch of `insertChild` never raises the entry node's `maxParams`. -/
theorem claim_C5_counterexample :
    (Node.addRoute emptyNode ("/a/:x".toList) [1]).2 = none ∧
    aParamTree.maxParams = 0 ∧
    (aParamTree.children.getD 0 emptyNode).maxParams = 1 := by
  decide

/-- C6, counterexample: after the single successful registration `/a/:x/b`
the param node `:x` has exactly one child (the continuation `/b`) but an
empty `indices` string and `wildChild = false`, so the claimed invariant
`len(indices) == len(children)` (with the only exception being a set
`wildChild`) fails. -/
theorem claim_C6_counterexample :
    (Node.addRoute emptyNode ("/a/:x/b".toList) [1]).2 = none ∧
    (axbOneShotTree.children.getD 0 emptyNode).nType = .param ∧
    (axbOneShotTree.children.getD 0 emptyNode).wildChild = false ∧
    (axbOneShotTree.children.getD 0 emptyNode).children.length = 1 ∧
    (axbOneShotTree.children.getD 0 emptyNode).indices.length = 0 := by
  decide

/-- C5, amended: the claimed per-edge monotonicity fails (see the
counterexample: the root keeps `maxParams = 0` above a param child with 1),
but the buffer bound the field exists for holds.  In every tree built by
successful registrations from the empty tree, each child of the root has
`maxParams` equal to its subtree's capture count, the root's `maxParams` is
at most the tree's capture count, and every successful lookup started with
an empty buffer of capacity at least the tree's capture count returns its
params with the capacity unchanged — no reallocation occurred — and with
length at most that capture count. -/
theorem claim_C5_amended (rs : List (Str × HandlersChain)) (t : Node)
    (hb : buildTree rs = some t)
    (hok : ∀ r ∈ rs, r.1 ≠ [] ∧ rawParamCount r.1 < 255)
    (path : Str) (u : Bool) (po : PBuf) (r : NodeValue)
    (hcap : capCount t ≤ po.cap) (hdata : po.data = [])
    (hv : t.getValue path po u = .ok r) :
    nodeListAll mpOK t.children = true ∧
    t.maxParams ≤ capCount t ∧
    r.params.cap = po.cap ∧
    r.params.data.length ≤ capCount t :=
  built_lookup_bound rs t hb hok path u po r hcap hdata hv

theorem claim_C5_amended_witness :
    nodeListAll mpOK
      ((Node.addRoute emptyNode ("/a/:x/b".toList) [1]).1).children = true ∧
    ((Node.addRoute emptyNode ("/a/:x/b".toList) [1]).1).maxParams ≤
      capCount ((Node.addRoute emptyNode ("/a/:x/b".toList) [1]).1) ∧
    ((⟨some [1], ⟨[(("x".toList), ("v".toList))], 1⟩, false,
      ("/a/:x/b".toList)⟩ : NodeValue)).params.cap = (⟨[], 1⟩ : PBuf).cap ∧
    ((⟨some [1], ⟨[(("x".toList), ("v".toList))], 1⟩, false,
      ("/a/:x/b".toList)⟩ : NodeValue)).params.data.length ≤
      capCount ((Node.addRoute emptyNode ("/a/:x/b".toList) [1]).1) :=
  claim_C5_amended [(("/a/:x/b".toList), [1])]
    ((Node.addRoute emptyNode ("/a/:x/b".toList) [1]).1) rfl (by decide)
    ("/a/v/b".toList) false ⟨[], 1⟩
    ⟨some [1], ⟨[(("x".toList), ("v".toList))], 1⟩, false, ("/a/:x/b".toList)⟩
    (by decide) rfl rfl

/-- C6, amended: in every tree built by successful registrations from the
empty tree, a node with `wildChild` set has empty `indices` and exactly one
child, which is a param node or a catch-all node with non-empty path; a
param node (its `wildChild` is clear) has at most one child and either
empty `indices` — the usual case: its single continuation child is
descended into without an index — or `indices` matching its children's
first bytes; every other node satisfies the claimed
`indices[i] = children[i].path[0]` correspondence with equal lengths. -/
theorem claim_C6_amended (rs : List (Str × HandlersChain)) (t : Node)
    (hb : buildTree rs = some t)
    (hok : ∀ r ∈ rs, r.1 ≠ [] ∧ rawParamCount r.1 < 255) :
    nodeAll (fun nd =>
      if nd.wildChild then
        nd.indices.isEmpty &&
        (match nd.children with
         | [w] => w.nType == NType.param ||
             (w.nType == NType.catchAll && !w.path.isEmpty)
         | _ => false)
      else if nd.nType == NType.param then
        decide (nd.children.length ≤ 1) &&
        (nd.indices.isEmpty || nd.indices == nd.children.map childIndexChar)
      else nd.indices == nd.children.map childIndexChar) t = true :=
  built_shape rs t hb hok

theorem claim_C6_amended_witness :
    nodeAll (fun nd =>
      if nd.wildChild then
        nd.indices.isEmpty &&
        (match nd.children with
         | [w] => w.nType == NType.param ||
             (w.nType == NType.catchAll && !w.path.isEmpty)
         | _ => false)
      else if nd.nType == NType.param then
        decide (nd.children.length ≤ 1) &&
        (nd.indices.isEmpty || nd.indices == nd.children.map childIndexChar)
      else nd.indices == nd.children.map childIndexChar)
      ((Node.addRoute emptyNode ("/a/:x/b".toList) [1]).1) = true :=
  claim_C6_amended [(("/a/:x/b".toList), [1])]
    ((Node.addRoute emptyNode ("/a/:x/b".toList) [1]).1) rfl (by decide)

end Web
